import Mathlib

/-!
Verification development for the concurrent directory-tree library
(`src/src/Tree.c`, `src/src/path_utils.c`).

Paths are modelled as lists of characters (C strings without the
terminating NUL; the strings in play never contain interior NULs).
The tree itself is modelled as a heap of nodes addressed by natural
numbers (standing for the C pointers), so that parent back-pointers,
children maps, per-node lock counters and subtree reference counts are
all represented exactly as in the C struct `Tree`.

Counters (`r_count`, `w_count`, `r_wait`, `w_wait`, `refcount`) are
modelled as integers.  In C they are `size_t`; the two agree modulo
2^64, and in every execution considered here the values stay far inside
the representable range, so no explicit `% 2^64` is needed.
-/

namespace DirTree

/-- Characters of a path (a C string). -/
abbrev Path := List Char

/-- Value of `MAX_PATH_LENGTH`.  The header `path_utils.h` is not among
the sources; the spec gives the typical value 4095, which is used here.
No theorem below depends on the specific value. -/
def MAX_PATH_LENGTH : Nat := 4095

/-- Value of `MAX_FOLDER_NAME_LENGTH` (the spec calls it
`MAX_COMPONENT_LENGTH`).  The header `path_utils.h` is not among the
sources; the spec gives the typical value 255, which is used here.
No theorem below depends on the specific value. -/
def MAX_FOLDER_NAME_LENGTH : Nat := 255

/-- `c` is not the `SEPARATOR` character `'/'`. -/
def notSep (c : Char) : Bool := c != '/'

/-- C `islower` in the default locale: `'a' ≤ c ≤ 'z'`. -/
def isLowerAZ (c : Char) : Bool := decide ('a' ≤ c) && decide (c ≤ 'z')

/-- One scan step of splitting a string at `'/'` separators.  `acc` is
the component read so far.  A final segment with no terminating `'/'`
is dropped, exactly as the `strchr`-based loops in `path_utils.c` stop
when `strchr` returns NULL. -/
def splitSlashGo (acc : Path) : Path → List Path
  | [] => []
  | c :: rest => if c = '/' then acc :: splitSlashGo [] rest
                 else splitSlashGo (acc ++ [c]) rest

/-- Splits a string at `'/'` separators into the components that the
`strchr` loops of `path_utils.c` visit (segments terminated by `'/'`). -/
def splitSlash (cs : Path) : List Path := splitSlashGo [] cs

/-- The component list of a path: everything after the leading `'/'`,
split at separators. -/
def components (p : Path) : List Path := splitSlash p.tail

/-- Renders a component list as `c1/c2/.../ck/` (the part of a path
after the leading `'/'`). -/
def renderTail (comps : List Path) : Path := (comps.map (fun c => c ++ ['/'])).flatten

/-- Renders a component list as the absolute path `/c1/.../ck/`;
`renderPath [] = "/"`. -/
def renderPath (comps : List Path) : Path := '/' :: renderTail comps

/-- The per-component check performed by the loop body of
`is_valid_path`: non-empty, at most `MAX_FOLDER_NAME_LENGTH`
characters, all lowercase. -/
def compOk (c : Path) : Bool :=
  !c.isEmpty && decide (c.length ≤ MAX_FOLDER_NAME_LENGTH) && c.all isLowerAZ

/-- `is_valid_path` from `path_utils.c`: non-empty, bounded length,
begins and ends with `'/'`, and every `'/'`-terminated segment after
the first character passes the component check.  (Because the string
ends in `'/'`, the `strchr` call of the C loop always finds a
separator, so the loop inspects exactly the segments of `splitSlash`.) -/
def is_valid_path (p : Path) : Bool :=
  !p.isEmpty && decide (p.length ≤ MAX_PATH_LENGTH)
  && decide (p.head? = some '/') && decide (p.getLast? = some '/')
  && (splitSlash p.tail).all compOk

/-- `split_path` from `path_utils.c`: strips the first component off a
path.  Returns the component and the remaining subpath, which starts
with the `'/'` that `strchr` found; `none` when there is no second
separator (path is `"/"`, or a malformed string with no further
separator). -/
def split_path (p : Path) : Option (Path × Path) :=
  match p with
  | [] => none
  | _ :: rest =>
    let name := rest.takeWhile notSep
    let sub := rest.dropWhile notSep
    if sub.isEmpty then none else some (name, sub)

/-- `make_path_to_parent` from `path_utils.c`: drops the final `'/'`,
takes the maximal separator-free suffix as the last component, and
returns the remaining prefix (which keeps its trailing `'/'`) as the
parent path. -/
def make_path_to_parent (p : Path) : Path × Path :=
  let q := p.dropLast
  let name := (q.reverse.takeWhile notSep).reverse
  (q.take (q.length - name.length), name)

/-- `is_ancestor` from `path_utils.c`:
`strncmp(path1, path2, strlen(path1)) == 0`, i.e. `path1` is a string
prefix of `path2` (the strings contain no interior NUL). -/
def is_ancestor (p1 p2 : Path) : Bool := p1.isPrefixOf p2

/-- Longest common prefix of two component lists. -/
def commonStem : List Path → List Path → List Path
  | c :: cs, d :: ds => if c = d then c :: commonStem cs ds else []
  | _, _ => []

/-- Modelled from the spec: `make_path_to_LCA` is called by `tree_move`
but its definition is not among the sources (it lives in the missing
part of `path_utils.c`/`path_utils.h`).  Spec §4.1: the LCA path is the
longest path that is a prefix of both arguments at component
boundaries, and is always at least `"/"`. -/
def make_path_to_LCA (a b : Path) : Path :=
  renderPath (commonStem (components a) (components b))

/-! ### Basic facts about splitting and rendering -/

theorem splitSlashGo_cons (acc : Path) (c : Char) (rest : Path) :
    splitSlashGo acc (c :: rest) =
      if c = '/' then acc :: splitSlashGo [] rest
      else splitSlashGo (acc ++ [c]) rest := rfl

theorem getLast?_append_right {l l' : Path} (h : l'.getLast? = some '/') :
    (l ++ l').getLast? = some '/' := by
  rw [List.getLast?_append, h]
  rfl

theorem splitSlashGo_all_notSep (cs : Path) (acc : Path)
    (h : cs.all notSep = true) : splitSlashGo acc cs = [] := by
  induction cs generalizing acc with
  | nil => rfl
  | cons c rest ih =>
    simp only [List.all_cons, Bool.and_eq_true] at h
    have hc : ¬ c = '/' := by
      simpa [notSep] using h.1
    rw [splitSlashGo_cons, if_neg hc]
    exact ih _ h.2

theorem splitSlashGo_append_sep (a r : Path) (acc : Path)
    (h : a.all notSep = true) :
    splitSlashGo acc (a ++ '/' :: r) = (acc ++ a) :: splitSlashGo [] r := by
  induction a generalizing acc with
  | nil => simp [splitSlashGo_cons]
  | cons c rest ih =>
    simp only [List.all_cons, Bool.and_eq_true] at h
    have hc : ¬ c = '/' := by
      simpa [notSep] using h.1
    rw [List.cons_append, splitSlashGo_cons, if_neg hc, ih _ h.2]
    simp

theorem renderTail_cons (c : Path) (cs : List Path) :
    renderTail (c :: cs) = c ++ '/' :: renderTail cs := by
  simp [renderTail]

theorem splitSlash_renderTail (comps : List Path)
    (h : ∀ c ∈ comps, c.all notSep = true) :
    splitSlash (renderTail comps) = comps := by
  induction comps with
  | nil => rfl
  | cons c cs ih =>
    rw [renderTail_cons]
    unfold splitSlash
    rw [splitSlashGo_append_sep c (renderTail cs) [] (h c (by simp))]
    have := ih (fun d hd => h d (by simp [hd]))
    unfold splitSlash at this
    simp [this]

theorem splitSlashGo_ends_sep (cs : Path) (acc : Path)
    (h : cs.getLast? = some '/') :
    renderTail (splitSlashGo acc cs) = acc ++ cs := by
  induction cs generalizing acc with
  | nil => simp at h
  | cons c rest ih =>
    by_cases hc : c = '/'
    · subst hc
      cases rest with
      | nil => simp [splitSlashGo_cons, splitSlashGo, renderTail]
      | cons d ds =>
        have hr : (d :: ds).getLast? = some '/' := by
          rw [List.getLast?_cons_cons] at h
          exact h
        rw [splitSlashGo_cons, if_pos rfl, renderTail_cons, ih [] hr]
        simp
    · have hrest : rest ≠ [] := by
        intro he
        subst he
        simp [List.getLast?] at h
        exact hc h
      have hr : rest.getLast? = some '/' := by
        cases rest with
        | nil => exact absurd rfl hrest
        | cons d ds =>
          rw [List.getLast?_cons_cons] at h
          exact h
      rw [splitSlashGo_cons, if_neg hc, ih _ hr]
      simp

theorem renderTail_splitSlash (cs : Path) (h : cs.getLast? = some '/') :
    renderTail (splitSlash cs) = cs := by
  unfold splitSlash
  rw [splitSlashGo_ends_sep cs [] h]
  simp

theorem splitSlashGo_mem_notSep (cs : Path) (acc : Path)
    (hacc : acc.all notSep = true) :
    ∀ c ∈ splitSlashGo acc cs, c.all notSep = true := by
  induction cs generalizing acc with
  | nil => intro c hc; simp [splitSlashGo] at hc
  | cons x rest ih =>
    intro c hc
    by_cases hx : x = '/'
    · subst hx
      rw [splitSlashGo_cons, if_pos rfl] at hc
      rcases List.mem_cons.mp hc with hc | hc
      · subst hc; exact hacc
      · exact ih [] rfl c hc
    · rw [splitSlashGo_cons, if_neg hx] at hc
      have : (acc ++ [x]).all notSep = true := by
        simp only [List.all_append, Bool.and_eq_true]
        refine ⟨hacc, ?_⟩
        simp [notSep, hx]
      exact ih _ this c hc

theorem splitSlash_mem_notSep (cs : Path) :
    ∀ c ∈ splitSlash cs, c.all notSep = true :=
  splitSlashGo_mem_notSep cs [] rfl

theorem splitSlashGo_ne_nil (cs : Path) (acc : Path)
    (h : cs.getLast? = some '/') : splitSlashGo acc cs ≠ [] := by
  induction cs generalizing acc with
  | nil => simp at h
  | cons c rest ih =>
    by_cases hc : c = '/'
    · subst hc
      rw [splitSlashGo_cons, if_pos rfl]
      simp
    · have hrest : rest ≠ [] := by
        intro he
        subst he
        simp [List.getLast?] at h
        exact hc h
      have hr : rest.getLast? = some '/' := by
        cases rest with
        | nil => exact absurd rfl hrest
        | cons d ds => rw [List.getLast?_cons_cons] at h; exact h
      rw [splitSlashGo_cons, if_neg hc]
      exact ih _ hr

theorem splitSlash_ne_nil (cs : Path) (h : cs.getLast? = some '/') :
    splitSlash cs ≠ [] :=
  splitSlashGo_ne_nil cs [] h

theorem getLast?_cons_ne_nil {a : Char} {l : Path} (h : l ≠ []) :
    (a :: l).getLast? = l.getLast? := by
  cases l with
  | nil => exact absurd rfl h
  | cons b bs => exact List.getLast?_cons_cons

theorem renderTail_ne_nil (c : Path) (cs : List Path) :
    renderTail (c :: cs) ≠ [] := by
  rw [renderTail_cons]
  simp

theorem renderTail_getLast (comps : List Path) (h : comps ≠ []) :
    (renderTail comps).getLast? = some '/' := by
  induction comps with
  | nil => exact absurd rfl h
  | cons c cs ih =>
    rw [renderTail_cons]
    cases hcs : cs with
    | nil =>
      subst hcs
      exact getLast?_append_right rfl
    | cons d ds =>
      subst hcs
      refine getLast?_append_right ?_
      rw [getLast?_cons_ne_nil (renderTail_ne_nil d ds)]
      exact ih (by simp)

theorem components_renderPath (comps : List Path)
    (h : ∀ c ∈ comps, c.all notSep = true) :
    components (renderPath comps) = comps := by
  unfold components renderPath
  exact splitSlash_renderTail comps h

theorem compOk_all_notSep (c : Path) (h : compOk c = true) :
    c.all notSep = true := by
  unfold compOk at h
  simp only [Bool.and_eq_true] at h
  rcases h with ⟨⟨-, -⟩, hl⟩
  rw [List.all_eq_true] at hl ⊢
  intro x hx
  have := hl x hx
  unfold isLowerAZ at this
  simp only [Bool.and_eq_true, decide_eq_true_eq] at this
  unfold notSep
  have : x ≠ '/' := by
    intro he
    subst he
    exact absurd this.1 (by decide)
  simpa using this

/-- Every valid path decomposes as `renderPath comps` with well-formed
components (`comps = []` exactly for the root path `"/"`). -/
theorem valid_decomp (p : Path) (h : is_valid_path p = true) :
    ∃ comps : List Path, p = renderPath comps ∧
      (∀ c ∈ comps, compOk c = true) ∧ components p = comps := by
  unfold is_valid_path at h
  simp only [Bool.and_eq_true] at h
  rcases h with ⟨⟨⟨⟨hne, hlen⟩, hhead⟩, hlast⟩, hall⟩
  rw [decide_eq_true_eq] at hhead hlast
  cases p with
  | nil => simp at hne
  | cons c0 tail =>
    have hc0 : c0 = '/' := by
      simpa using hhead
    subst hc0
    by_cases htail : tail = []
    · subst htail
      exact ⟨[], rfl, by simp, rfl⟩
    · have htl : tail.getLast? = some '/' := by
        rw [getLast?_cons_ne_nil htail] at hlast
        exact hlast
      refine ⟨splitSlash tail, ?_, ?_, ?_⟩
      · unfold renderPath
        rw [renderTail_splitSlash tail htl]
      · intro c hc
        rw [List.all_eq_true] at hall
        exact hall c (by simpa using hc)
      · rfl

theorem valid_render (comps : List Path)
    (hok : ∀ c ∈ comps, compOk c = true)
    (hlen : (renderPath comps).length ≤ MAX_PATH_LENGTH) :
    is_valid_path (renderPath comps) = true := by
  unfold is_valid_path
  simp only [Bool.and_eq_true]
  refine ⟨⟨⟨⟨?_, ?_⟩, ?_⟩, ?_⟩, ?_⟩
  · simp [renderPath]
  · simpa using hlen
  · simp [renderPath]
  · rw [decide_eq_true_eq]
    cases hcs : comps with
    | nil => rfl
    | cons c cs =>
      unfold renderPath
      rw [getLast?_cons_ne_nil (by subst hcs; exact renderTail_ne_nil c cs)]
      exact renderTail_getLast _ (by simp [hcs])
  · unfold renderPath
    simp only [List.tail_cons]
    rw [splitSlash_renderTail comps (fun c hc => compOk_all_notSep c (hok c hc))]
    rw [List.all_eq_true]
    exact hok

/-- C8: `is_valid_path(path)` is true iff `path` is `"/"` or a
non-empty sequence of components of 1..`MAX_FOLDER_NAME_LENGTH`
lowercase letters, each preceded by `'/'` and with a final trailing
`'/'`, with total length at most `MAX_PATH_LENGTH`. -/
theorem c8_is_valid_path_spec : ∀ p : Path,
    is_valid_path p = true ↔
      ((p = ['/'] ∨ ∃ comps : List Path, comps ≠ [] ∧
          (∀ c ∈ comps, 1 ≤ c.length ∧ c.length ≤ MAX_FOLDER_NAME_LENGTH ∧
            ∀ ch ∈ c, 'a' ≤ ch ∧ ch ≤ 'z') ∧
          p = renderPath comps) ∧
        p.length ≤ MAX_PATH_LENGTH) := by
  intro p
  constructor
  · intro h
    have hlen : p.length ≤ MAX_PATH_LENGTH := by
      unfold is_valid_path at h
      simp only [Bool.and_eq_true] at h
      exact by simpa using h.1.1.1.2
    rcases valid_decomp p h with ⟨comps, hp, hok, -⟩
    refine ⟨?_, hlen⟩
    cases hcs : comps with
    | nil =>
      left
      rw [hp, hcs]
      rfl
    | cons c cs =>
      right
      refine ⟨comps, by simp [hcs], ?_, hp⟩
      intro d hd
      have := hok d hd
      unfold compOk at this
      simp only [Bool.and_eq_true] at this
      rcases this with ⟨⟨h1, h2⟩, h3⟩
      refine ⟨?_, by simpa using h2, ?_⟩
      · rcases d with - | ⟨x, xs⟩
        · simp at h1
        · simp
      · intro ch hch
        rw [List.all_eq_true] at h3
        have := h3 ch hch
        unfold isLowerAZ at this
        simp only [Bool.and_eq_true, decide_eq_true_eq] at this
        exact this
  · rintro ⟨hmain, hlen⟩
    rcases hmain with hroot | ⟨comps, -, hok, hp⟩
    · subst hroot
      decide
    · subst hp
      refine valid_render comps ?_ hlen
      intro c hc
      rcases hok c hc with ⟨h1, h2, h3⟩
      unfold compOk
      simp only [Bool.and_eq_true]
      refine ⟨⟨?_, by simpa using h2⟩, ?_⟩
      · rcases c with - | ⟨x, xs⟩
        · simp at h1
        · simp
      · rw [List.all_eq_true]
        intro ch hch
        unfold isLowerAZ
        simp only [Bool.and_eq_true, decide_eq_true_eq]
        exact h3 ch hch

/-! ### Component-boundary prefixes (for `is_ancestor`) -/

theorem append_sep_prefix (x : Path) (y u v : Path)
    (hx : x.all notSep = true) (hy : y.all notSep = true) :
    (x ++ '/' :: u <+: y ++ '/' :: v) ↔ (x = y ∧ u <+: v) := by
  induction x generalizing y with
  | nil =>
    cases y with
    | nil => simp
    | cons b y2 =>
      simp only [List.all_cons, Bool.and_eq_true] at hy
      have hb : '/' ≠ b := by
        intro he
        rw [← he] at hy
        simpa [notSep] using hy.1
      simp only [List.nil_append, List.cons_append, List.cons_prefix_cons]
      simp [hb]
  | cons a x2 ih =>
    cases y with
    | nil =>
      simp only [List.all_cons, Bool.and_eq_true] at hx
      have ha : a ≠ '/' := by
        intro he
        rw [he] at hx
        simpa [notSep] using hx.1
      simp only [List.cons_append, List.nil_append, List.cons_prefix_cons]
      simp [ha]
    | cons b y2 =>
      simp only [List.all_cons, Bool.and_eq_true] at hx hy
      simp only [List.cons_append, List.cons_prefix_cons]
      rw [ih y2 hx.2 hy.2]
      constructor
      · rintro ⟨rfl, rfl, h⟩
        exact ⟨rfl, h⟩
      · rintro ⟨he, h⟩
        rw [List.cons_eq_cons] at he
        exact ⟨he.1, he.2, h⟩

theorem renderTail_prefix (ca cb : List Path)
    (ha : ∀ c ∈ ca, c.all notSep = true) (hb : ∀ c ∈ cb, c.all notSep = true) :
    (renderTail ca <+: renderTail cb) ↔ ca <+: cb := by
  induction ca generalizing cb with
  | nil => simp [renderTail]
  | cons c ca2 ih =>
    cases cb with
    | nil =>
      constructor
      · intro h
        have := h.length_le
        rw [renderTail_cons] at this
        simp [renderTail] at this
      · intro h
        have := h.length_le
        simp at this
    | cons d cb2 =>
      rw [renderTail_cons, renderTail_cons,
        append_sep_prefix c d _ _ (ha c (by simp)) (hb d (by simp)),
        ih cb2 (fun e he => ha e (by simp [he])) (fun e he => hb e (by simp [he])),
        List.cons_prefix_cons]

theorem components_prefix_iff (a b : Path)
    (ha : is_valid_path a = true) (hb : is_valid_path b = true) :
    (a <+: b) ↔ components a <+: components b := by
  rcases valid_decomp a ha with ⟨ca, rfl, hoka, hca⟩
  rcases valid_decomp b hb with ⟨cb, rfl, hokb, hcb⟩
  rw [hca, hcb]
  unfold renderPath
  rw [List.cons_prefix_cons]
  simp only [true_and]
  exact renderTail_prefix ca cb
    (fun c hc => compOk_all_notSep c (hoka c hc))
    (fun c hc => compOk_all_notSep c (hokb c hc))

/-- C9: for valid paths, `is_ancestor(a, b)` holds iff `a` is a prefix
of `b` at component boundaries, and `is_ancestor(a, a)` always holds. -/
theorem c9_is_ancestor_spec (a b : Path)
    (ha : is_valid_path a = true) (hb : is_valid_path b = true) :
    (is_ancestor a b = true ↔ components a <+: components b) ∧
      is_ancestor a a = true := by
  constructor
  · rw [is_ancestor, List.isPrefixOf_iff_prefix]
    exact components_prefix_iff a b ha hb
  · rw [is_ancestor, List.isPrefixOf_iff_prefix]

/-- C9 witness: the theorem applied at `a = "/a/"`, `b = "/a/b/"`. -/
theorem c9_is_ancestor_spec_witness :
    (is_ancestor ['/', 'a', '/'] ['/', 'a', '/', 'b', '/'] = true ↔
      components ['/', 'a', '/'] <+: components ['/', 'a', '/', 'b', '/']) ∧
      is_ancestor ['/', 'a', '/'] ['/', 'a', '/'] = true :=
  c9_is_ancestor_spec ['/', 'a', '/'] ['/', 'a', '/', 'b', '/']
    (by decide) (by decide)

/-! ### The heap model of `Tree.c`

Nodes are addressed by natural numbers standing for the C pointers.
A `TreeState` is the heap of allocated nodes together with the root
address and the next fresh address. -/

/-- The C `struct Tree`: parent back-pointer, `subdirectories` map
(association list name ↦ node address), and the synchronisation
counters.  The mutex and the three condition variables have no
sequential state. -/
structure Node where
  parent : Option Nat
  children : List (Path × Nat)
  r_count : Int
  w_count : Int
  r_wait : Int
  w_wait : Int
  refcount : Int
deriving DecidableEq

/-- A fresh node as produced by `tree_new` (`calloc` zeroes every
field; `subdirectories` is a fresh empty map). -/
def emptyNode : Node :=
  ⟨none, [], 0, 0, 0, 0, 0⟩

/-- The heap of nodes, the root address, and allocator state. -/
structure TreeState where
  nodes : List (Nat × Node)
  root : Nat
  nextId : Nat
deriving DecidableEq

/-- Heap lookup (pointer dereference). -/
def lookupN : List (Nat × Node) → Nat → Option Node
  | [], _ => none
  | e :: l, i => if e.1 = i then some e.2 else lookupN l i

/-- Entry-wise heap update: applies `f` to the node at address `i`. -/
def adjustN (l : List (Nat × Node)) (i : Nat) (f : Node → Node) :
    List (Nat × Node) :=
  l.map (fun e => if e.1 = i then (e.1, f e.2) else e)

/-- State-level heap update at address `i`. -/
def adjust (st : TreeState) (i : Nat) (f : Node → Node) : TreeState :=
  { st with nodes := adjustN st.nodes i f }

/-- Removes the node at address `i` from the heap (C `free`). -/
def removeN (st : TreeState) (i : Nat) : TreeState :=
  { st with nodes := st.nodes.filter (fun e => !(e.1 == i)) }

/-- `hmap_get`: lookup by name in a children map. -/
def hmap_get : List (Path × Nat) → Path → Option Nat
  | [], _ => none
  | e :: l, k => if e.1 = k then some e.2 else hmap_get l k

/-- `hmap_remove`: removes the entry with the given name. -/
def hmap_remove (m : List (Path × Nat)) (k : Path) : List (Path × Nat) :=
  m.filter (fun e => !(e.1 == k))

/-- The children map of the node at address `i` (empty if the address
is dangling, which never happens in a well-formed state). -/
def childrenOf (st : TreeState) (i : Nat) : List (Path × Nat) :=
  match lookupN st.nodes i with
  | none => []
  | some n => n.children

/-- `reader_lock` of `Tree.c`, as completed by a sequential caller: the
waiting branch (`r_wait++` … `r_wait--`) has no net effect, so the call
amounts to `r_count++`.  The fine-grained blocking protocol is modelled
separately by `RwStep`. -/
def reader_lock (st : TreeState) (i : Nat) : TreeState :=
  adjust st i (fun n => { n with r_count := n.r_count + 1 })

/-- `reader_unlock` of `Tree.c`: `r_count--` (plus a signal with no
sequential state). -/
def reader_unlock (st : TreeState) (i : Nat) : TreeState :=
  adjust st i (fun n => { n with r_count := n.r_count - 1 })

/-- `writer_lock` of `Tree.c`, as completed by a sequential caller:
`w_count++` (the `w_wait` round-trips have no net effect). -/
def writer_lock (st : TreeState) (i : Nat) : TreeState :=
  adjust st i (fun n => { n with w_count := n.w_count + 1 })

/-- `writer_unlock` of `Tree.c`: `w_count--` (plus signalling). -/
def writer_unlock (st : TreeState) (i : Nat) : TreeState :=
  adjust st i (fun n => { n with w_count := n.w_count - 1 })

/-- The `refcount++` performed under the node's mutex in `get_node`. -/
def bumpRef (st : TreeState) (i : Nat) : TreeState :=
  adjust st i (fun n => { n with refcount := n.refcount + 1 })

/-- The `refcount--` performed under the node's mutex in `unwind_path`. -/
def decRef (st : TreeState) (i : Nat) : TreeState :=
  adjust st i (fun n => { n with refcount := n.refcount - 1 })

/-- `wait_until_subtree_activity_ceases`: a pure wait, no state change
for a sequential caller. -/
def wait_until_subtree_activity_ceases (st : TreeState) (_i : Nat) : TreeState :=
  st

/-- `unwind_path` of `Tree.c`: walks parent pointers from `start` and
decrements `refcount` until reaching `end_` (exclusive); `end_ = none`
walks up to and including the root.  The C loop walks raw pointers;
the model carries fuel, which every call site sets to the heap size —
enough for any parent chain of a well-formed state. -/
def unwind_path (st : TreeState) (start end_ : Option Nat) (fuel : Nat) :
    TreeState :=
  match fuel with
  | 0 => st
  | fuel + 1 =>
    if start = end_ then st
    else
      match start with
      | none => st
      | some i =>
        match lookupN st.nodes i with
        | none => st
        | some n => unwind_path (decRef st i) n.parent end_ fuel

/-- `READER` from `Tree.c` (the `reader` flag is a C `bool`). -/
def READER : Bool := true

/-- `WRITER` from `Tree.c`. -/
def WRITER : Bool := false

/-- The descent loop of `get_node`.  Fuel bounds the number of
`split_path` iterations; every call supplies the length of the path,
which suffices because `split_path` strictly shrinks its argument. -/
def get_node_go (st : TreeState) (cur : Nat) (path : Path)
    (start_locked : Bool) (reader : Bool) (end_ : Option Nat) (fuel : Nat) :
    Option Nat × TreeState :=
  match fuel with
  | 0 => (some cur, st)
  | fuel + 1 =>
    match split_path path with
    | none => (some cur, st)
    | some (name, sub) =>
      match hmap_get (childrenOf st cur) name with
      | none =>
        let st1 := unwind_path st (some cur) end_ st.nodes.length
        let st2 := if !start_locked then reader_unlock st1 cur else st1
        (none, st2)
      | some child =>
        let st1 := if sub = ['/'] && !reader then writer_lock st child
                   else reader_lock st child
        let st2 := bumpRef st1 child
        let st3 := if !start_locked then reader_unlock st2 cur else st2
        get_node_go st3 child sub false reader end_ fuel

/-- `get_node` of `Tree.c`.  When `start_locked` is false it locks the
start node (write-locked only when the whole path is `"/"` and the mode
is `WRITER`), increments its `refcount`, and records `end = tree->parent`
for the failure unwind; when `start_locked` is true the start node is
already locked by the caller and `end` stays NULL. -/
def get_node (st : TreeState) (start : Nat) (path : Path)
    (start_locked : Bool) (reader : Bool) : Option Nat × TreeState :=
  if start_locked then
    get_node_go st start path true reader none path.length
  else
    let st1 := if path = ['/'] && !reader then writer_lock st start
               else reader_lock st start
    let st2 := bumpRef st1 start
    let end_ := (lookupN st2.nodes start).bind Node.parent
    get_node_go st2 start path false reader end_ path.length

/-- `tree_new` of `Tree.c`, used as the API entry point: a heap holding
exactly the root node. -/
def tree_new : TreeState :=
  { nodes := [(0, emptyNode)], root := 0, nextId := 1 }

/-- The `tree_new()` call inside `tree_create`: allocates a fresh empty
node and returns its address. -/
def alloc_node (st : TreeState) : Nat × TreeState :=
  (st.nextId,
    { st with nodes := st.nodes ++ [(st.nextId, emptyNode)],
              nextId := st.nextId + 1 })

/-- Sets the `parent` field of the node at address `i`
(`child->parent = parent` / `s_dir->parent = t_parent`). -/
def setParent (st : TreeState) (i : Nat) (p : Option Nat) : TreeState :=
  adjust st i (fun n => { n with parent := p })

/-- `hmap_insert` into the children of node `i` (called only when the
name is absent; the map representation appends). -/
def insertChild (st : TreeState) (i : Nat) (name : Path) (c : Nat) :
    TreeState :=
  adjust st i (fun n => { n with children := n.children ++ [(name, c)] })

/-- `pop_subdir`: removes the named entry from the children of node `i`
(the caller looks the value up separately). -/
def popChild (st : TreeState) (i : Nat) (name : Path) : TreeState :=
  adjust st i (fun n => { n with children := hmap_remove n.children name })

/-- `tree_free` of `Tree.c`: recursively frees the subtree rooted at
`i`.  Fuel is the heap size (at least the subtree depth in a
well-formed state); the operations only ever free leaf nodes. -/
def tree_free_go (fuel : Nat) (st : TreeState) (i : Nat) : TreeState :=
  match fuel with
  | 0 => st
  | fuel + 1 =>
    match lookupN st.nodes i with
    | none => st
    | some n =>
      removeN (n.children.foldl (fun s e => tree_free_go fuel s e.2) st) i

/-- `tree_free` with its fuel instantiated to the heap size. -/
def tree_free (st : TreeState) (i : Nat) : TreeState :=
  tree_free_go st.nodes.length st i

/-- `SUCCESS` from `Tree.c`. -/
def SUCCESS : Int := 0
/-- `EMOVINGANCESTOR` from `Tree.c` (`-1`). -/
def EMOVINGANCESTOR : Int := -1
/-- Linux `EINVAL`. -/
def EINVAL : Int := 22
/-- Linux `ENOENT`. -/
def ENOENT : Int := 2
/-- Linux `EEXIST`. -/
def EEXIST : Int := 17
/-- Linux `EBUSY`. -/
def EBUSY : Int := 16
/-- Linux `ENOTEMPTY`. -/
def ENOTEMPTY : Int := 39

/-- `IS_ROOT(path)` from `Tree.c`: `strcmp(path, "/") == 0`. -/
def IS_ROOT (p : Path) : Bool := p == ['/']

/-- `hmap_size` of the children of the node at `i` (`subdir_count`). -/
def subdir_count (st : TreeState) (i : Nat) : Nat :=
  (childrenOf st i).length

/-- Comparison of two strings by C `strcmp`, as a `≤` test (used to
model the `qsort` ordering of `make_map_contents_array`).  For NUL-free
strings `strcmp a b ≤ 0` is exactly this lexicographic test. -/
def strLe : Path → Path → Bool
  | [], _ => true
  | _ :: _, [] => false
  | a :: as, b :: bs => if a < b then true else if b < a then false else strLe as bs

/-- The `qsort`-by-`strcmp` ordering as a proposition. -/
def strLeP (a b : Path) : Prop := strLe a b = true

instance : DecidableRel strLeP := fun a b => by
  unfold strLeP
  infer_instance

/-- `make_map_contents_array`: the keys of the map, sorted by `strcmp`
(`qsort` with `compare_string_pointers`). -/
def make_map_contents_array (m : List (Path × Nat)) : List Path :=
  (m.map Prod.fst).insertionSort strLeP

/-- `make_map_contents_string`: concatenates every sorted key followed
by `','`, then replaces the final `','` by the terminating NUL — i.e.
drops it; an empty map gives the empty string. -/
def make_map_contents_string (m : List (Path × Nat)) : Path :=
  let keys := make_map_contents_array m
  if keys.isEmpty then []
  else ((keys.map (fun k => k ++ [','])).flatten).dropLast

/-- `tree_list` of `Tree.c`. -/
def tree_list (st : TreeState) (path : Path) : Option Path × TreeState :=
  if ¬ is_valid_path path = true then (none, st)
  else
    match get_node st st.root path false READER with
    | (none, st1) => (none, st1)
    | (some dir, st1) =>
      let result := make_map_contents_string (childrenOf st1 dir)
      let st2 := unwind_path st1 (some dir) none st1.nodes.length
      let st3 := reader_unlock st2 dir
      (some result, st3)

/-- `tree_create` of `Tree.c`. -/
def tree_create (st : TreeState) (path : Path) : Int × TreeState :=
  if ¬ is_valid_path path = true then (EINVAL, st)
  else if IS_ROOT path then (EEXIST, st)
  else
    let pp := make_path_to_parent path
    match get_node st st.root pp.1 false WRITER with
    | (none, st1) => (ENOENT, st1)
    | (some parent, st1) =>
      let al := alloc_node st1
      let child := al.1
      let st2 := setParent al.2 child (some parent)
      match hmap_get (childrenOf st2 parent) pp.2 with
      | some _ =>
        let st3 := unwind_path st2 (some parent) none st2.nodes.length
        let st4 := writer_unlock st3 parent
        let st5 := tree_free st4 child
        (EEXIST, st5)
      | none =>
        let st3 := insertChild st2 parent pp.2 child
        let st4 := unwind_path st3 (some parent) none st3.nodes.length
        let st5 := writer_unlock st4 parent
        (SUCCESS, st5)

/-- `tree_remove` of `Tree.c`.  Note: unlike `tree_create`, `tree_list`
and `tree_move`, the C function performs no `is_valid_path` check. -/
def tree_remove (st : TreeState) (path : Path) : Int × TreeState :=
  if IS_ROOT path then (EBUSY, st)
  else
    let pp := make_path_to_parent path
    match get_node st st.root pp.1 false WRITER with
    | (none, st1) => (ENOENT, st1)
    | (some parent, st1) =>
      match hmap_get (childrenOf st1 parent) pp.2 with
      | none =>
        let st2 := unwind_path st1 (some parent) none st1.nodes.length
        let st3 := writer_unlock st2 parent
        (ENOENT, st3)
      | some child =>
        let st2 := writer_lock st1 child
        if subdir_count st2 child > 0 then
          let st3 := writer_unlock st2 child
          let st4 := unwind_path st3 (some parent) none st3.nodes.length
          let st5 := writer_unlock st4 parent
          (ENOTEMPTY, st5)
        else
          let st3 := popChild st2 parent pp.2
          let st4 := writer_unlock st3 child
          let st5 := unwind_path st4 (some parent) none st4.nodes.length
          let st6 := writer_unlock st5 parent
          let st7 := tree_free st6 child
          (SUCCESS, st7)

/-- The `CLEANUP()` macro of the `s_parent_path ≠ t_parent_path` branch
of `tree_move`. -/
def move_cleanup2 (st : TreeState) (s_parent t_parent lca : Nat) :
    TreeState :=
  let st1 := if s_parent ≠ lca then
               writer_unlock
                 (unwind_path st (some s_parent) (some lca) st.nodes.length)
                 s_parent
             else st
  let st2 := if t_parent ≠ lca then
               writer_unlock
                 (unwind_path st1 (some t_parent) (some lca) st1.nodes.length)
                 t_parent
             else st1
  writer_unlock (unwind_path st2 (some lca) none st2.nodes.length) lca

/-- The `CLEANUP()` macro of the `s_parent_path = t_parent_path` branch
of `tree_move`. -/
def move_cleanup1 (st : TreeState) (s_parent lca : Nat) : TreeState :=
  let st1 := if s_parent ≠ lca then
               writer_unlock
                 (unwind_path st (some s_parent) (some lca) st.nodes.length)
                 s_parent
             else st
  writer_unlock (unwind_path st1 (some lca) none st1.nodes.length) lca

/-- `tree_move` of `Tree.c`.  Divergence note: when the target is a
strict ancestor of the source (e.g. `move("/a/b/", "/a/")` — valid
paths that pass the `is_ancestor(s,t)` guard, which only tests
s-prefix-of-t), the LCA of the two full paths is the target itself, so
`index_after_lca = strlen(lca_path) - 1` exceeds
`strlen(t_parent_path)` and the C descent at `Tree.c:371` reads
uninitialized stack memory past the NUL of `t_parent_path` — undefined
behaviour.  The model's `pt.1.drop index_after_lca` renders that read
as an empty subpath, an arbitrary total completion with no counterpart
in the program.  Every theorem about `tree_move` therefore either
stays within the faithful guard prefix (`Tree.c:328-335`, claims C1
and C2) or excludes this input class with an
`is_ancestor t_path s_path = false` hypothesis (claims C4 and C5). -/
def tree_move (st : TreeState) (s_path t_path : Path) : Int × TreeState :=
  if ¬ (is_valid_path s_path = true ∧ is_valid_path t_path = true) then
    (EINVAL, st)
  else if IS_ROOT s_path then (EBUSY, st)
  else if IS_ROOT t_path then (EEXIST, st)
  else if is_ancestor s_path t_path then (EMOVINGANCESTOR, st)
  else
    let ps := make_path_to_parent s_path
    let pt := make_path_to_parent t_path
    let lca_path := make_path_to_LCA s_path t_path
    match get_node st st.root lca_path false WRITER with
    | (none, st1) => (ENOENT, st1)
    | (some lca, st1) =>
      let index_after_lca := lca_path.length - 1
      if ps.1 ≠ pt.1 then
        match get_node st1 lca (ps.1.drop index_after_lca) true WRITER with
        | (none, st2) => (ENOENT, writer_unlock st2 lca)
        | (some s_parent, st2) =>
          match get_node st2 lca (pt.1.drop index_after_lca) true WRITER with
          | (none, st3) =>
            let st4 := if s_parent ≠ lca then
                         writer_unlock
                           (unwind_path st3 (some s_parent) (some lca)
                             st3.nodes.length)
                           s_parent
                       else st3
            (ENOENT, writer_unlock st4 lca)
          | (some t_parent, st3) =>
            match hmap_get (childrenOf st3 s_parent) ps.2 with
            | none => (ENOENT, move_cleanup2 st3 s_parent t_parent lca)
            | some s_dir =>
              match hmap_get (childrenOf st3 t_parent) pt.2 with
              | some _ =>
                if is_ancestor s_path t_path then
                  (EMOVINGANCESTOR, move_cleanup2 st3 s_parent t_parent lca)
                else
                  (EEXIST, move_cleanup2 st3 s_parent t_parent lca)
              | none =>
                let st4 := wait_until_subtree_activity_ceases st3 s_dir
                let st5 := popChild st4 s_parent ps.2
                let st6 := setParent st5 s_dir (some t_parent)
                let st7 := insertChild st6 t_parent pt.2 s_dir
                (SUCCESS, move_cleanup2 st7 s_parent t_parent lca)
      else
        match get_node st1 lca (ps.1.drop index_after_lca) true WRITER with
        | (none, st2) =>
          let st3 := unwind_path st2 (some lca) none st2.nodes.length
          (ENOENT, writer_unlock st3 lca)
        | (some s_parent, st2) =>
          let t_parent := s_parent
          match hmap_get (childrenOf st2 s_parent) ps.2 with
          | none => (ENOENT, move_cleanup1 st2 s_parent lca)
          | some s_dir =>
            match hmap_get (childrenOf st2 t_parent) pt.2 with
            | some _ =>
              if s_path = t_path then
                (SUCCESS, move_cleanup1 st2 s_parent lca)
              else if is_ancestor s_path t_path then
                (EMOVINGANCESTOR, move_cleanup1 st2 s_parent lca)
              else
                (EEXIST, move_cleanup1 st2 s_parent lca)
            | none =>
              let st3 := wait_until_subtree_activity_ceases st2 s_dir
              let st4 := popChild st3 s_parent ps.2
              let st5 := insertChild st4 t_parent pt.2 s_dir
              let st6 := setParent st5 s_dir (some t_parent)
              (SUCCESS, move_cleanup1 st6 s_parent lca)

/-- Pure structural descent: follows the children maps along a
component list (no locking).  This is the reference notion of "the
node at a path". -/
def descend (st : TreeState) : Nat → List Path → Option Nat
  | cur, [] => some cur
  | cur, name :: rest =>
    match hmap_get (childrenOf st cur) name with
    | none => none
    | some c => descend st c rest

/-- The node named by an absolute path, if any. -/
def nodeAt (st : TreeState) (p : Path) : Option Nat :=
  descend st st.root (components p)

/-! ### Early-return behaviour of `tree_move` (claims C1, C2) -/

theorem is_ancestor_self (p : Path) : is_ancestor p p = true := by
  rw [is_ancestor, List.isPrefixOf_iff_prefix]

theorem IS_ROOT_eq_false {p : Path} (h : p ≠ ['/']) : IS_ROOT p = false := by
  unfold IS_ROOT
  simpa using h

theorem valid_ne_nil {p : Path} (h : is_valid_path p = true) : p ≠ [] := by
  intro he
  subst he
  simp [is_valid_path] at h

theorem ancestor_of_root {s : Path} (hs : is_valid_path s = true)
    (h : is_ancestor s ['/'] = true) : s = ['/'] := by
  rw [is_ancestor, List.isPrefixOf_iff_prefix] at h
  rcases List.prefix_cons_iff.mp h with h0 | ⟨t, ht, htp⟩
  · exact absurd h0 (valid_ne_nil hs)
  · rw [List.prefix_nil] at htp
    subst htp
    exact ht

/-- C1 (amended): for every valid non-root path `p`, `move(p, p)`
returns `EMOVINGANCESTOR` — the "cannot move into descendant" error of
the spec's "invalid argument" class, not ok — and leaves the tree
unchanged, whether or not `p` exists; the `is_ancestor` guard fires
before any lookup because every path is an ancestor of itself.
(`move("/", "/")` returns `EBUSY` instead.) -/
theorem c1_self_move (st : TreeState) (p : Path)
    (hv : is_valid_path p = true) (hr : p ≠ ['/']) :
    tree_move st p p = (EMOVINGANCESTOR, st) := by
  unfold tree_move
  rw [if_neg (by simp [hv])]
  rw [IS_ROOT_eq_false hr]
  simp [is_ancestor_self]

/-- C1 witness: the amended theorem applied at `p = "/a/"`. -/
theorem c1_self_move_witness :
    tree_move tree_new ['/', 'a', '/'] ['/', 'a', '/'] =
      (EMOVINGANCESTOR, tree_new) :=
  c1_self_move tree_new ['/', 'a', '/'] (by decide) (by decide)

/-- C1 counterexample to the claim as stated: `"/a/"` names an existing
directory of the state `create(tree_new, "/a/")`, yet `move("/a/", "/a/")`
does not return ok. -/
theorem c1_self_move_counterexample :
    nodeAt (tree_create tree_new ['/', 'a', '/']).2 ['/', 'a', '/'] ≠ none ∧
    (tree_move (tree_create tree_new ['/', 'a', '/']).2 ['/', 'a', '/']
        ['/', 'a', '/']).1 ≠ SUCCESS := by
  decide

/-- C2 (amended): for all valid `s`, `t` with `s` an ancestor of `t`
and `s ≠ "/"`, `move(s, t)` returns `EMOVINGANCESTOR` (the spec's
"invalid argument" class) and leaves the tree unchanged.  For `s = "/"`
(an ancestor of every path) the earlier root guard returns `EBUSY`
instead. -/
theorem c2_move_into_descendant (st : TreeState) (s t : Path)
    (hs : is_valid_path s = true) (ht : is_valid_path t = true)
    (hanc : is_ancestor s t = true) (hroot : s ≠ ['/']) :
    tree_move st s t = (EMOVINGANCESTOR, st) := by
  have htr : t ≠ ['/'] := by
    intro he
    subst he
    exact hroot (ancestor_of_root hs hanc)
  unfold tree_move
  rw [if_neg (by simp [hs, ht])]
  rw [IS_ROOT_eq_false hroot, IS_ROOT_eq_false htr]
  simp [hanc]

/-- C2 witness: the amended theorem applied at `s = "/a/"`,
`t = "/a/b/"`. -/
theorem c2_move_into_descendant_witness :
    tree_move tree_new ['/', 'a', '/'] ['/', 'a', '/', 'b', '/'] =
      (EMOVINGANCESTOR, tree_new) :=
  c2_move_into_descendant tree_new ['/', 'a', '/'] ['/', 'a', '/', 'b', '/']
    (by decide) (by decide) (by decide) (by decide)

/-- C2 counterexample to the claim as stated: `s = "/"` and
`t = "/a/"` are valid, `is_ancestor(s, t)` holds, yet `move` returns
`EBUSY`, which is neither `EINVAL` nor `EMOVINGANCESTOR`. -/
theorem c2_move_into_descendant_counterexample :
    is_valid_path ['/'] = true ∧ is_valid_path ['/', 'a', '/'] = true ∧
    is_ancestor ['/'] ['/', 'a', '/'] = true ∧
    tree_move tree_new ['/'] ['/', 'a', '/'] = (EBUSY, tree_new) ∧
    EBUSY ≠ EINVAL ∧ EBUSY ≠ EMOVINGANCESTOR := by
  decide

/-- C3: `tree_remove` performs no `is_valid_path` check at all: on the
syntactically invalid path `"/A/"` (uppercase letter) it traverses the
tree and reports `ENOENT` instead of the claimed `EINVAL`.  The state
is nevertheless restored. -/
theorem c3_remove_skips_validation :
    is_valid_path ['/', 'A', '/'] = false ∧
    tree_remove tree_new ['/', 'A', '/'] = (ENOENT, tree_new) := by
  decide

/-! ### The per-node readers/writer protocol (claim C7)

The counters of one node, with one transition per atomic counter change
a call of `reader_lock` / `reader_unlock` / `writer_lock` /
`writer_unlock` can perform (`Tree.c` lines 78–140).  A blocked call
contributes its waiting-counter increment when it starts waiting and
the rest when the condition it waits for holds. -/

structure RwState where
  r_count : Nat
  w_count : Nat
  r_wait : Nat
  w_wait : Nat
deriving DecidableEq

/-- Atomic steps of the readers/writer protocol on one node. -/
inductive RwStep : RwState → RwState → Prop
  /-- `reader_lock`, fast path: no active or waiting writer. -/
  | reader_lock_fast (s : RwState) :
      s.w_wait = 0 → s.w_count = 0 →
      RwStep s { s with r_count := s.r_count + 1 }
  /-- `reader_lock`, slow path, entering the wait: `r_wait++`. -/
  | reader_begin_wait (s : RwState) :
      s.w_wait + s.w_count ≠ 0 →
      RwStep s { s with r_wait := s.r_wait + 1 }
  /-- `reader_lock`, slow path, waking with `w_count = 0`:
  `r_wait--; r_count++`. -/
  | reader_wake (s : RwState) :
      s.w_count = 0 → 1 ≤ s.r_wait →
      RwStep s { s with r_wait := s.r_wait - 1, r_count := s.r_count + 1 }
  /-- `reader_unlock`: `r_count--` (the asserts require an active
  reader). -/
  | reader_unlock (s : RwState) :
      1 ≤ s.r_count →
      RwStep s { s with r_count := s.r_count - 1 }
  /-- `writer_lock`, fast path: no active reader or writer. -/
  | writer_lock_fast (s : RwState) :
      s.r_count = 0 → s.w_count = 0 →
      RwStep s { s with w_count := s.w_count + 1 }
  /-- `writer_lock`, slow path, entering the wait: `w_wait++`. -/
  | writer_begin_wait (s : RwState) :
      s.r_count + s.w_count ≠ 0 →
      RwStep s { s with w_wait := s.w_wait + 1 }
  /-- `writer_lock`, slow path, waking with the node free:
  `w_wait--; w_count++`. -/
  | writer_wake (s : RwState) :
      s.r_count = 0 → s.w_count = 0 → 1 ≤ s.w_wait →
      RwStep s { s with w_wait := s.w_wait - 1, w_count := s.w_count + 1 }
  /-- `writer_unlock`: `w_count--` (the asserts require the single
  active writer). -/
  | writer_unlock (s : RwState) :
      s.w_count = 1 →
      RwStep s { s with w_count := s.w_count - 1 }

/-- States reachable by interleavings of the protocol steps from the
freshly initialised node (`calloc` zeroes all counters). -/
inductive RwReachable : RwState → Prop
  | init : RwReachable ⟨0, 0, 0, 0⟩
  | step {s s2 : RwState} : RwReachable s → RwStep s s2 → RwReachable s2

/-- C7: in every state reachable by any interleaving of `reader_lock`,
`reader_unlock`, `writer_lock` and `writer_unlock` steps on a node,
`w_count` is 0 or 1, and `w_count = 1` implies `r_count = 0`. -/
theorem c7_rw_invariant (s : RwState) (h : RwReachable s) :
    s.w_count ≤ 1 ∧ (s.w_count = 1 → s.r_count = 0) := by
  induction h with
  | init => exact ⟨by decide, by intro h; cases h⟩
  | step hr hs ih =>
    cases hs with
    | reader_lock_fast hww hwc => exact ⟨by simp [hwc], by simp [hwc]⟩
    | reader_begin_wait hne => exact ih
    | reader_wake hwc hrw => exact ⟨by simp [hwc], by simp [hwc]⟩
    | reader_unlock hrc =>
      refine ⟨ih.1, ?_⟩
      intro hw
      have := ih.2 hw
      simp [this]
    | writer_lock_fast hrc hwc => exact ⟨by simp [hwc], by simp [hrc]⟩
    | writer_begin_wait hne => exact ih
    | writer_wake hrc hwc hww => exact ⟨by simp [hwc], by simp [hrc]⟩
    | writer_unlock hw => exact ⟨by simp [hw], by simp [hw]⟩

/-- C7 witness: the invariant at a concrete reachable state (a writer
has locked the node). -/
theorem c7_rw_invariant_witness :
    (RwState.mk 0 1 0 0).w_count ≤ 1 ∧
      ((RwState.mk 0 1 0 0).w_count = 1 → (RwState.mk 0 1 0 0).r_count = 0) :=
  c7_rw_invariant ⟨0, 1, 0, 0⟩
    (RwReachable.step RwReachable.init
      (RwStep.writer_lock_fast ⟨0, 0, 0, 0⟩ rfl rfl))

/-! ### Heap-update algebra

All lock and refcount operations are entry-wise counter edits
(`adjust`); they commute with one another and cancel in pairs, which is
what the cleanup paths of the operations rely on. -/

theorem lookupN_adjustN (l : List (Nat × Node)) (i j : Nat) (f : Node → Node) :
    lookupN (adjustN l i f) j =
      if j = i then (lookupN l j).map f else lookupN l j := by
  induction l with
  | nil => by_cases hj : j = i <;> simp [adjustN, lookupN, hj]
  | cons e l ih =>
    rcases e with ⟨k, n⟩
    by_cases hki : k = i <;> by_cases hkj : k = j <;> by_cases hji : j = i <;>
      simp_all [adjustN, lookupN]

theorem lookupN_adjustN_self (l : List (Nat × Node)) (i : Nat) (f : Node → Node) :
    lookupN (adjustN l i f) i = (lookupN l i).map f := by
  rw [lookupN_adjustN, if_pos rfl]

theorem lookupN_adjustN_other (l : List (Nat × Node)) {i j : Nat} (f : Node → Node)
    (h : j ≠ i) : lookupN (adjustN l i f) j = lookupN l j := by
  rw [lookupN_adjustN, if_neg h]

theorem adjustN_adjustN (l : List (Nat × Node)) (i j : Nat) (f g : Node → Node)
    (hfg : ∀ n, f (g n) = g (f n)) :
    adjustN (adjustN l j g) i f = adjustN (adjustN l i f) j g := by
  unfold adjustN
  rw [List.map_map, List.map_map]
  apply List.map_congr_left
  intro e _
  by_cases hi : e.1 = i <;> by_cases hj : e.1 = j <;> by_cases hij : i = j <;>
    simp_all [Function.comp, hfg]

theorem adjustN_same (l : List (Nat × Node)) (i : Nat) (f g : Node → Node) :
    adjustN (adjustN l i g) i f = adjustN l i (fun n => f (g n)) := by
  unfold adjustN
  rw [List.map_map]
  apply List.map_congr_left
  intro e _
  by_cases hi : e.1 = i <;> simp [Function.comp, hi]

theorem adjustN_id (l : List (Nat × Node)) (i : Nat) :
    adjustN l i (fun n => n) = l := by
  unfold adjustN
  apply List.map_id''
  intro e
  by_cases hi : e.1 = i
  · rw [if_pos hi]
  · rw [if_neg hi]

theorem adjust_adjust (st : TreeState) (i j : Nat) (f g : Node → Node)
    (hfg : ∀ n, f (g n) = g (f n)) :
    adjust (adjust st j g) i f = adjust (adjust st i f) j g := by
  unfold adjust
  simp only [adjustN_adjustN st.nodes i j f g hfg]

theorem adjust_cancel (st : TreeState) (i : Nat) (f g : Node → Node)
    (hfg : ∀ n, f (g n) = n) :
    adjust (adjust st i g) i f = st := by
  unfold adjust
  simp only [adjustN_same]
  have : (fun n => f (g n)) = (fun n : Node => n) := funext hfg
  rw [this, adjustN_id]

/-! Per-field stability: counter edits do not change the tree shape. -/

/-- `f` edits only the synchronisation counters of a node. -/
def CounterOnly (f : Node → Node) : Prop :=
  ∀ n, (f n).parent = n.parent ∧ (f n).children = n.children

theorem counterOnly_rlock : CounterOnly (fun n => { n with r_count := n.r_count + 1 }) :=
  fun _ => ⟨rfl, rfl⟩
theorem counterOnly_runlock : CounterOnly (fun n => { n with r_count := n.r_count - 1 }) :=
  fun _ => ⟨rfl, rfl⟩
theorem counterOnly_wlock : CounterOnly (fun n => { n with w_count := n.w_count + 1 }) :=
  fun _ => ⟨rfl, rfl⟩
theorem counterOnly_wunlock : CounterOnly (fun n => { n with w_count := n.w_count - 1 }) :=
  fun _ => ⟨rfl, rfl⟩
theorem counterOnly_bump : CounterOnly (fun n => { n with refcount := n.refcount + 1 }) :=
  fun _ => ⟨rfl, rfl⟩
theorem counterOnly_dec : CounterOnly (fun n => { n with refcount := n.refcount - 1 }) :=
  fun _ => ⟨rfl, rfl⟩

theorem lookup_parent_adjust (st : TreeState) (j : Nat) (f : Node → Node)
    (hf : CounterOnly f) (i : Nat) :
    (lookupN (adjust st j f).nodes i).map Node.parent =
      (lookupN st.nodes i).map Node.parent := by
  show (lookupN (adjustN st.nodes j f) i).map Node.parent = _
  rw [lookupN_adjustN]
  by_cases hi : i = j
  · subst hi
    simp only [if_pos rfl, Option.map_map]
    cases lookupN st.nodes i with
    | none => rfl
    | some n => simp [Function.comp, (hf n).1]
  · rw [if_neg hi]

theorem childrenOf_adjust (st : TreeState) (j : Nat) (f : Node → Node)
    (hf : CounterOnly f) (i : Nat) :
    childrenOf (adjust st j f) i = childrenOf st i := by
  unfold childrenOf
  show (match lookupN (adjustN st.nodes j f) i with
        | none => [] | some n => n.children) = _
  rw [lookupN_adjustN]
  by_cases hi : i = j
  · subst hi
    simp only [if_pos rfl]
    cases lookupN st.nodes i with
    | none => rfl
    | some n => simp [(hf n).2]
  · rw [if_neg hi]

theorem isSome_lookup_adjust (st : TreeState) (j : Nat) (f : Node → Node) (i : Nat) :
    (lookupN (adjust st j f).nodes i).isSome = (lookupN st.nodes i).isSome := by
  show (lookupN (adjustN st.nodes j f) i).isSome = _
  rw [lookupN_adjustN]
  by_cases hi : i = j
  · subst hi
    simp only [if_pos rfl]
    cases lookupN st.nodes i <;> rfl
  · rw [if_neg hi]

theorem root_adjust (st : TreeState) (j : Nat) (f : Node → Node) :
    (adjust st j f).root = st.root := rfl

theorem nextId_adjust (st : TreeState) (j : Nat) (f : Node → Node) :
    (adjust st j f).nextId = st.nextId := rfl

theorem length_adjust (st : TreeState) (j : Nat) (f : Node → Node) :
    (adjust st j f).nodes.length = st.nodes.length := by
  show (adjustN st.nodes j f).length = _
  unfold adjustN
  exact List.length_map _ _

/-! ### Refcount folds and their cancellation -/

/-- Decrements `refcount` along a list of addresses. -/
def decRefs (st : TreeState) (L : List Nat) : TreeState := L.foldl decRef st

/-- Increments `refcount` along a list of addresses. -/
def bumpRefs (st : TreeState) (L : List Nat) : TreeState := L.foldl bumpRef st

theorem decRefs_nil (st : TreeState) : decRefs st [] = st := rfl

theorem decRefs_cons (st : TreeState) (a : Nat) (L : List Nat) :
    decRefs st (a :: L) = decRefs (decRef st a) L := rfl

theorem bumpRefs_cons (st : TreeState) (a : Nat) (L : List Nat) :
    bumpRefs st (a :: L) = bumpRefs (bumpRef st a) L := rfl

theorem decRefs_append (st : TreeState) (L M : List Nat) :
    decRefs st (L ++ M) = decRefs (decRefs st L) M := by
  unfold decRefs
  exact List.foldl_append _ _ _ _

theorem decRef_bumpRef_cancel (st : TreeState) (i : Nat) :
    decRef (bumpRef st i) i = st := by
  unfold decRef bumpRef
  apply adjust_cancel
  intro n
  cases n
  simp

/-- The bumps of a descent are undone by the decrements of the unwind,
which runs over the same addresses in reverse order. -/
theorem decRefs_reverse_bumpRefs (st : TreeState) (L : List Nat) :
    decRefs (bumpRefs st L) L.reverse = st := by
  induction L generalizing st with
  | nil => rfl
  | cons a L ih =>
    rw [bumpRefs_cons, List.reverse_cons, decRefs_append, ih]
    show decRef (bumpRef st a) a = st
    exact decRef_bumpRef_cancel st a

theorem decRef_comm (st : TreeState) (i j : Nat) :
    decRef (decRef st j) i = decRef (decRef st i) j := by
  unfold decRef
  apply adjust_adjust
  intro n
  cases n
  simp

theorem decRef_bumpRef_comm (st : TreeState) (i j : Nat) :
    decRef (bumpRef st j) i = bumpRef (decRef st i) j := by
  unfold decRef bumpRef
  apply adjust_adjust
  intro n
  cases n
  simp

theorem decRefs_bumpRef_comm (st : TreeState) (j : Nat) (L : List Nat) :
    decRefs (bumpRef st j) L = bumpRef (decRefs st L) j := by
  induction L generalizing st with
  | nil => rfl
  | cons a L ih => rw [decRefs_cons, decRefs_cons, decRef_bumpRef_comm, ih]

theorem decRefs_reader_unlock_comm (st : TreeState) (j : Nat) (L : List Nat) :
    decRefs (reader_unlock st j) L = reader_unlock (decRefs st L) j := by
  induction L generalizing st with
  | nil => rfl
  | cons a L ih =>
    rw [decRefs_cons, decRefs_cons, ← ih]
    congr 1
    unfold decRef reader_unlock
    apply adjust_adjust
    intro n
    cases n
    simp

theorem decRefs_writer_lock_comm (st : TreeState) (j : Nat) (L : List Nat) :
    decRefs (writer_lock st j) L = writer_lock (decRefs st L) j := by
  induction L generalizing st with
  | nil => rfl
  | cons a L ih =>
    rw [decRefs_cons, decRefs_cons, ← ih]
    congr 1
    unfold decRef writer_lock
    apply adjust_adjust
    intro n
    cases n
    simp

theorem decRefs_reader_lock_comm (st : TreeState) (j : Nat) (L : List Nat) :
    decRefs (reader_lock st j) L = reader_lock (decRefs st L) j := by
  induction L generalizing st with
  | nil => rfl
  | cons a L ih =>
    rw [decRefs_cons, decRefs_cons, ← ih]
    congr 1
    unfold decRef reader_lock
    apply adjust_adjust
    intro n
    cases n
    simp

theorem reader_unlock_reader_lock (st : TreeState) (i : Nat) :
    reader_unlock (reader_lock st i) i = st := by
  unfold reader_unlock reader_lock
  apply adjust_cancel
  intro n
  cases n
  simp

theorem writer_unlock_writer_lock (st : TreeState) (i : Nat) :
    writer_unlock (writer_lock st i) i = st := by
  unfold writer_unlock writer_lock
  apply adjust_cancel
  intro n
  cases n
  simp

theorem reader_unlock_bumpRef_comm (st : TreeState) (i j : Nat) :
    reader_unlock (bumpRef st j) i = bumpRef (reader_unlock st i) j := by
  unfold reader_unlock bumpRef
  apply adjust_adjust
  intro n
  cases n
  simp

theorem reader_unlock_bumpRefs_comm (st : TreeState) (i : Nat) (L : List Nat) :
    reader_unlock (bumpRefs st L) i = bumpRefs (reader_unlock st i) L := by
  induction L generalizing st with
  | nil => rfl
  | cons a L ih => rw [bumpRefs_cons, bumpRefs_cons, ih, reader_unlock_bumpRef_comm]

theorem reader_unlock_reader_lock_comm (st : TreeState) (i j : Nat) :
    reader_unlock (reader_lock st j) i = reader_lock (reader_unlock st i) j := by
  unfold reader_unlock reader_lock
  apply adjust_adjust
  intro n
  cases n
  simp

theorem reader_unlock_writer_lock_comm (st : TreeState) (i j : Nat) :
    reader_unlock (writer_lock st j) i = writer_lock (reader_unlock st i) j := by
  unfold reader_unlock writer_lock
  apply adjust_adjust
  intro n
  cases n
  simp

/-! ### Parent chains and `unwind_path` -/

/-- `UpChain st i e L`: `L` is the chain of addresses walked by
following parent pointers from `i` until reaching `e` (exclusive). -/
inductive UpChain (st : TreeState) : Nat → Option Nat → List Nat → Prop
  | single (i : Nat) (n : Node) (e : Option Nat) :
      lookupN st.nodes i = some n → n.parent = e → UpChain st i e [i]
  | step (i : Nat) (n : Node) (p : Nat) (e : Option Nat) (L : List Nat) :
      lookupN st.nodes i = some n → n.parent = some p → UpChain st p e L →
      UpChain st i e (i :: L)

theorem upChain_head {st : TreeState} {i : Nat} {e : Option Nat} {L : List Nat}
    (h : UpChain st i e L) : ∃ M, L = i :: M := by
  cases h with
  | single i n e h1 h2 => exact ⟨[], rfl⟩
  | step i n p e L h1 h2 h3 => exact ⟨L, rfl⟩

theorem upChain_adjust {st : TreeState} {i : Nat} {e : Option Nat} {L : List Nat}
    (j : Nat) (f : Node → Node) (hf : CounterOnly f)
    (h : UpChain st i e L) : UpChain (adjust st j f) i e L := by
  induction h with
  | single i2 n e2 h1 h2 =>
    by_cases hij : i2 = j
    · refine UpChain.single i2 (f n) e2 ?_ ?_
      · show lookupN (adjustN st.nodes j f) i2 = some (f n)
        rw [lookupN_adjustN, if_pos hij, h1]
        rfl
      · rw [(hf n).1, h2]
    · refine UpChain.single i2 n e2 ?_ h2
      show lookupN (adjustN st.nodes j f) i2 = some n
      rw [lookupN_adjustN, if_neg hij, h1]
  | step i2 n p e2 L2 h1 h2 h3 ih =>
    by_cases hij : i2 = j
    · refine UpChain.step i2 (f n) p e2 L2 ?_ ?_ ih
      · show lookupN (adjustN st.nodes j f) i2 = some (f n)
        rw [lookupN_adjustN, if_pos hij, h1]
        rfl
      · rw [(hf n).1, h2]
    · refine UpChain.step i2 n p e2 L2 ?_ h2 ih
      show lookupN (adjustN st.nodes j f) i2 = some n
      rw [lookupN_adjustN, if_neg hij, h1]

theorem unwind_path_refl (st : TreeState) (e : Option Nat) (fuel : Nat) :
    unwind_path st e e fuel = st := by
  cases fuel with
  | zero => rfl
  | succ k =>
    unfold unwind_path
    rw [if_pos rfl]

/-- Against a parent chain, `unwind_path` is exactly the refcount
decrement along the chain. -/
theorem unwind_path_eq_decRefs (L : List Nat) :
    ∀ (st : TreeState) (i : Nat) (e : Option Nat),
      UpChain st i e L → (∀ j ∈ L, some j ≠ e) →
      ∀ fuel, L.length ≤ fuel →
      unwind_path st (some i) e fuel = decRefs st L := by
  induction L with
  | nil =>
    intro st i e hch
    cases hch
  | cons a L ih =>
    intro st i e hch hne fuel hfuel
    cases hch with
    | single i2 n e2 hl hp =>
      cases fuel with
      | zero => simp at hfuel
      | succ k =>
        unfold unwind_path
        rw [if_neg (by exact fun h => hne a (by simp) h)]
        show (match lookupN st.nodes a with
              | none => st
              | some n => unwind_path (decRef st a) n.parent e k) = decRefs st [a]
        rw [hl]
        show unwind_path (decRef st a) n.parent e k = decRefs st [a]
        rw [hp, unwind_path_refl]
        rfl
    | step i2 n p e2 L2 hl hp hc =>
      cases fuel with
      | zero => simp at hfuel
      | succ k =>
        unfold unwind_path
        rw [if_neg (by exact fun h => hne a (by simp) h)]
        show (match lookupN st.nodes a with
              | none => st
              | some n => unwind_path (decRef st a) n.parent e k) =
          decRefs st (a :: L)
        rw [hl]
        show unwind_path (decRef st a) n.parent e k = decRefs st (a :: L)
        rw [hp]
        rw [decRefs_cons]
        have hch2 : UpChain (decRef st a) p e L :=
          upChain_adjust a _ counterOnly_dec hc
        exact ih (decRef st a) p e hch2
          (fun j hj => hne j (by simp [hj])) k (by simpa using hfuel)

/-! ### Well-formed heaps -/

/-- The allocated addresses. -/
def heapKeys (st : TreeState) : List Nat := st.nodes.map Prod.fst

/-- The parent chain of `i` (inclusive), computed with fuel: `none` on
a dangling pointer or when the fuel runs out (a parent cycle). -/
def chainUp (st : TreeState) : Nat → Nat → Option (List Nat)
  | 0, _ => none
  | fuel + 1, i =>
    match lookupN st.nodes i with
    | none => none
    | some n =>
      match n.parent with
      | none => some [i]
      | some p => (chainUp st fuel p).map (fun L => i :: L)

/-- Structural well-formedness of a heap: distinct addresses, a root
with no parent that is the only parentless node, children pointing at
allocated nodes whose back-pointer returns to the parent, every node
listed among its parent's children, terminating parent chains (no
cycles), distinct names per directory, no node is a child twice
or under two names, the root is nobody's child, and all addresses are
below the allocation counter. -/
def WFs (st : TreeState) : Prop :=
  (heapKeys st).Nodup ∧
  (lookupN st.nodes st.root).map Node.parent = some none ∧
  (∀ e ∈ st.nodes, e.2.parent = none → e.1 = st.root) ∧
  (∀ e ∈ st.nodes, ∀ c ∈ e.2.children,
      (lookupN st.nodes c.2).map Node.parent = some (some e.1)) ∧
  (∀ e ∈ st.nodes, ∀ p ∈ e.2.parent.toList,
      e.1 ∈ (childrenOf st p).map Prod.snd) ∧
  (∀ e ∈ st.nodes, (chainUp st st.nodes.length e.1).isSome = true) ∧
  (∀ e ∈ st.nodes, (e.2.children.map Prod.fst).Nodup) ∧
  (∀ e ∈ st.nodes, ∀ c ∈ e.2.children, c.2 ≠ st.root) ∧
  (∀ e ∈ st.nodes, ∀ e2 ∈ st.nodes, ∀ c ∈ e.2.children, ∀ c2 ∈ e2.2.children,
      c.2 = c2.2 → e.1 = e2.1 ∧ c.1 = c2.1) ∧
  (∀ e ∈ st.nodes, e.1 < st.nextId)

theorem WFs.keysNodup {st : TreeState} (h : WFs st) : (heapKeys st).Nodup := h.1

theorem WFs.rootParent {st : TreeState} (h : WFs st) :
    (lookupN st.nodes st.root).map Node.parent = some none := h.2.1

theorem WFs.parentNone {st : TreeState} (h : WFs st) :
    ∀ e ∈ st.nodes, e.2.parent = none → e.1 = st.root := h.2.2.1

theorem WFs.childClosed {st : TreeState} (h : WFs st) :
    ∀ e ∈ st.nodes, ∀ c ∈ e.2.children,
      (lookupN st.nodes c.2).map Node.parent = some (some e.1) := h.2.2.2.1

theorem WFs.parentInChildren {st : TreeState} (h : WFs st) :
    ∀ e ∈ st.nodes, ∀ p ∈ e.2.parent.toList,
      e.1 ∈ (childrenOf st p).map Prod.snd := h.2.2.2.2.1

theorem WFs.chainOk {st : TreeState} (h : WFs st) :
    ∀ e ∈ st.nodes, (chainUp st st.nodes.length e.1).isSome = true :=
  h.2.2.2.2.2.1

theorem WFs.childKeysNodup {st : TreeState} (h : WFs st) :
    ∀ e ∈ st.nodes, (e.2.children.map Prod.fst).Nodup := h.2.2.2.2.2.2.1

theorem WFs.rootNotChild {st : TreeState} (h : WFs st) :
    ∀ e ∈ st.nodes, ∀ c ∈ e.2.children, c.2 ≠ st.root := h.2.2.2.2.2.2.2.1

theorem WFs.childUnique {st : TreeState} (h : WFs st) :
    ∀ e ∈ st.nodes, ∀ e2 ∈ st.nodes, ∀ c ∈ e.2.children,
      ∀ c2 ∈ e2.2.children, c.2 = c2.2 → e.1 = e2.1 ∧ c.1 = c2.1 :=
  h.2.2.2.2.2.2.2.2.1

theorem WFs.idBound {st : TreeState} (h : WFs st) :
    ∀ e ∈ st.nodes, e.1 < st.nextId := h.2.2.2.2.2.2.2.2.2

theorem wfs_tree_new : WFs tree_new := by
  unfold WFs
  decide

/-! ### Basic lookup lemmas -/

theorem mem_of_lookupN {l : List (Nat × Node)} {i : Nat} {n : Node}
    (h : lookupN l i = some n) : (i, n) ∈ l := by
  induction l with
  | nil => simp [lookupN] at h
  | cons e l ih =>
    rw [lookupN] at h
    by_cases he : e.1 = i
    · rw [if_pos he] at h
      injection h with h2
      rw [← he, ← h2]
      exact List.mem_cons_self _ _
    · rw [if_neg he] at h
      exact List.mem_cons_of_mem _ (ih h)

theorem lookupN_isSome_of_mem {l : List (Nat × Node)} {e : Nat × Node}
    (h : e ∈ l) : (lookupN l e.1).isSome = true := by
  induction l with
  | nil => simp at h
  | cons a l ih =>
    rw [lookupN]
    by_cases ha : a.1 = e.1
    · rw [if_pos ha]
      rfl
    · rw [if_neg ha]
      rcases List.mem_cons.mp h with h | h
      · subst h
        exact absurd rfl ha
      · exact ih h

theorem lookupN_of_mem {l : List (Nat × Node)} {i : Nat} {n : Node}
    (hnd : (l.map Prod.fst).Nodup) (h : (i, n) ∈ l) :
    lookupN l i = some n := by
  induction l with
  | nil => simp at h
  | cons e l ih =>
    rw [List.map_cons, List.nodup_cons] at hnd
    rw [lookupN]
    rcases List.mem_cons.mp h with h | h
    · subst h
      rw [if_pos rfl]
    · by_cases he : e.1 = i
      · exfalso
        apply hnd.1
        rw [he]
        exact List.mem_map_of_mem Prod.fst h
      · rw [if_neg he]
        exact ih hnd.2 h

theorem hmap_get_mem {m : List (Path × Nat)} {k : Path} {v : Nat}
    (h : hmap_get m k = some v) : (k, v) ∈ m := by
  induction m with
  | nil => simp [hmap_get] at h
  | cons e m ih =>
    rw [hmap_get] at h
    by_cases he : e.1 = k
    · rw [if_pos he] at h
      injection h with h2
      rw [← he, ← h2]
      exact List.mem_cons_self _ _
    · rw [if_neg he] at h
      exact List.mem_cons_of_mem _ (ih h)

theorem hmap_get_none {m : List (Path × Nat)} {k : Path}
    (h : hmap_get m k = none) : ∀ v, (k, v) ∉ m := by
  induction m with
  | nil => simp
  | cons e m ih =>
    intro v hv
    rw [hmap_get] at h
    by_cases he : e.1 = k
    · rw [if_pos he] at h
      cases h
    · rw [if_neg he] at h
      rcases List.mem_cons.mp hv with hv | hv
      · subst hv
        exact he rfl
      · exact ih h v hv

/-! ### Shape equality

Two states have the same shape when one is obtained from the other by
per-entry counter edits: same addresses in the same order, same roots,
parents and children.  All lock/refcount traffic of the operations
preserves the shape. -/

/-- `st2` differs from `st` only in per-node counter values. -/
def ShapeEq (st st2 : TreeState) : Prop :=
  st2.root = st.root ∧ st2.nextId = st.nextId ∧
  ∃ F : Nat → Node → Node,
    (∀ i n, (F i n).parent = n.parent ∧ (F i n).children = n.children) ∧
    st2.nodes = st.nodes.map (fun e => (e.1, F e.1 e.2))

theorem shapeEq_refl (st : TreeState) : ShapeEq st st := by
  refine ⟨rfl, rfl, fun _ n => n, fun _ _ => ⟨rfl, rfl⟩, ?_⟩
  symm
  apply List.map_id''
  intro e
  rfl

theorem shapeEq_trans {st st2 st3 : TreeState}
    (h1 : ShapeEq st st2) (h2 : ShapeEq st2 st3) : ShapeEq st st3 := by
  obtain ⟨hr1, hn1, F, hF, hm1⟩ := h1
  obtain ⟨hr2, hn2, G, hG, hm2⟩ := h2
  refine ⟨hr2.trans hr1, hn2.trans hn1, fun i n => G i (F i n), ?_, ?_⟩
  · intro i n
    exact ⟨(hG i (F i n)).1.trans (hF i n).1, (hG i (F i n)).2.trans (hF i n).2⟩
  · rw [hm2, hm1, List.map_map]
    rfl

theorem shapeEq_adjust (st : TreeState) (j : Nat) (f : Node → Node)
    (hf : CounterOnly f) : ShapeEq st (adjust st j f) := by
  refine ⟨rfl, rfl, fun i n => if i = j then f n else n, ?_, ?_⟩
  · intro i n
    by_cases hij : i = j <;> simp [hij, (hf n).1, (hf n).2]
  · show adjustN st.nodes j f = _
    unfold adjustN
    apply List.map_congr_left
    intro e _
    by_cases he : e.1 = j <;> simp [he]

theorem shapeEq_reader_lock (st : TreeState) (i : Nat) :
    ShapeEq st (reader_lock st i) := shapeEq_adjust st i _ counterOnly_rlock
theorem shapeEq_reader_unlock (st : TreeState) (i : Nat) :
    ShapeEq st (reader_unlock st i) := shapeEq_adjust st i _ counterOnly_runlock
theorem shapeEq_writer_lock (st : TreeState) (i : Nat) :
    ShapeEq st (writer_lock st i) := shapeEq_adjust st i _ counterOnly_wlock
theorem shapeEq_writer_unlock (st : TreeState) (i : Nat) :
    ShapeEq st (writer_unlock st i) := shapeEq_adjust st i _ counterOnly_wunlock
theorem shapeEq_bumpRef (st : TreeState) (i : Nat) :
    ShapeEq st (bumpRef st i) := shapeEq_adjust st i _ counterOnly_bump
theorem shapeEq_decRef (st : TreeState) (i : Nat) :
    ShapeEq st (decRef st i) := shapeEq_adjust st i _ counterOnly_dec

theorem shapeEq_decRefs (st : TreeState) (L : List Nat) :
    ShapeEq st (decRefs st L) := by
  induction L generalizing st with
  | nil => exact shapeEq_refl st
  | cons a L ih => exact shapeEq_trans (shapeEq_decRef st a) (ih (decRef st a))

theorem shapeEq_bumpRefs (st : TreeState) (L : List Nat) :
    ShapeEq st (bumpRefs st L) := by
  induction L generalizing st with
  | nil => exact shapeEq_refl st
  | cons a L ih => exact shapeEq_trans (shapeEq_bumpRef st a) (ih (bumpRef st a))

theorem unwind_path_zero (st : TreeState) (s e : Option Nat) :
    unwind_path st s e 0 = st := rfl

theorem unwind_path_succ_stop (st : TreeState) (e : Option Nat) (k : Nat) :
    unwind_path st e e (k + 1) = st := by
  unfold unwind_path
  rw [if_pos rfl]

theorem unwind_path_succ_none (st : TreeState) (e : Option Nat) (k : Nat)
    (h : (none : Option Nat) ≠ e) : unwind_path st none e (k + 1) = st := by
  unfold unwind_path
  rw [if_neg h]

theorem unwind_path_succ_dangling (st : TreeState) (i : Nat) (e : Option Nat)
    (k : Nat) (h : (some i : Option Nat) ≠ e) (hl : lookupN st.nodes i = none) :
    unwind_path st (some i) e (k + 1) = st := by
  unfold unwind_path
  rw [if_neg h]
  show (match lookupN st.nodes i with
        | none => st
        | some n => unwind_path (decRef st i) n.parent e k) = st
  rw [hl]

theorem unwind_path_succ_step (st : TreeState) (i : Nat) (e : Option Nat)
    (k : Nat) (n : Node) (h : (some i : Option Nat) ≠ e)
    (hl : lookupN st.nodes i = some n) :
    unwind_path st (some i) e (k + 1) =
      unwind_path (decRef st i) n.parent e k := by
  conv_lhs => unfold unwind_path
  rw [if_neg h]
  show (match lookupN st.nodes i with
        | none => st
        | some n => unwind_path (decRef st i) n.parent e k) = _
  rw [hl]

theorem shapeEq_unwind_path (st : TreeState) (s e : Option Nat) (fuel : Nat) :
    ShapeEq st (unwind_path st s e fuel) := by
  induction fuel generalizing st s with
  | zero => exact shapeEq_refl st
  | succ k ih =>
    by_cases hse : s = e
    · rw [hse, unwind_path_succ_stop]
      exact shapeEq_refl st
    · cases s with
      | none =>
        rw [unwind_path_succ_none st e k hse]
        exact shapeEq_refl st
      | some i =>
        cases h : lookupN st.nodes i with
        | none =>
          rw [unwind_path_succ_dangling st i e k hse h]
          exact shapeEq_refl st
        | some n =>
          rw [unwind_path_succ_step st i e k n hse h]
          exact shapeEq_trans (shapeEq_decRef st i) (ih _ _)

theorem shapeEq_startLock (st : TreeState) (child : Nat) (b : Bool) :
    ShapeEq st (if b then writer_lock st child else reader_lock st child) := by
  cases b
  · simp only [Bool.false_eq_true, if_false]
    exact shapeEq_reader_lock st child
  · simp only [if_true]
    exact shapeEq_writer_lock st child

theorem shapeEq_optUnlock (st : TreeState) (cur : Nat) (sl : Bool) :
    ShapeEq st (if !sl then reader_unlock st cur else st) := by
  cases sl
  · simp only [Bool.not_false, if_true]
    exact shapeEq_reader_unlock st cur
  · simp only [Bool.not_true, Bool.false_eq_true, if_false]
    exact shapeEq_refl st

theorem get_node_go_zero (st : TreeState) (cur : Nat) (path : Path)
    (sl reader : Bool) (e : Option Nat) :
    get_node_go st cur path sl reader e 0 = (some cur, st) := rfl

theorem get_node_go_succ_done (st : TreeState) (cur : Nat) (path : Path)
    (sl reader : Bool) (e : Option Nat) (k : Nat)
    (h : split_path path = none) :
    get_node_go st cur path sl reader e (k + 1) = (some cur, st) := by
  unfold get_node_go
  rw [h]

theorem get_node_go_succ_miss (st : TreeState) (cur : Nat) (path : Path)
    (sl reader : Bool) (e : Option Nat) (k : Nat) (name sub : Path)
    (h : split_path path = some (name, sub))
    (hg : hmap_get (childrenOf st cur) name = none) :
    get_node_go st cur path sl reader e (k + 1) =
      (none,
        if !sl then
          reader_unlock (unwind_path st (some cur) e st.nodes.length) cur
        else unwind_path st (some cur) e st.nodes.length) := by
  unfold get_node_go
  rw [h]
  show (match hmap_get (childrenOf st cur) name with
        | none =>
          (none,
            if !sl then
              reader_unlock (unwind_path st (some cur) e st.nodes.length) cur
            else unwind_path st (some cur) e st.nodes.length)
        | some child =>
          get_node_go
            (if !sl then
               reader_unlock
                 (bumpRef
                   (if sub = ['/'] && !reader then writer_lock st child
                    else reader_lock st child) child) cur
             else
               bumpRef
                 (if sub = ['/'] && !reader then writer_lock st child
                  else reader_lock st child) child)
            child sub false reader e k) = _
  rw [hg]

theorem get_node_go_succ_hit (st : TreeState) (cur : Nat) (path : Path)
    (sl reader : Bool) (e : Option Nat) (k : Nat) (name sub : Path)
    (child : Nat) (h : split_path path = some (name, sub))
    (hg : hmap_get (childrenOf st cur) name = some child) :
    get_node_go st cur path sl reader e (k + 1) =
      get_node_go
        (if !sl then
           reader_unlock
             (bumpRef
               (if sub = ['/'] && !reader then writer_lock st child
                else reader_lock st child) child) cur
         else
           bumpRef
             (if sub = ['/'] && !reader then writer_lock st child
              else reader_lock st child) child)
        child sub false reader e k := by
  conv_lhs => unfold get_node_go
  rw [h]
  show (match hmap_get (childrenOf st cur) name with
        | none =>
          (none,
            if !sl then
              reader_unlock (unwind_path st (some cur) e st.nodes.length) cur
            else unwind_path st (some cur) e st.nodes.length)
        | some child =>
          get_node_go
            (if !sl then
               reader_unlock
                 (bumpRef
                   (if sub = ['/'] && !reader then writer_lock st child
                    else reader_lock st child) child) cur
             else
               bumpRef
                 (if sub = ['/'] && !reader then writer_lock st child
                  else reader_lock st child) child)
            child sub false reader e k) = _
  rw [hg]

theorem shapeEq_get_node_go (st : TreeState) (cur : Nat) (path : Path)
    (sl reader : Bool) (e : Option Nat) (fuel : Nat) :
    ShapeEq st (get_node_go st cur path sl reader e fuel).2 := by
  induction fuel generalizing st cur path sl with
  | zero => exact shapeEq_refl st
  | succ k ih =>
    cases hs : split_path path with
    | none =>
      rw [get_node_go_succ_done st cur path sl reader e k hs]
      exact shapeEq_refl st
    | some ns =>
      obtain ⟨name, sub⟩ := ns
      cases hg : hmap_get (childrenOf st cur) name with
      | none =>
        rw [get_node_go_succ_miss st cur path sl reader e k name sub hs hg]
        exact shapeEq_trans (shapeEq_unwind_path st (some cur) e _)
          (shapeEq_optUnlock _ cur sl)
      | some child =>
        rw [get_node_go_succ_hit st cur path sl reader e k name sub child hs hg]
        refine shapeEq_trans ?_ (ih _ _ _ _)
        exact shapeEq_trans
          (shapeEq_trans (shapeEq_startLock st child _) (shapeEq_bumpRef _ child))
          (shapeEq_optUnlock _ cur sl)

theorem shapeEq_get_node (st : TreeState) (start : Nat) (path : Path)
    (sl reader : Bool) :
    ShapeEq st (get_node st start path sl reader).2 := by
  unfold get_node
  by_cases hsl : sl = true
  · rw [if_pos hsl]
    exact shapeEq_get_node_go st start path true reader none path.length
  · rw [if_neg hsl]
    refine shapeEq_trans ?_ (shapeEq_get_node_go _ start path false reader _ _)
    exact shapeEq_trans (shapeEq_startLock st start _) (shapeEq_bumpRef _ start)

theorem lookupN_mapF (l : List (Nat × Node)) (F : Nat → Node → Node) (i : Nat) :
    lookupN (l.map (fun e => (e.1, F e.1 e.2))) i = (lookupN l i).map (F i) := by
  induction l with
  | nil => rfl
  | cons e l ih =>
    rw [List.map_cons, lookupN, lookupN]
    by_cases he : e.1 = i
    · rw [if_pos he, if_pos he, he]
      rfl
    · rw [if_neg he, if_neg he]
      exact ih

theorem shapeEq_parent {st st2 : TreeState} (h : ShapeEq st st2) (i : Nat) :
    (lookupN st2.nodes i).map Node.parent = (lookupN st.nodes i).map Node.parent := by
  obtain ⟨-, -, F, hF, hm⟩ := h
  rw [hm, lookupN_mapF]
  cases lookupN st.nodes i with
  | none => rfl
  | some n => simp [(hF i n).1]

theorem shapeEq_childrenOf {st st2 : TreeState} (h : ShapeEq st st2) (i : Nat) :
    childrenOf st2 i = childrenOf st i := by
  obtain ⟨-, -, F, hF, hm⟩ := h
  unfold childrenOf
  rw [hm, lookupN_mapF]
  cases lookupN st.nodes i with
  | none => rfl
  | some n => simp [(hF i n).2]

theorem shapeEq_isSome {st st2 : TreeState} (h : ShapeEq st st2) (i : Nat) :
    (lookupN st2.nodes i).isSome = (lookupN st.nodes i).isSome := by
  obtain ⟨-, -, F, hF, hm⟩ := h
  rw [hm, lookupN_mapF]
  cases lookupN st.nodes i <;> rfl

theorem shapeEq_heapKeys {st st2 : TreeState} (h : ShapeEq st st2) :
    heapKeys st2 = heapKeys st := by
  obtain ⟨-, -, F, hF, hm⟩ := h
  unfold heapKeys
  rw [hm, List.map_map]
  rfl

theorem shapeEq_length {st st2 : TreeState} (h : ShapeEq st st2) :
    st2.nodes.length = st.nodes.length := by
  obtain ⟨-, -, F, hF, hm⟩ := h
  rw [hm]
  exact List.length_map _ _

theorem shapeEq_root {st st2 : TreeState} (h : ShapeEq st st2) :
    st2.root = st.root := h.1

theorem shapeEq_nextId {st st2 : TreeState} (h : ShapeEq st st2) :
    st2.nextId = st.nextId := h.2.1

theorem shapeEq_chainUp {st st2 : TreeState} (h : ShapeEq st st2)
    (fuel : Nat) (i : Nat) : chainUp st2 fuel i = chainUp st fuel i := by
  induction fuel generalizing i with
  | zero => rfl
  | succ k ih =>
    unfold chainUp
    have hpar := shapeEq_parent h i
    cases hl : lookupN st.nodes i with
    | none =>
      have : lookupN st2.nodes i = none := by
        cases hl2 : lookupN st2.nodes i with
        | none => rfl
        | some n2 =>
          rw [hl, hl2] at hpar
          cases hpar
      rw [this]
    | some n =>
      cases hl2 : lookupN st2.nodes i with
      | none =>
        rw [hl, hl2] at hpar
        cases hpar
      | some n2 =>
        have hpp : n2.parent = n.parent := by
          rw [hl, hl2] at hpar
          injection hpar
        show (match n2.parent with
              | none => some [i]
              | some p => (chainUp st2 k p).map (fun L => i :: L)) =
          (match n.parent with
           | none => some [i]
           | some p => (chainUp st k p).map (fun L => i :: L))
        rw [hpp]
        cases n.parent with
        | none => rfl
        | some p =>
          show (chainUp st2 k p).map (fun L => i :: L) =
            (chainUp st k p).map (fun L => i :: L)
          rw [ih p]

theorem shapeEq_upChain {st st2 : TreeState} (h : ShapeEq st st2)
    {i : Nat} {e : Option Nat} {L : List Nat} (hc : UpChain st i e L) :
    UpChain st2 i e L := by
  induction hc with
  | single i2 n e2 hl hp =>
    have hpar := shapeEq_parent h i2
    rw [hl] at hpar
    cases hl2 : lookupN st2.nodes i2 with
    | none =>
      rw [hl2] at hpar
      cases hpar
    | some n2 =>
      rw [hl2] at hpar
      refine UpChain.single i2 n2 e2 hl2 ?_
      injection hpar with hpar2
      rw [hpar2, hp]
  | step i2 n p e2 L2 hl hp hc2 ih =>
    have hpar := shapeEq_parent h i2
    rw [hl] at hpar
    cases hl2 : lookupN st2.nodes i2 with
    | none =>
      rw [hl2] at hpar
      cases hpar
    | some n2 =>
      rw [hl2] at hpar
      refine UpChain.step i2 n2 p e2 L2 hl2 ?_ ih
      injection hpar with hpar2
      rw [hpar2, hp]

theorem shapeEq_descend {st st2 : TreeState} (h : ShapeEq st st2)
    (cur : Nat) (comps : List Path) :
    descend st2 cur comps = descend st cur comps := by
  induction comps generalizing cur with
  | nil => rfl
  | cons name rest ih =>
    unfold descend
    rw [shapeEq_childrenOf h cur]
    cases hmap_get (childrenOf st cur) name with
    | none => rfl
    | some c => exact ih c

theorem shapeEq_wfs {st st2 : TreeState} (h : ShapeEq st st2) (hw : WFs st) :
    WFs st2 := by
  obtain ⟨hr, hn, F, hF, hm⟩ := h
  have hse : ShapeEq st st2 := ⟨hr, hn, F, hF, hm⟩
  obtain ⟨w1, w2, w3, w4, w5, w6, w7, w8, w9, w10⟩ := hw
  refine ⟨?_, ?_, ?_, ?_, ?_, ?_, ?_, ?_, ?_, ?_⟩
  · rw [shapeEq_heapKeys hse]
    exact w1
  · rw [hr, shapeEq_parent hse]
    exact w2
  · intro e he hp
    rw [hm] at he
    rcases List.mem_map.mp he with ⟨e0, he0, rfl⟩
    rw [hr]
    exact w3 e0 he0 (by rw [← (hF e0.1 e0.2).1]; exact hp)
  · intro e he c hc
    rw [hm] at he
    rcases List.mem_map.mp he with ⟨e0, he0, rfl⟩
    rw [shapeEq_parent hse]
    exact w4 e0 he0 c (by rw [(hF e0.1 e0.2).2] at hc; exact hc)
  · intro e he p hp
    rw [hm] at he
    rcases List.mem_map.mp he with ⟨e0, he0, rfl⟩
    rw [shapeEq_childrenOf hse]
    refine w5 e0 he0 p ?_
    rw [(hF e0.1 e0.2).1] at hp
    exact hp
  · intro e he
    rw [hm] at he
    rcases List.mem_map.mp he with ⟨e0, he0, rfl⟩
    rw [shapeEq_chainUp hse, shapeEq_length hse]
    exact w6 e0 he0
  · intro e he
    rw [hm] at he
    rcases List.mem_map.mp he with ⟨e0, he0, rfl⟩
    show ((F e0.1 e0.2).children.map Prod.fst).Nodup
    rw [(hF e0.1 e0.2).2]
    exact w7 e0 he0
  · intro e he c hc
    rw [hm] at he
    rcases List.mem_map.mp he with ⟨e0, he0, rfl⟩
    rw [hr]
    exact w8 e0 he0 c (by rw [(hF e0.1 e0.2).2] at hc; exact hc)
  · intro e he e2 he2 c hc c2 hc2 hcc
    rw [hm] at he he2
    rcases List.mem_map.mp he with ⟨e0, he0, rfl⟩
    rcases List.mem_map.mp he2 with ⟨e1, he1, rfl⟩
    exact w9 e0 he0 e1 he1 c (by rw [(hF e0.1 e0.2).2] at hc; exact hc)
      c2 (by rw [(hF e1.1 e1.2).2] at hc2; exact hc2) hcc
  · intro e he
    rw [hm] at he
    rcases List.mem_map.mp he with ⟨e0, he0, rfl⟩
    rw [hn]
    exact w10 e0 he0

/-! ### Parent-chain theory -/

theorem chainUp_zero (st : TreeState) (i : Nat) : chainUp st 0 i = none := rfl

theorem chainUp_dangling (st : TreeState) (k i : Nat)
    (h : lookupN st.nodes i = none) : chainUp st (k + 1) i = none := by
  unfold chainUp
  rw [h]

theorem chainUp_top (st : TreeState) (k i : Nat) (n : Node)
    (h : lookupN st.nodes i = some n) (hp : n.parent = none) :
    chainUp st (k + 1) i = some [i] := by
  unfold chainUp
  rw [h]
  show (match n.parent with
        | none => some [i]
        | some p => (chainUp st k p).map (fun L => i :: L)) = some [i]
  rw [hp]

theorem chainUp_step (st : TreeState) (k i p : Nat) (n : Node)
    (h : lookupN st.nodes i = some n) (hp : n.parent = some p) :
    chainUp st (k + 1) i = (chainUp st k p).map (fun L => i :: L) := by
  conv_lhs => unfold chainUp
  rw [h]
  show (match n.parent with
        | none => some [i]
        | some p => (chainUp st k p).map (fun L => i :: L)) = _
  rw [hp]

theorem chainUp_mono {st : TreeState} :
    ∀ {f : Nat} {i : Nat} {L : List Nat} {g : Nat},
      chainUp st f i = some L → f ≤ g → chainUp st g i = some L := by
  intro f
  induction f with
  | zero =>
    intro i L g h
    rw [chainUp_zero] at h
    cases h
  | succ k ih =>
    intro i L g h hfg
    cases g with
    | zero => omega
    | succ g2 =>
      cases hl : lookupN st.nodes i with
      | none =>
        rw [chainUp_dangling st k i hl] at h
        cases h
      | some n =>
        cases hp : n.parent with
        | none =>
          rw [chainUp_top st k i n hl hp] at h
          rw [chainUp_top st g2 i n hl hp]
          exact h
        | some p =>
          rw [chainUp_step st k i p n hl hp] at h
          rw [chainUp_step st g2 i p n hl hp]
          cases hc : chainUp st k p with
          | none =>
            rw [hc] at h
            cases h
          | some M =>
            rw [hc] at h
            rw [ih hc (by omega)]
            exact h

theorem chainUp_det {st : TreeState} {f g i : Nat} {L M : List Nat}
    (h1 : chainUp st f i = some L) (h2 : chainUp st g i = some M) : L = M := by
  have ha := chainUp_mono h1 (Nat.le_max_left f g)
  have hb := chainUp_mono h2 (Nat.le_max_right f g)
  exact Option.some.inj (ha.symm.trans hb)

theorem chainUp_shape {st : TreeState} :
    ∀ {f i : Nat} {L : List Nat}, chainUp st f i = some L →
      ∃ M, L = i :: M ∧ chainUp st L.length i = some L := by
  intro f
  induction f with
  | zero =>
    intro i L h
    rw [chainUp_zero] at h
    cases h
  | succ k ih =>
    intro i L h
    cases hl : lookupN st.nodes i with
    | none =>
      rw [chainUp_dangling st k i hl] at h
      cases h
    | some n =>
      cases hp : n.parent with
      | none =>
        rw [chainUp_top st k i n hl hp] at h
        injection h with h
        subst h
        exact ⟨[], rfl, chainUp_top st 0 i n hl hp⟩
      | some p =>
        rw [chainUp_step st k i p n hl hp] at h
        cases hc : chainUp st k p with
        | none =>
          rw [hc] at h
          cases h
        | some M =>
          rw [hc] at h
          have hL : L = i :: M := by
            injection h with h2
            exact h2.symm
          subst hL
          rcases ih hc with ⟨M2, hM2, hmin⟩
          refine ⟨M, rfl, ?_⟩
          show chainUp st (M.length + 1) i = some (i :: M)
          rw [chainUp_step st M.length i p n hl hp, hmin]
          rfl

theorem chainUp_suffix {st : TreeState} :
    ∀ {f i : Nat} {A : List Nat} {j : Nat} {B : List Nat},
      chainUp st f i = some (A ++ j :: B) →
      chainUp st (B.length + 1) j = some (j :: B) := by
  intro f
  induction f with
  | zero =>
    intro i A j B h
    rw [chainUp_zero] at h
    cases h
  | succ k ih =>
    intro i A j B h
    cases hl : lookupN st.nodes i with
    | none =>
      rw [chainUp_dangling st k i hl] at h
      cases h
    | some n =>
      cases hp : n.parent with
      | none =>
        rw [chainUp_top st k i n hl hp] at h
        injection h with h
        cases A with
        | nil =>
          rw [List.nil_append] at h
          injection h with h1 h2
          subst h1
          have hB : B = [] := h2.symm
          subst hB
          exact chainUp_top st 0 i n hl hp
        | cons a A2 =>
          rw [List.cons_append] at h
          injection h with h1 h2
          exact absurd h2.symm (by simp)
      | some p =>
        rw [chainUp_step st k i p n hl hp] at h
        cases hc : chainUp st k p with
        | none =>
          rw [hc] at h
          cases h
        | some M =>
          rw [hc] at h
          have h2 : i :: M = A ++ j :: B :=
            Option.some.inj (h : some (i :: M) = some (A ++ j :: B))
          cases A with
          | nil =>
            rw [List.nil_append] at h2
            injection h2 with ha hb
            subst ha
            subst hb
            rcases chainUp_shape hc with ⟨M2, hM2, hmin⟩
            show chainUp st (M.length + 1) i = some (i :: M)
            rw [chainUp_step st M.length i p n hl hp, hmin]
            rfl
          | cons a A2 =>
            rw [List.cons_append] at h2
            injection h2 with ha hb
            exact ih (hc.trans (congrArg some hb))

theorem chainUp_nodup {st : TreeState} :
    ∀ {f i : Nat} {L : List Nat}, chainUp st f i = some L → L.Nodup := by
  intro f
  induction f with
  | zero =>
    intro i L h
    rw [chainUp_zero] at h
    cases h
  | succ k ih =>
    intro i L h
    cases hl : lookupN st.nodes i with
    | none =>
      rw [chainUp_dangling st k i hl] at h
      cases h
    | some n =>
      cases hp : n.parent with
      | none =>
        rw [chainUp_top st k i n hl hp] at h
        injection h with h
        subst h
        simp
      | some p =>
        rw [chainUp_step st k i p n hl hp] at h
        cases hc : chainUp st k p with
        | none =>
          rw [hc] at h
          cases h
        | some M =>
          rw [hc] at h
          have hL : L = i :: M := (Option.some.inj h).symm
          subst hL
          rw [List.nodup_cons]
          refine ⟨?_, ih hc⟩
          intro hmem
          rcases List.append_of_mem hmem with ⟨A, B, hAB⟩
          have hsfx := chainUp_suffix (hc.trans (congrArg some hAB))
          have hfull : chainUp st (k + 1) i = some (i :: M) := by
            rw [chainUp_step st k i p n hl hp, hc]
            rfl
          have hdet := chainUp_det hfull hsfx
          injection hdet with h1 h2
          rw [hAB] at h2
          have := congrArg List.length h2
          simp at this
          omega

theorem chainUp_upChain {st : TreeState} :
    ∀ {f i : Nat} {L : List Nat}, chainUp st f i = some L →
      UpChain st i none L := by
  intro f
  induction f with
  | zero =>
    intro i L h
    rw [chainUp_zero] at h
    cases h
  | succ k ih =>
    intro i L h
    cases hl : lookupN st.nodes i with
    | none =>
      rw [chainUp_dangling st k i hl] at h
      cases h
    | some n =>
      cases hp : n.parent with
      | none =>
        rw [chainUp_top st k i n hl hp] at h
        injection h with h
        subst h
        exact UpChain.single i n none hl hp
      | some p =>
        rw [chainUp_step st k i p n hl hp] at h
        cases hc : chainUp st k p with
        | none =>
          rw [hc] at h
          cases h
        | some M =>
          rw [hc] at h
          have hL : L = i :: M := (Option.some.inj h).symm
          subst hL
          exact UpChain.step i n p none M hl hp (ih hc)

theorem upChain_inHeap {st : TreeState} {i : Nat} {e : Option Nat}
    {C : List Nat} (h : UpChain st i e C) :
    ∀ j ∈ C, (lookupN st.nodes j).isSome = true := by
  induction h with
  | single i2 n e2 hl hp =>
    intro j hj
    rw [List.mem_singleton] at hj
    subst hj
    rw [hl]
    rfl
  | step i2 n p e2 L2 hl hp hc ih =>
    intro j hj
    rcases List.mem_cons.mp hj with hj | hj
    · subst hj
      rw [hl]
      rfl
    · exact ih j hj

theorem mem_heapKeys_of_isSome {l : List (Nat × Node)} {i : Nat}
    (h : (lookupN l i).isSome = true) : i ∈ l.map Prod.fst := by
  induction l with
  | nil => simp [lookupN] at h
  | cons e l ih =>
    rw [lookupN] at h
    by_cases he : e.1 = i
    · rw [List.map_cons, he]
      exact List.mem_cons_self _ _
    · rw [if_neg he] at h
      exact List.mem_cons_of_mem _ (ih h)

/-- A descent chain: the parent chain of the current node, known to be
duplicate-free. -/
structure Desc (st : TreeState) (cur : Nat) (C : List Nat) : Prop where
  chain : UpChain st cur none C
  nodup : C.Nodup

theorem desc_length_le {st : TreeState} {cur : Nat} {C : List Nat}
    (h : Desc st cur C) : C.length ≤ st.nodes.length := by
  have hsub : C ⊆ st.nodes.map Prod.fst := by
    intro j hj
    exact mem_heapKeys_of_isSome (upChain_inHeap h.chain j hj)
  have := (List.subperm_of_subset h.nodup hsub).length_le
  simpa using this

/-- Depth of a node: the length of its parent chain. -/
def depthOf (st : TreeState) (i : Nat) : Nat :=
  match chainUp st st.nodes.length i with
  | some L => L.length
  | none => 0

theorem depth_parent {st : TreeState} (hwf : WFs st) {i : Nat} {n : Node}
    {p : Nat} (hl : lookupN st.nodes i = some n) (hp : n.parent = some p) :
    depthOf st i = depthOf st p + 1 := by
  have hmem : (i, n) ∈ st.nodes := mem_of_lookupN hl
  have hok := hwf.chainOk (i, n) hmem
  cases hfl : st.nodes.length with
  | zero =>
    exfalso
    rcases List.length_eq_zero.mp hfl with hnil
    rw [hnil] at hl
    cases hl
  | succ k =>
    rw [hfl] at hok
    rw [chainUp_step st k i p n hl hp] at hok
    cases hc : chainUp st k p with
    | none =>
      rw [hc] at hok
      cases hok
    | some M =>
      have hfull : chainUp st st.nodes.length i = some (i :: M) := by
        rw [hfl, chainUp_step st k i p n hl hp, hc]
        rfl
      have hpfull : chainUp st st.nodes.length p = some M :=
        chainUp_mono hc (by omega)
      unfold depthOf
      rw [hfull, hpfull]
      rfl

theorem upChain_depth_le {st : TreeState} (hwf : WFs st) {i : Nat}
    {e : Option Nat} {C : List Nat} (h : UpChain st i e C) :
    ∀ j ∈ C, depthOf st j ≤ depthOf st i := by
  induction h with
  | single i2 n e2 hl hp =>
    intro j hj
    rw [List.mem_singleton] at hj
    subst hj
    exact Nat.le_refl _
  | step i2 n p e2 L2 hl hp hc ih =>
    intro j hj
    rcases List.mem_cons.mp hj with hj | hj
    · subst hj
      exact Nat.le_refl _
    · have h1 := ih j hj
      have h2 := depth_parent hwf hl hp
      omega

theorem notMem_chain_of_child {st : TreeState} (hwf : WFs st) {cur : Nat}
    {e : Option Nat} {C : List Nat} (h : UpChain st cur e C) {child : Nat}
    {cn : Node} (hl : lookupN st.nodes child = some cn)
    (hp : cn.parent = some cur) : child ∉ C := by
  intro hmem
  have h1 := upChain_depth_le hwf h child hmem
  have h2 := depth_parent hwf hl hp
  omega

theorem childrenOf_lookup {st : TreeState} {cur : Nat} {name : Path}
    {child : Nat} (hg : hmap_get (childrenOf st cur) name = some child) :
    ∃ ncur, lookupN st.nodes cur = some ncur ∧ (name, child) ∈ ncur.children := by
  unfold childrenOf at hg
  cases hl : lookupN st.nodes cur with
  | none =>
    rw [hl] at hg
    simp [hmap_get] at hg
  | some ncur =>
    rw [hl] at hg
    exact ⟨ncur, rfl, hmap_get_mem hg⟩

theorem child_backptr {st : TreeState} (hwf : WFs st) {cur : Nat}
    {name : Path} {child : Nat}
    (hg : hmap_get (childrenOf st cur) name = some child) :
    ∃ cn, lookupN st.nodes child = some cn ∧ cn.parent = some cur := by
  rcases childrenOf_lookup hg with ⟨ncur, hl, hmem⟩
  have := hwf.childClosed (cur, ncur) (mem_of_lookupN hl) (name, child) hmem
  cases hlc : lookupN st.nodes child with
  | none =>
    rw [hlc] at this
    cases this
  | some cn =>
    rw [hlc] at this
    injection this with h2
    exact ⟨cn, rfl, h2⟩

theorem desc_extend {st : TreeState} (hwf : WFs st) {cur : Nat} {C : List Nat}
    (hd : Desc st cur C) {name : Path} {child : Nat}
    (hg : hmap_get (childrenOf st cur) name = some child) :
    Desc st child (child :: C) := by
  rcases child_backptr hwf hg with ⟨cn, hlc, hpc⟩
  refine ⟨UpChain.step child cn cur none C hlc hpc hd.chain, ?_⟩
  rw [List.nodup_cons]
  exact ⟨notMem_chain_of_child hwf hd.chain hlc hpc, hd.nodup⟩

theorem desc_root {st : TreeState} (hwf : WFs st) :
    Desc st st.root [st.root] := by
  have h := hwf.rootParent
  cases hl : lookupN st.nodes st.root with
  | none =>
    rw [hl] at h
    cases h
  | some rn =>
    rw [hl] at h
    injection h with h2
    exact ⟨UpChain.single st.root rn none hl h2, by simp⟩

theorem desc_shapeEq {st st2 : TreeState} (h : ShapeEq st st2) {cur : Nat}
    {C : List Nat} (hd : Desc st cur C) : Desc st2 cur C :=
  ⟨shapeEq_upChain h hd.chain, hd.nodup⟩

/-! ### `split_path` and `descend` on rendered paths -/

theorem takeWhile_notSep_append (c r : Path) (hc : c.all notSep = true) :
    (c ++ '/' :: r).takeWhile notSep = c := by
  induction c with
  | nil => simp [notSep]
  | cons a c2 ih =>
    simp only [List.all_cons, Bool.and_eq_true] at hc
    rw [List.cons_append]
    simp only [List.takeWhile_cons, hc.1, if_true, ih hc.2]

theorem dropWhile_notSep_append (c r : Path) (hc : c.all notSep = true) :
    (c ++ '/' :: r).dropWhile notSep = '/' :: r := by
  induction c with
  | nil => simp [notSep]
  | cons a c2 ih =>
    simp only [List.all_cons, Bool.and_eq_true] at hc
    rw [List.cons_append]
    simp only [List.dropWhile_cons, hc.1, if_true]
    exact ih hc.2

theorem renderPath_nil : renderPath [] = ['/'] := rfl

theorem split_path_root : split_path ['/'] = none := rfl

theorem split_path_renderPath_cons (c : Path) (cs : List Path)
    (hc : c.all notSep = true) :
    split_path (renderPath (c :: cs)) = some (c, renderPath cs) := by
  show split_path ('/' :: renderTail (c :: cs)) = _
  rw [renderTail_cons]
  show (if ((c ++ '/' :: renderTail cs).dropWhile notSep).isEmpty = true then none
        else some ((c ++ '/' :: renderTail cs).takeWhile notSep,
                   (c ++ '/' :: renderTail cs).dropWhile notSep)) =
    some (c, renderPath cs)
  rw [takeWhile_notSep_append c _ hc, dropWhile_notSep_append c _ hc]
  rw [if_neg (by simp)]
  rfl

theorem renderPath_ne_root (c : Path) (cs : List Path) :
    renderPath (c :: cs) ≠ ['/'] := by
  intro h
  unfold renderPath at h
  rw [renderTail_cons] at h
  injection h with h1 h2
  exact absurd h2 (by simp)

theorem renderPath_length (comps : List Path) :
    comps.length + 1 ≤ (renderPath comps).length := by
  induction comps with
  | nil => simp [renderPath, renderTail]
  | cons c cs ih =>
    show _ ≤ ('/' :: renderTail (c :: cs)).length
    rw [renderTail_cons]
    simp only [List.length_cons, List.length_append, List.length_cons]
    simp only [List.length_cons] at ih
    unfold renderPath at ih
    simp only [List.length_cons] at ih
    omega

theorem descend_nil (st : TreeState) (cur : Nat) :
    descend st cur [] = some cur := rfl

theorem descend_cons_miss (st : TreeState) (cur : Nat) (name : Path)
    (rest : List Path) (h : hmap_get (childrenOf st cur) name = none) :
    descend st cur (name :: rest) = none := by
  unfold descend
  rw [h]

theorem descend_cons_hit (st : TreeState) (cur : Nat) (name : Path)
    (rest : List Path) (child : Nat)
    (h : hmap_get (childrenOf st cur) name = some child) :
    descend st cur (name :: rest) = descend st child rest := by
  conv_lhs => unfold descend
  rw [h]

/-- The start-node unlock that the descent loop performs when the start
node was locked by `get_node` itself. -/
def optUnlock (sl : Bool) (st : TreeState) (cur : Nat) : TreeState :=
  if !sl then reader_unlock st cur else st

/-- The final lock of `get_node`: reader mode locks for reading, writer
mode write-locks the last node. -/
def lockFin (reader : Bool) (st : TreeState) (d : Nat) : TreeState :=
  if reader then reader_lock st d else writer_lock st d

theorem optUnlock_def (sl : Bool) (st : TreeState) (cur : Nat) :
    (if (!sl) = true then reader_unlock st cur else st) =
      optUnlock sl st cur := rfl

theorem shapeEq_lockFin (reader : Bool) (st : TreeState) (d : Nat) :
    ShapeEq st (lockFin reader st d) := by
  unfold lockFin
  cases reader
  · simp only [Bool.false_eq_true, if_false]
    exact shapeEq_writer_lock st d
  · simp only [if_true]
    exact shapeEq_reader_lock st d

theorem shapeEq_optUnlock2 (sl : Bool) (st : TreeState) (cur : Nat) :
    ShapeEq st (optUnlock sl st cur) := by
  unfold optUnlock
  exact shapeEq_optUnlock st cur sl

theorem optUnlock_bumpRef_comm (sl : Bool) (st : TreeState) (cur j : Nat) :
    optUnlock sl (bumpRef st j) cur = bumpRef (optUnlock sl st cur) j := by
  unfold optUnlock
  cases sl
  · simp only [Bool.not_false, if_true]
    exact (reader_unlock_bumpRef_comm st cur j)
  · simp only [Bool.not_true, Bool.false_eq_true, if_false]

theorem optUnlock_bumpRefs_comm (sl : Bool) (st : TreeState) (cur : Nat)
    (L : List Nat) :
    optUnlock sl (bumpRefs st L) cur = bumpRefs (optUnlock sl st cur) L := by
  induction L generalizing st with
  | nil => rfl
  | cons a L ih => rw [bumpRefs_cons, bumpRefs_cons, ih, optUnlock_bumpRef_comm]

theorem optUnlock_decRefs_comm (sl : Bool) (st : TreeState) (cur : Nat)
    (L : List Nat) :
    optUnlock sl (decRefs st L) cur = decRefs (optUnlock sl st cur) L := by
  unfold optUnlock
  cases sl
  · simp only [Bool.not_false, if_true]
    exact (decRefs_reader_unlock_comm st cur L).symm
  · simp only [Bool.not_true, Bool.false_eq_true, if_false]

theorem reader_unlock_lockFin_comm (reader : Bool) (st : TreeState)
    (cur d : Nat) :
    reader_unlock (lockFin reader st d) cur =
      lockFin reader (reader_unlock st cur) d := by
  unfold lockFin
  cases reader
  · simp only [Bool.false_eq_true, if_false]
    exact reader_unlock_writer_lock_comm st cur d
  · simp only [if_true]
    exact reader_unlock_reader_lock_comm st cur d

theorem optUnlock_lockFin_comm (sl reader : Bool) (st : TreeState)
    (cur d : Nat) :
    optUnlock sl (lockFin reader st d) cur =
      lockFin reader (optUnlock sl st cur) d := by
  unfold optUnlock
  cases sl
  · simp only [Bool.not_false, if_true]
    exact reader_unlock_lockFin_comm reader st cur d
  · simp only [Bool.not_true, Bool.false_eq_true, if_false]

theorem bumpRef_lockFin_comm (reader : Bool) (st : TreeState) (j d : Nat) :
    bumpRef (lockFin reader st d) j = lockFin reader (bumpRef st j) d := by
  unfold lockFin
  cases reader
  · simp only [Bool.false_eq_true, if_false]
    unfold bumpRef writer_lock
    apply adjust_adjust
    intro n
    cases n
    simp
  · simp only [if_true]
    unfold bumpRef reader_lock
    apply adjust_adjust
    intro n
    cases n
    simp

theorem bumpRefs_lockFin_comm (reader : Bool) (st : TreeState) (d : Nat)
    (L : List Nat) :
    bumpRefs (lockFin reader st d) L = lockFin reader (bumpRefs st L) d := by
  induction L generalizing st with
  | nil => rfl
  | cons a L ih => rw [bumpRefs_cons, bumpRefs_cons, bumpRef_lockFin_comm, ih]

theorem reader_unlock_reader_lock_cancel_mid (st : TreeState) (child : Nat) :
    reader_unlock (bumpRef (reader_lock st child) child) child =
      bumpRef st child := by
  rw [reader_unlock_bumpRef_comm, reader_unlock_reader_lock]

theorem reader_unlock_comm (st : TreeState) (i j : Nat) :
    reader_unlock (reader_unlock st j) i = reader_unlock (reader_unlock st i) j := by
  unfold reader_unlock
  apply adjust_adjust
  intro n
  cases n
  simp

theorem optUnlock_runlock_comm (sl : Bool) (st : TreeState) (cur x : Nat) :
    optUnlock sl (reader_unlock st x) cur =
      reader_unlock (optUnlock sl st cur) x := by
  unfold optUnlock
  cases sl
  · simp only [Bool.not_false, if_true]
    exact reader_unlock_comm st cur x
  · simp only [Bool.not_true, Bool.false_eq_true, if_false]

theorem bumpRefs_singleton (st : TreeState) (x : Nat) :
    bumpRefs st [x] = bumpRef st x := rfl

theorem decRefs_singleton (st : TreeState) (x : Nat) :
    decRefs st [x] = decRef st x := rfl

theorem get_node_go_root (st : TreeState) (cur : Nat) (sl reader : Bool)
    (e : Option Nat) (fuel : Nat) :
    get_node_go st cur (renderPath []) sl reader e fuel = (some cur, st) := by
  cases fuel with
  | zero => exact get_node_go_zero st cur _ sl reader e
  | succ k =>
    refine get_node_go_succ_done st cur _ sl reader e k ?_
    rw [renderPath_nil]
    exact split_path_root

/-- The descent loop of `get_node` on a rendered path: either some
component is missing, the state is exactly restored (up to the pending
unlock of the start node), and the chain refcounts are decremented
back; or the final node is found, all newly visited nodes (`ids`) hold
one extra `refcount`, the final node is locked in the requested mode,
intermediate locks have been released, and the parent chain of the
found node extends the start chain by the visited nodes. -/
theorem get_node_go_spec :
    ∀ (comps : List Path) (st : TreeState) (cur : Nat) (sl reader : Bool)
      (C : List Nat) (fuel : Nat),
      WFs st → Desc st cur C → (∀ c ∈ comps, c.all notSep = true) →
      comps.length ≤ fuel →
      (descend st cur comps = none ∧
        get_node_go st cur (renderPath comps) sl reader none fuel =
          (none, optUnlock sl (decRefs st C) cur)) ∨
      (∃ d ids,
        descend st cur comps = some d ∧
        Desc (get_node_go st cur (renderPath comps) sl reader none fuel).2 d
          (ids.reverse ++ C) ∧
        ((comps = [] ∧ ids = ([] : List Nat) ∧ d = cur ∧
            get_node_go st cur (renderPath comps) sl reader none fuel =
              (some cur, st)) ∨
         (comps ≠ [] ∧ ids ≠ [] ∧
            get_node_go st cur (renderPath comps) sl reader none fuel =
              (some d, lockFin reader (bumpRefs (optUnlock sl st cur) ids) d)))) := by
  intro comps
  induction comps with
  | nil =>
    intro st cur sl reader C fuel hwf hd hall hfuel
    right
    rw [get_node_go_root]
    exact ⟨cur, [], descend_nil st cur, by simpa using hd,
      Or.inl ⟨rfl, rfl, rfl, rfl⟩⟩
  | cons c rest ih =>
    intro st cur sl reader C fuel hwf hd hall hfuel
    have hcall : c.all notSep = true := hall c (List.mem_cons_self _ _)
    have hrall : ∀ x ∈ rest, x.all notSep = true :=
      fun x hx => hall x (List.mem_cons_of_mem _ hx)
    cases fuel with
    | zero => simp at hfuel
    | succ k =>
    have hfk : rest.length ≤ k := by
      simp only [List.length_cons] at hfuel
      omega
    have hsp := split_path_renderPath_cons c rest hcall
    cases hg : hmap_get (childrenOf st cur) c with
    | none =>
      left
      refine ⟨descend_cons_miss st cur c rest hg, ?_⟩
      rw [get_node_go_succ_miss st cur _ sl reader none k c (renderPath rest)
        hsp hg]
      have hun : unwind_path st (some cur) none st.nodes.length = decRefs st C :=
        unwind_path_eq_decRefs C st cur none hd.chain (by intro j hj; simp)
          st.nodes.length (desc_length_le hd)
      rw [hun]
      rfl
    | some child =>
      rw [get_node_go_succ_hit st cur _ sl reader none k c (renderPath rest)
        child hsp hg]
      have hdx : Desc st child (child :: C) := desc_extend hwf hd hg
      cases rest with
      | nil =>
        have hlock : (if (decide (renderPath ([] : List Path) = ['/'])
              && !reader) = true
            then writer_lock st child else reader_lock st child) =
            lockFin reader st child := by
          cases reader <;> rfl
        rw [hlock, optUnlock_def]
        rw [get_node_go_root]
        right
        have hst3 : optUnlock sl (bumpRef (lockFin reader st child) child) cur =
            lockFin reader (bumpRefs (optUnlock sl st cur) [child]) child := by
          rw [bumpRefs_singleton, optUnlock_bumpRef_comm, optUnlock_lockFin_comm,
            bumpRef_lockFin_comm]
        refine ⟨child, [child],
          by rw [descend_cons_hit st cur c [] child hg]; exact descend_nil st child,
          ?_, Or.inr ⟨by simp, by simp, ?_⟩⟩
        · show Desc (optUnlock sl (bumpRef (lockFin reader st child) child) cur)
            child ([child].reverse ++ C)
          have hse : ShapeEq st
              (optUnlock sl (bumpRef (lockFin reader st child) child) cur) :=
            shapeEq_trans
              (shapeEq_trans (shapeEq_lockFin reader st child)
                (shapeEq_bumpRef _ child))
              (shapeEq_optUnlock2 sl _ cur)
          have : ([child].reverse ++ C) = child :: C := by simp
          rw [this]
          exact desc_shapeEq hse hdx
        · show (some child,
              optUnlock sl (bumpRef (lockFin reader st child) child) cur) = _
          rw [hst3]
      | cons r rs =>
        have hlock : (if (decide (renderPath (r :: rs) = ['/']) && !reader) = true
            then writer_lock st child else reader_lock st child) =
            reader_lock st child := by
          rw [decide_eq_false (renderPath_ne_root r rs)]
          rfl
        rw [hlock, optUnlock_def]
        have hse3 : ShapeEq st
            (optUnlock sl (bumpRef (reader_lock st child) child) cur) :=
          shapeEq_trans
            (shapeEq_trans (shapeEq_reader_lock st child) (shapeEq_bumpRef _ child))
            (shapeEq_optUnlock2 sl _ cur)
        have hwf3 := shapeEq_wfs hse3 hwf
        have hd3 : Desc (optUnlock sl (bumpRef (reader_lock st child) child) cur)
            child (child :: C) := desc_shapeEq hse3 hdx
        rcases ih (optUnlock sl (bumpRef (reader_lock st child) child) cur)
            child false reader (child :: C) k hwf3 hd3 hrall hfk with
          ⟨hdn, heq⟩ | ⟨d, ids2, hds, hdesc, hinner⟩
        · left
          have e1 : decRef (optUnlock sl (bumpRef (reader_lock st child) child)
                cur) child = optUnlock sl (reader_lock st child) cur := by
            show decRefs (optUnlock sl (bumpRef (reader_lock st child) child)
              cur) [child] = _
            rw [← optUnlock_decRefs_comm]
            rw [decRefs_singleton, decRef_bumpRef_cancel]
          have e2 : decRefs (optUnlock sl (bumpRef (reader_lock st child) child)
                cur) (child :: C) =
              optUnlock sl (reader_lock (decRefs st C) child) cur := by
            rw [decRefs_cons, e1, ← optUnlock_decRefs_comm,
              decRefs_reader_lock_comm]
          constructor
          · rw [descend_cons_hit st cur c (r :: rs) child hg]
            rw [← shapeEq_descend hse3 child (r :: rs)]
            exact hdn
          · rw [heq]
            show (Option.none,
              reader_unlock
                (decRefs (optUnlock sl (bumpRef (reader_lock st child) child)
                  cur) (child :: C)) child) = _
            rw [e2, ← optUnlock_runlock_comm, reader_unlock_reader_lock]
        · rcases hinner with ⟨h1, -⟩ | ⟨hne2, hids2, heq⟩
          · exact absurd h1 (by simp)
          · right
            have hl2 : (child :: ids2).reverse ++ C = ids2.reverse ++ (child :: C) := by
              rw [List.reverse_cons, List.append_assoc]
              rfl
            have e3 : reader_unlock
                (optUnlock sl (bumpRef (reader_lock st child) child) cur) child =
                bumpRef (optUnlock sl st cur) child := by
              rw [← optUnlock_runlock_comm, reader_unlock_reader_lock_cancel_mid,
                optUnlock_bumpRef_comm]
            refine ⟨d, child :: ids2, ?_, ?_, Or.inr ⟨by simp, by simp, ?_⟩⟩
            · rw [descend_cons_hit st cur c (r :: rs) child hg]
              rw [← shapeEq_descend hse3 child (r :: rs)]
              exact hds
            · rw [hl2]
              exact hdesc
            · rw [heq]
              show (some d,
                lockFin reader
                  (bumpRefs
                    (reader_unlock
                      (optUnlock sl (bumpRef (reader_lock st child) child) cur)
                      child) ids2) d) = _
              rw [e3, ← bumpRefs_cons]

theorem get_node_false_def (st : TreeState) (start : Nat) (path : Path)
    (reader : Bool) :
    get_node st start path false reader =
      get_node_go
        (bumpRef (if (decide (path = ['/']) && !reader) = true
                  then writer_lock st start else reader_lock st start) start)
        start path false reader
        ((lookupN (bumpRef (if (decide (path = ['/']) && !reader) = true
                  then writer_lock st start else reader_lock st start)
            start).nodes start).bind Node.parent)
        path.length := rfl

theorem get_node_true_def (st : TreeState) (start : Nat) (path : Path)
    (reader : Bool) :
    get_node st start path true reader =
      get_node_go st start path true reader none path.length := rfl

/-- `get_node` from the root with `start_locked = false`: on failure
the state is exactly restored; on success the chain from the root to
the found node holds one extra refcount each and the found node is
locked in the requested mode. -/
theorem get_node_spec_root (st : TreeState) (reader : Bool) (comps : List Path)
    (hwf : WFs st) (hall : ∀ c ∈ comps, c.all notSep = true) :
    (descend st st.root comps = none ∧
      get_node st st.root (renderPath comps) false reader = (none, st)) ∨
    (∃ d ids,
      descend st st.root comps = some d ∧ ids ≠ [] ∧
      get_node st st.root (renderPath comps) false reader =
        (some d, lockFin reader (bumpRefs st ids) d) ∧
      Desc (lockFin reader (bumpRefs st ids) d) d ids.reverse) := by
  cases comps with
  | nil =>
    right
    have hlock : (if (decide (renderPath ([] : List Path) = ['/']) && !reader)
          = true
        then writer_lock st st.root else reader_lock st st.root) =
        lockFin reader st st.root := by
      cases reader <;> rfl
    rw [get_node_false_def, hlock]
    have hse2 : ShapeEq st (bumpRef (lockFin reader st st.root) st.root) :=
      shapeEq_trans (shapeEq_lockFin reader st st.root)
        (shapeEq_bumpRef _ st.root)
    have hwf2 : WFs (bumpRef (lockFin reader st st.root) st.root) :=
      shapeEq_wfs hse2 hwf
    have hend : (lookupN (bumpRef (lockFin reader st st.root) st.root).nodes
        st.root).bind Node.parent = none := by
      have h := hwf2.rootParent
      rw [shapeEq_root hse2] at h
      cases hl : lookupN (bumpRef (lockFin reader st st.root) st.root).nodes
          st.root with
      | none =>
        show (Option.none).bind Node.parent = none
        rfl
      | some rn =>
        show rn.parent = none
        rw [hl] at h
        injection h
    rw [hend, get_node_go_root]
    refine ⟨st.root, [st.root], descend_nil st st.root, by simp, ?_, ?_⟩
    · rw [bumpRefs_singleton, bumpRef_lockFin_comm]
    · have hdr := desc_root hwf2
      rw [shapeEq_root hse2] at hdr
      show Desc (lockFin reader (bumpRef st st.root) st.root) st.root [st.root]
      rw [← bumpRef_lockFin_comm]
      exact hdr
  | cons c cs =>
    have hlock : (if (decide (renderPath (c :: cs) = ['/']) && !reader) = true
        then writer_lock st st.root else reader_lock st st.root) =
        reader_lock st st.root := by
      rw [decide_eq_false (renderPath_ne_root c cs)]
      rfl
    rw [get_node_false_def, hlock]
    have hse2 : ShapeEq st (bumpRef (reader_lock st st.root) st.root) :=
      shapeEq_trans (shapeEq_reader_lock st st.root) (shapeEq_bumpRef _ st.root)
    have hwf2 : WFs (bumpRef (reader_lock st st.root) st.root) :=
      shapeEq_wfs hse2 hwf
    have hend : (lookupN (bumpRef (reader_lock st st.root) st.root).nodes
        st.root).bind Node.parent = none := by
      have h := hwf2.rootParent
      rw [shapeEq_root hse2] at h
      cases hl : lookupN (bumpRef (reader_lock st st.root) st.root).nodes
          st.root with
      | none =>
        show (Option.none).bind Node.parent = none
        rfl
      | some rn =>
        show rn.parent = none
        rw [hl] at h
        injection h
    rw [hend]
    have hfuel : (c :: cs).length ≤ (renderPath (c :: cs)).length := by
      have := renderPath_length (c :: cs)
      omega
    have hd2 : Desc (bumpRef (reader_lock st st.root) st.root) st.root
        [st.root] := by
      have hdr := desc_root hwf2
      rw [shapeEq_root hse2] at hdr
      exact hdr
    rcases get_node_go_spec (c :: cs) (bumpRef (reader_lock st st.root) st.root)
        st.root false reader [st.root] (renderPath (c :: cs)).length hwf2 hd2
        hall hfuel with
      ⟨hdn, heq⟩ | ⟨d, ids0, hds, hdesc, hinner⟩
    · left
      constructor
      · rw [← shapeEq_descend hse2 st.root (c :: cs)]
        exact hdn
      · rw [heq]
        show (Option.none, reader_unlock
          (decRefs (bumpRef (reader_lock st st.root) st.root) [st.root])
          st.root) = _
        rw [decRefs_singleton, decRef_bumpRef_cancel, reader_unlock_reader_lock]
    · rcases hinner with ⟨h1, -⟩ | ⟨-, hne0, heq⟩
      · exact absurd h1 (by simp)
      · right
        have e3 : optUnlock false (bumpRef (reader_lock st st.root) st.root)
            st.root = bumpRef st st.root := by
          show reader_unlock (bumpRef (reader_lock st st.root) st.root) st.root
            = _
          exact reader_unlock_reader_lock_cancel_mid st st.root
        refine ⟨d, st.root :: ids0, ?_, by simp, ?_, ?_⟩
        · rw [← shapeEq_descend hse2 st.root (c :: cs)]
          exact hds
        · rw [heq, e3, ← bumpRefs_cons]
        · rw [heq] at hdesc
          rw [e3, ← bumpRefs_cons] at hdesc
          show Desc (lockFin reader (bumpRefs st (st.root :: ids0)) d) d
            (st.root :: ids0).reverse
          rw [List.reverse_cons]
          exact hdesc

/-! ### The sorted listing (claims C6, C10) -/

theorem strLe_total (a b : Path) : strLe a b = true ∨ strLe b a = true := by
  induction a generalizing b with
  | nil => left; rfl
  | cons x xs ih =>
    cases b with
    | nil => right; rfl
    | cons y ys =>
      rcases lt_trichotomy x y with h | h | h
      · left
        unfold strLe
        rw [if_pos h]
      · subst h
        rcases ih ys with h2 | h2
        · left
          unfold strLe
          rw [if_neg (lt_irrefl x), if_neg (lt_irrefl x)]
          exact h2
        · right
          unfold strLe
          rw [if_neg (lt_irrefl x), if_neg (lt_irrefl x)]
          exact h2
      · right
        unfold strLe
        rw [if_pos h]

theorem strLe_trans {a b c : Path} (h1 : strLe a b = true)
    (h2 : strLe b c = true) : strLe a c = true := by
  induction a generalizing b c with
  | nil => rfl
  | cons x xs ih =>
    cases b with
    | nil => exact absurd h1 (by simp [strLe])
    | cons y ys =>
      cases c with
      | nil => exact absurd h2 (by simp [strLe])
      | cons z zs =>
        unfold strLe at h1 h2 ⊢
        by_cases hxy : x < y
        · rw [if_pos hxy] at h1
          by_cases hyz : y < z
          · rw [if_pos (lt_trans hxy hyz)]
          · rw [if_neg hyz] at h2
            by_cases hzy : z < y
            · rw [if_pos hzy] at h2
              cases h2
            · have : y = z := le_antisymm (not_lt.mp hzy) (not_lt.mp hyz)
              subst this
              rw [if_pos hxy]
        · rw [if_neg hxy] at h1
          by_cases hyx : y < x
          · rw [if_pos hyx] at h1
            cases h1
          · have hxy2 : x = y := le_antisymm (not_lt.mp hyx) (not_lt.mp hxy)
            subst hxy2
            by_cases hxz : x < z
            · rw [if_pos hxz]
            · rw [if_neg hxz] at h2 ⊢
              by_cases hzx : z < x
              · rw [if_pos hzx] at h2
                cases h2
              · rw [if_neg hzx] at h2 ⊢
                rw [if_neg (lt_irrefl x)] at h1
                exact ih h1 h2

instance : IsTotal Path strLeP :=
  ⟨fun a b => strLe_total a b⟩

instance : IsTrans Path strLeP :=
  ⟨fun _ _ _ h1 h2 => strLe_trans h1 h2⟩

theorem intercalate_comma_nil : List.intercalate [','] ([] : List Path) = [] :=
  rfl

theorem intercalate_comma_singleton (a : Path) :
    List.intercalate [','] [a] = a := by
  simp [List.intercalate]

theorem intercalate_comma_cons (a b : Path) (l : List Path) :
    List.intercalate [','] (a :: b :: l) =
      a ++ ',' :: List.intercalate [','] (b :: l) := by
  unfold List.intercalate
  rw [List.intersperse_cons_cons]
  rw [List.flatten_cons, List.flatten_cons]
  simp [List.intercalate]

theorem join_comma_dropLast (ks : List Path) (h : ks ≠ []) :
    ((ks.map (fun k => k ++ [','])).flatten).dropLast =
      List.intercalate [','] ks := by
  induction ks with
  | nil => exact absurd rfl h
  | cons a l ih =>
    cases l with
    | nil =>
      rw [intercalate_comma_singleton]
      simp
    | cons b l2 =>
      rw [intercalate_comma_cons]
      rw [List.map_cons, List.flatten_cons]
      rw [← ih (by simp)]
      have hX : ((List.map (fun k => k ++ [',']) (b :: l2)).flatten) ≠ [] := by
        simp [List.flatten_cons]
      rw [List.dropLast_append_of_ne_nil _ hX]
      rw [List.append_assoc]
      rfl

theorem make_map_contents_string_spec (m : List (Path × Nat)) :
    ∃ ks : List Path,
      make_map_contents_string m = List.intercalate [','] ks ∧
      ks.Perm (m.map Prod.fst) ∧ List.Sorted strLeP ks := by
  refine ⟨make_map_contents_array m, ?_, ?_, ?_⟩
  · unfold make_map_contents_string
    by_cases hk : (make_map_contents_array m).isEmpty = true
    · rw [if_pos hk]
      rw [List.isEmpty_iff] at hk
      rw [hk]
      rfl
    · rw [if_neg hk]
      rw [List.isEmpty_iff] at hk
      exact join_comma_dropLast _ hk
  · exact List.perm_insertionSort strLeP (m.map Prod.fst)
  · exact List.sorted_insertionSort strLeP (m.map Prod.fst)

theorem tree_list_invalid (st : TreeState) (p : Path)
    (h : ¬ is_valid_path p = true) : tree_list st p = (none, st) := by
  unfold tree_list
  rw [if_pos h]

theorem tree_list_none (st st1 : TreeState) (p : Path)
    (hv : is_valid_path p = true)
    (hg : get_node st st.root p false READER = (none, st1)) :
    tree_list st p = (none, st1) := by
  unfold tree_list
  rw [if_neg (by simp [hv]), hg]

theorem tree_list_some (st st1 : TreeState) (p : Path) (d : Nat)
    (hv : is_valid_path p = true)
    (hg : get_node st st.root p false READER = (some d, st1)) :
    tree_list st p =
      (some (make_map_contents_string (childrenOf st1 d)),
       reader_unlock (unwind_path st1 (some d) none st1.nodes.length) d) := by
  unfold tree_list
  rw [if_neg (by simp [hv]), hg]

/-- **C10.** `tree_list` collapses the "invalid argument" case and the
"no such entry" case into the same observable result: on a
syntactically invalid path (Tree.c:248-250) and equally on a valid path
that names no existing directory (get_node returning NULL,
Tree.c:252-255) it returns the NULL string and leaves the tree exactly
as it was, so the caller cannot tell the two apart from its result. -/
theorem c10_list_nil_ambiguous (st : TreeState) (p : Path)
    (hwf : WFs st)
    (h : is_valid_path p = false ∨ nodeAt st p = none) :
    tree_list st p = (none, st) := by
  by_cases hv : is_valid_path p = true
  · have hn : nodeAt st p = none := by
      rcases h with h | h
      · rw [hv] at h
        cases h
      · exact h
    rcases valid_decomp p hv with ⟨comps, hp, hok, hcomps⟩
    have hall : ∀ c ∈ comps, c.all notSep = true :=
      fun c hc => compOk_all_notSep c (hok c hc)
    rcases get_node_spec_root st READER comps hwf hall with
      ⟨hdn, hget⟩ | ⟨d, ids, hd, hne, hget, hdesc⟩
    · rw [← hp] at hget
      exact tree_list_none st st p hv hget
    · unfold nodeAt at hn
      rw [hcomps, hd] at hn
      cases hn
  · exact tree_list_invalid st p hv

/-- Witness for C10: on the fresh tree, the invalid path "/A/" and the
valid but absent path "/a/" are indistinguishable from the result. -/
theorem c10_list_nil_ambiguous_witness :
    tree_list tree_new ['/', 'A', '/'] = (none, tree_new) ∧
    tree_list tree_new ['/', 'a', '/'] = (none, tree_new) :=
  ⟨c10_list_nil_ambiguous tree_new ['/', 'A', '/'] wfs_tree_new
      (Or.inl (by decide)),
   c10_list_nil_ambiguous tree_new ['/', 'a', '/'] wfs_tree_new
      (Or.inr (by decide))⟩

/-- **C6.** For an existing directory `i` at a valid path `p`,
`tree_list` returns the string obtained by joining some listing `ks` of
the directory's child names with `','` and no trailing separator
(`List.intercalate`), where `ks` is a permutation of the children's
keys sorted ascending by `strcmp` order; an empty directory yields the
empty string (`intercalate` of `[]`). -/
theorem c6_tree_list_sorted (st : TreeState) (p : Path) (i : Nat)
    (hwf : WFs st) (hv : is_valid_path p = true)
    (hn : nodeAt st p = some i) :
    ∃ ks : List Path,
      (tree_list st p).1 = some (List.intercalate [','] ks) ∧
      ks.Perm ((childrenOf st i).map Prod.fst) ∧
      List.Sorted strLeP ks := by
  rcases valid_decomp p hv with ⟨comps, hp, hok, hcomps⟩
  have hall : ∀ c ∈ comps, c.all notSep = true :=
    fun c hc => compOk_all_notSep c (hok c hc)
  rcases get_node_spec_root st READER comps hwf hall with
    ⟨hdn, hget⟩ | ⟨d, ids, hd, hne, hget, hdesc⟩
  · unfold nodeAt at hn
    rw [hcomps, hdn] at hn
    cases hn
  · have hdi : d = i := by
      unfold nodeAt at hn
      rw [hcomps, hd] at hn
      exact Option.some.inj hn
    subst hdi
    rw [← hp] at hget
    rw [tree_list_some st _ p d hv hget]
    have hse : ShapeEq st (lockFin READER (bumpRefs st ids) d) :=
      shapeEq_trans (shapeEq_bumpRefs st ids)
        (shapeEq_lockFin READER (bumpRefs st ids) d)
    have hch := shapeEq_childrenOf hse d
    rcases make_map_contents_string_spec (childrenOf st d) with
      ⟨ks, hmk, hperm, hsort⟩
    exact ⟨ks, by rw [← hmk, hch], hperm, hsort⟩

/-- Witness for C6 at a concrete state: after creating "/b/" then
"/a/" in a fresh tree, listing "/" returns "a,b". -/
theorem c6_tree_list_sorted_witness :
    ∃ ks : List Path,
      (tree_list (tree_create (tree_create tree_new
          ['/', 'b', '/']).2 ['/', 'a', '/']).2 ['/']).1 =
        some (List.intercalate [','] ks) ∧
      ks.Perm ((childrenOf (tree_create (tree_create tree_new
          ['/', 'b', '/']).2 ['/', 'a', '/']).2 0).map Prod.fst) ∧
      List.Sorted strLeP ks :=
  c6_tree_list_sorted
    (tree_create (tree_create tree_new ['/', 'b', '/']).2 ['/', 'a', '/']).2
    ['/'] 0 (by unfold WFs; decide) (by decide) (by decide)

/-! ### Heap extension and removal (for the create error paths) -/

theorem lookupN_append_of_isSome (l l' : List (Nat × Node)) (i : Nat)
    (n : Node) (h : lookupN l i = some n) : lookupN (l ++ l') i = some n := by
  induction l with
  | nil => cases h
  | cons e l2 ih =>
    rw [List.cons_append]
    unfold lookupN at h ⊢
    by_cases he : e.1 = i
    · rw [if_pos he] at h ⊢
      exact h
    · rw [if_neg he] at h ⊢
      exact ih h

theorem lookupN_eq_none_of_notMem {l : List (Nat × Node)} {i : Nat}
    (h : i ∉ l.map Prod.fst) : lookupN l i = none := by
  cases hli : lookupN l i with
  | none => rfl
  | some n => exact absurd (mem_heapKeys_of_isSome (by rw [hli]; rfl)) h

theorem lookupN_append_fresh (l : List (Nat × Node)) (k : Nat) (n : Node)
    (h : lookupN l k = none) : lookupN (l ++ [(k, n)]) k = some n := by
  induction l with
  | nil => simp [lookupN]
  | cons e l2 ih =>
    rw [List.cons_append]
    unfold lookupN at h ⊢
    by_cases he : e.1 = k
    · rw [if_pos he] at h
      cases h
    · rw [if_neg he] at h ⊢
      exact ih h

theorem fresh_notMem {st : TreeState} (hwf : WFs st) :
    st.nextId ∉ heapKeys st := by
  intro hmem
  unfold heapKeys at hmem
  rcases List.mem_map.mp hmem with ⟨e, he, hk⟩
  have := hwf.idBound e he
  omega

theorem upChain_heap_append {st st2 : TreeState} {i : Nat} {e : Option Nat}
    {L : List Nat} (h : UpChain st i e L) (l' : List (Nat × Node))
    (hn : st2.nodes = st.nodes ++ l') : UpChain st2 i e L := by
  induction h with
  | single i2 n e2 h1 h2 =>
    refine UpChain.single i2 n e2 ?_ h2
    rw [hn]
    exact lookupN_append_of_isSome _ _ _ _ h1
  | step i2 n p e2 L2 h1 h2 h3 ih =>
    refine UpChain.step i2 n p e2 L2 ?_ h2 ih
    rw [hn]
    exact lookupN_append_of_isSome _ _ _ _ h1

theorem upChain_adjust_ne {st : TreeState} {i : Nat} {e : Option Nat}
    {L : List Nat} (j : Nat) (f : Node → Node) (hj : j ∉ L)
    (h : UpChain st i e L) : UpChain (adjust st j f) i e L := by
  induction h with
  | single i2 n e2 h1 h2 =>
    refine UpChain.single i2 n e2 ?_ h2
    show lookupN (adjustN st.nodes j f) i2 = some n
    rw [lookupN_adjustN, if_neg (by intro hh; exact hj (hh ▸ List.mem_singleton_self i2)), h1]
  | step i2 n p e2 L2 h1 h2 h3 ih =>
    have hj2 : j ∉ L2 := fun hmem => hj (List.mem_cons_of_mem _ hmem)
    refine UpChain.step i2 n p e2 L2 ?_ h2 (ih hj2)
    show lookupN (adjustN st.nodes j f) i2 = some n
    rw [lookupN_adjustN, if_neg (by intro hh; exact hj (hh ▸ List.mem_cons_self i2 L2)), h1]

theorem filter_adjustN (l : List (Nat × Node)) (j k : Nat) (f : Node → Node) :
    (adjustN l j f).filter (fun e => !(e.1 == k)) =
      adjustN (l.filter (fun e => !(e.1 == k))) j f := by
  unfold adjustN
  rw [List.filter_map]
  congr 1
  apply List.filter_congr
  intro e _
  by_cases hej : e.1 = j <;> simp [hej]

theorem removeN_adjust_comm (st : TreeState) (j k : Nat) (f : Node → Node) :
    removeN (adjust st j f) k = adjust (removeN st k) j f := by
  unfold removeN adjust
  simp only [TreeState.mk.injEq, and_true]
  exact filter_adjustN st.nodes j k f

theorem removeN_decRefs_comm (st : TreeState) (k : Nat) (L : List Nat) :
    removeN (decRefs st L) k = decRefs (removeN st k) L := by
  induction L generalizing st with
  | nil => rfl
  | cons a L2 ih =>
    rw [decRefs_cons, decRefs_cons, ih]
    unfold decRef
    rw [removeN_adjust_comm]

theorem adjustN_notMem (l : List (Nat × Node)) (j : Nat) (f : Node → Node)
    (h : ∀ e ∈ l, e.1 ≠ j) : adjustN l j f = l := by
  induction l with
  | nil => rfl
  | cons e l2 ih =>
    unfold adjustN
    simp only [List.map_cons]
    rw [if_neg (h e (List.mem_cons_self e l2))]
    have := ih (fun e2 he2 => h e2 (List.mem_cons_of_mem _ he2))
    unfold adjustN at this
    rw [this]

theorem removeN_append_fresh (st : TreeState) (M : List (Nat × Node))
    (k : Nat) (nk : Node) (hn : st.nodes = M ++ [(k, nk)])
    (hfresh : ∀ e ∈ M, e.1 ≠ k) :
    removeN st k = { nodes := M, root := st.root, nextId := st.nextId } := by
  unfold removeN
  simp only [TreeState.mk.injEq, and_true]
  rw [hn, List.filter_append]
  have h1 : M.filter (fun e => !(e.1 == k)) = M :=
    List.filter_eq_self.mpr (fun e he => by simp [hfresh e he])
  rw [h1]
  simp

theorem adjust_nodes_congr {st st2 : TreeState} (h : st.nodes = st2.nodes)
    (j : Nat) (f : Node → Node) : (adjust st j f).nodes = (adjust st2 j f).nodes := by
  unfold adjust
  simp [h]

theorem decRefs_nodes_congr {st st2 : TreeState} (h : st.nodes = st2.nodes)
    (L : List Nat) : (decRefs st L).nodes = (decRefs st2 L).nodes := by
  induction L generalizing st st2 with
  | nil => exact h
  | cons a L2 ih =>
    rw [decRefs_cons, decRefs_cons]
    exact ih (adjust_nodes_congr h a _)

theorem decRefs_root (st : TreeState) (L : List Nat) :
    (decRefs st L).root = st.root := by
  induction L generalizing st with
  | nil => rfl
  | cons a L2 ih =>
    rw [decRefs_cons, ih]
    unfold decRef
    rw [root_adjust]

/-! ### Splitting a parent chain at an intermediate node -/

theorem upChain_cons_inv {st : TreeState} {i : Nat} {e : Option Nat} {a : Nat}
    {L : List Nat} (h : UpChain st i e (a :: L)) :
    a = i ∧ ∃ n, lookupN st.nodes i = some n ∧
      ((L = [] ∧ n.parent = e) ∨
       (∃ p, n.parent = some p ∧ UpChain st p e L)) := by
  cases h with
  | single i2 n e2 h1 h2 => exact ⟨rfl, n, h1, Or.inl ⟨rfl, h2⟩⟩
  | step i2 n p e2 L2 h1 h2 h3 => exact ⟨rfl, n, h1, Or.inr ⟨p, h2, h3⟩⟩

theorem upChain_split {st : TreeState} {lca : Nat} {B : List Nat} :
    ∀ (A : List Nat) (i : Nat), A ≠ [] → UpChain st i none (A ++ lca :: B) →
      UpChain st i (some lca) A := by
  intro A
  induction A with
  | nil =>
    intro i h _
    exact absurd rfl h
  | cons a A2 ih =>
    intro i _ h
    rw [List.cons_append] at h
    rcases upChain_cons_inv h with ⟨hai, n, hl, hcase⟩
    rcases hcase with ⟨hnil, _⟩ | ⟨p, hp, hch⟩
    · exact absurd hnil (by simp)
    · by_cases hA2 : A2 = []
      · subst hA2
        rcases upChain_head hch with ⟨M, hM⟩
        rw [List.nil_append] at hM
        have hpl : p = lca := by
          injection hM with h1 _
          exact h1.symm
        subst hai
        exact UpChain.single a n (some lca) hl (by rw [hp, hpl])
      · have hch2 : UpChain st p (some lca) A2 := ih p hA2 hch
        subst hai
        exact UpChain.step a n p (some lca) A2 hl hp hch2

/-! ### More counter-commutation lemmas -/

theorem decRefs_decRef_comm (st : TreeState) (j : Nat) (L : List Nat) :
    decRefs (decRef st j) L = decRef (decRefs st L) j := by
  induction L generalizing st with
  | nil => rfl
  | cons a L2 ih => rw [decRefs_cons, decRefs_cons, decRef_comm, ih]

theorem decRefs_decRefs_comm (st : TreeState) (L M : List Nat) :
    decRefs (decRefs st L) M = decRefs (decRefs st M) L := by
  induction L generalizing st with
  | nil => rfl
  | cons a L2 ih =>
    rw [decRefs_cons, decRefs_cons, ih, decRefs_decRef_comm]

theorem decRefs_bumpRefs_comm (st : TreeState) (L M : List Nat) :
    decRefs (bumpRefs st M) L = bumpRefs (decRefs st L) M := by
  induction M generalizing st with
  | nil => rfl
  | cons a M2 ih =>
    rw [bumpRefs_cons, bumpRefs_cons, ih, decRefs_bumpRef_comm]

theorem writer_unlock_writer_lock_comm (st : TreeState) (i j : Nat) :
    writer_unlock (writer_lock st j) i = writer_lock (writer_unlock st i) j := by
  unfold writer_unlock writer_lock
  apply adjust_adjust
  intro n
  cases n
  simp

theorem writer_unlock_bumpRef_comm (st : TreeState) (i j : Nat) :
    writer_unlock (bumpRef st j) i = bumpRef (writer_unlock st i) j := by
  unfold writer_unlock bumpRef
  apply adjust_adjust
  intro n
  cases n
  simp

theorem writer_unlock_bumpRefs_comm (st : TreeState) (i : Nat) (L : List Nat) :
    writer_unlock (bumpRefs st L) i = bumpRefs (writer_unlock st i) L := by
  induction L generalizing st with
  | nil => rfl
  | cons a L2 ih => rw [bumpRefs_cons, bumpRefs_cons, ih, writer_unlock_bumpRef_comm]

theorem decRefs_writer_unlock_comm (st : TreeState) (j : Nat) (L : List Nat) :
    decRefs (writer_unlock st j) L = writer_unlock (decRefs st L) j := by
  induction L generalizing st with
  | nil => rfl
  | cons a L2 ih =>
    rw [decRefs_cons, decRefs_cons, ← ih]
    congr 1
    unfold decRef writer_unlock
    apply adjust_adjust
    intro n
    cases n
    simp

/-! ### The lock-and-bump layer cancellation -/

theorem wunlock_decRefs_layer (S : TreeState) (d : Nat) (ids : List Nat) :
    writer_unlock (decRefs (writer_lock (bumpRefs S ids) d) ids.reverse) d
      = S := by
  rw [decRefs_writer_lock_comm, writer_unlock_writer_lock,
    decRefs_reverse_bumpRefs]

theorem unwind_writer_layer (S : TreeState) (d : Nat) (e : Option Nat)
    (ids : List Nat) (fuel : Nat)
    (hch : UpChain (writer_lock (bumpRefs S ids) d) d e ids.reverse)
    (hne : ∀ j ∈ ids.reverse, some j ≠ e)
    (hlen : ids.length ≤ fuel) :
    writer_unlock
      (unwind_path (writer_lock (bumpRefs S ids) d) (some d) e fuel) d = S := by
  rw [unwind_path_eq_decRefs ids.reverse _ d e hch hne fuel
    (by simpa using hlen)]
  exact wunlock_decRefs_layer S d ids

/-! ### `make_path_to_parent`, `make_path_to_LCA` and path suffixes on
rendered paths -/

theorem renderTail_append (X Y : List Path) :
    renderTail (X ++ Y) = renderTail X ++ renderTail Y := by
  unfold renderTail
  rw [List.map_append, List.flatten_append]

theorem renderTail_singleton (c : Path) : renderTail [c] = c ++ ['/'] := by
  simp [renderTail]

theorem renderPath_concat (cs : List Path) (c : Path) :
    renderPath (cs ++ [c]) = ('/' :: (renderTail cs ++ c)) ++ ['/'] := by
  unfold renderPath
  rw [renderTail_append, renderTail_singleton]
  simp

theorem reverse_sep_head (cs : List Path) :
    ∃ r, (renderTail cs).reverse ++ ['/'] = '/' :: r := by
  cases hcs : cs with
  | nil => exact ⟨[], rfl⟩
  | cons d ds =>
    have hgl : (renderTail (d :: ds)).getLast? = some '/' :=
      renderTail_getLast (d :: ds) (by simp)
    rw [← List.head?_reverse] at hgl
    cases hrev : (renderTail (d :: ds)).reverse with
    | nil =>
      rw [hrev] at hgl
      cases hgl
    | cons x t =>
      rw [hrev] at hgl
      injection hgl with hx
      exact ⟨t ++ ['/'], by rw [hx]; rfl⟩

theorem make_path_to_parent_render (cs : List Path) (c : Path)
    (hc : c.all notSep = true) :
    make_path_to_parent (renderPath (cs ++ [c])) = (renderPath cs, c) := by
  unfold make_path_to_parent
  rw [renderPath_concat, List.dropLast_concat]
  obtain ⟨r, hr⟩ := reverse_sep_head cs
  have hname : ((('/' :: (renderTail cs ++ c)).reverse).takeWhile notSep).reverse
      = c := by
    rw [List.reverse_cons, List.reverse_append, List.append_assoc, hr]
    rw [takeWhile_notSep_append c.reverse r (by simpa using hc)]
    exact List.reverse_reverse c
  show (('/' :: (renderTail cs ++ c)).take
      (('/' :: (renderTail cs ++ c)).length -
        ((('/' :: (renderTail cs ++ c)).reverse).takeWhile notSep).reverse.length),
      ((('/' :: (renderTail cs ++ c)).reverse).takeWhile notSep).reverse)
    = (renderPath cs, c)
  rw [hname]
  have hlen : ('/' :: (renderTail cs ++ c)).length - c.length
      = ('/' :: renderTail cs).length := by
    simp
    omega
  rw [hlen]
  have htake : ('/' :: (renderTail cs ++ c)).take ('/' :: renderTail cs).length
      = '/' :: renderTail cs := by
    have : ('/' :: (renderTail cs ++ c)) = ('/' :: renderTail cs) ++ c := by
      simp
    rw [this, List.take_left]
  rw [htake]
  rfl

theorem drop_renderPath (X Y : List Path) :
    (renderPath (X ++ Y)).drop ((renderPath X).length - 1) = renderPath Y := by
  unfold renderPath
  rw [renderTail_append]
  cases hX : X with
  | nil =>
    simp [renderTail]
  | cons d ds =>
    have hgl : (renderTail (d :: ds)).getLast? = some '/' :=
      renderTail_getLast (d :: ds) (by simp)
    have hsplit : renderTail (d :: ds) =
        (renderTail (d :: ds)).dropLast ++ ['/'] :=
      (List.dropLast_append_getLast? '/' hgl).symm
    rw [List.length_cons]
    have hidx : (renderTail (d :: ds)).length + 1 - 1 =
        (renderTail (d :: ds)).length := by
      omega
    rw [hidx]
    have hlist : '/' :: (renderTail (d :: ds) ++ renderTail Y)
        = ('/' :: (renderTail (d :: ds)).dropLast) ++ ('/' :: renderTail Y) := by
      conv_lhs => rw [hsplit]
      simp
    have hlen2 : (renderTail (d :: ds)).length =
        ('/' :: (renderTail (d :: ds)).dropLast).length := by
      conv_lhs => rw [hsplit]
      simp
    rw [hlist, hlen2, List.drop_left]

theorem renderPath_concat_length (cs : List Path) (c : Path) :
    (renderPath (cs ++ [c])).length = (renderPath cs).length + c.length + 1 := by
  rw [renderPath_concat]
  unfold renderPath
  simp
  omega

theorem commonStem_prefix_left : ∀ (A B : List Path), commonStem A B <+: A
  | [], _ => by simp [commonStem]
  | _ :: _, [] => by simp [commonStem]
  | c :: cs, d :: ds => by
    unfold commonStem
    by_cases h : c = d
    · rw [if_pos h]
      rcases commonStem_prefix_left cs ds with ⟨t, ht⟩
      exact ⟨t, by rw [List.cons_append, ht]⟩
    · rw [if_neg h]
      exact List.nil_prefix

theorem commonStem_prefix_right : ∀ (A B : List Path), commonStem A B <+: B
  | [], _ => by simp [commonStem]
  | _ :: _, [] => by simp [commonStem]
  | c :: cs, d :: ds => by
    unfold commonStem
    by_cases h : c = d
    · rw [if_pos h, h]
      rcases commonStem_prefix_right cs ds with ⟨t, ht⟩
      exact ⟨t, by rw [List.cons_append, ht]⟩
    · rw [if_neg h]
      exact List.nil_prefix

theorem commonStem_of_ne_last : ∀ (P : List Path) (a b : Path), a ≠ b →
    commonStem (P ++ [a]) (P ++ [b]) = P
  | [], a, b, h => by
    unfold commonStem
    simp only [List.nil_append]
    rw [if_neg h]
  | c :: P, a, b, h => by
    rw [List.cons_append, List.cons_append]
    unfold commonStem
    rw [if_pos rfl, commonStem_of_ne_last P a b h]

theorem prefix_dropLast_of_proper {A B : List Path} (h : A <+: B)
    (hlen : A.length < B.length) : A <+: B.dropLast := by
  have h1 : A = B.take A.length := List.prefix_iff_eq_take.mp h
  have h2 : B.dropLast = B.take (B.length - 1) := by
    rw [List.dropLast_eq_take]
  rw [h2]
  rw [List.prefix_iff_eq_take]
  rw [List.take_take]
  have h3 : min A.length (B.length - 1) = A.length := by omega
  rw [h3]
  exact h1

theorem prefix_eq_of_length_ge {A B : List Path} (h : A <+: B)
    (hlen : B.length ≤ A.length) : A = B := by
  have := h.length_le
  exact List.IsPrefix.eq_of_length h (by omega)

theorem renderPath_inj {A B : List Path}
    (ha : ∀ c ∈ A, c.all notSep = true) (hb : ∀ c ∈ B, c.all notSep = true)
    (h : renderPath A = renderPath B) : A = B := by
  have h1 := components_renderPath A ha
  have h2 := components_renderPath B hb
  rw [← h1, ← h2, h]

theorem valid_nonroot_concat {p : Path} (hv : is_valid_path p = true)
    (hr : IS_ROOT p = false) :
    ∃ cs c, components p = cs ++ [c] ∧ p = renderPath (cs ++ [c]) ∧
      (∀ x ∈ cs ++ [c], compOk x = true) := by
  rcases valid_decomp p hv with ⟨comps, hp, hok, hcomps⟩
  rcases List.eq_nil_or_concat comps with hnil | ⟨cs, c, hcc⟩
  · subst hnil
    rw [hp] at hr
    rw [renderPath_nil] at hr
    simp [IS_ROOT] at hr
  · rw [List.concat_eq_append] at hcc
    subst hcc
    exact ⟨cs, c, hcomps, hp, hok⟩

theorem drop_beyond_renderPath (X : List Path) (n : Nat)
    (hn : (renderPath X).length ≤ n) :
    (renderPath X).drop n = [] :=
  List.drop_eq_nil_of_le hn

theorem get_node_nil_locked (st : TreeState) (cur : Nat) (reader : Bool) :
    get_node st cur [] true reader = (some cur, st) := rfl

/-! ### Error paths restore the state (claim C4) -/

theorem lockFin_WRITER (st : TreeState) (d : Nat) :
    lockFin WRITER st d = writer_lock st d := rfl

theorem lockFin_READER (st : TreeState) (d : Nat) :
    lockFin READER st d = reader_lock st d := rfl

theorem compOk_last {cs : List Path} {c : Path}
    (hok : ∀ x ∈ cs ++ [c], compOk x = true) : c.all notSep = true :=
  compOk_all_notSep c (hok c (List.mem_append_right _ (List.mem_singleton_self c)))

theorem compOk_init {cs : List Path} {c : Path}
    (hok : ∀ x ∈ cs ++ [c], compOk x = true) :
    ∀ x ∈ cs, x.all notSep = true :=
  fun x hx => compOk_all_notSep x (hok x (List.mem_append_left _ hx))

theorem tree_list_restores (st : TreeState) (p : Path) (hwf : WFs st) :
    (∃ r st', tree_list st p = (some r, st')) ∨ tree_list st p = (none, st) := by
  by_cases hv : is_valid_path p = true
  · rcases valid_decomp p hv with ⟨comps, hp, hok, hcomps⟩
    have hall : ∀ x ∈ comps, x.all notSep = true :=
      fun x hx => compOk_all_notSep x (hok x hx)
    rcases get_node_spec_root st READER comps hwf hall with
      ⟨hdn, hget⟩ | ⟨d, ids, hd, hne, hget, hdesc⟩
    · right
      rw [← hp] at hget
      exact tree_list_none st st p hv hget
    · left
      rw [← hp] at hget
      exact ⟨_, _, tree_list_some st _ p d hv hget⟩
  · right
    exact tree_list_invalid st p hv

theorem tree_remove_restores (st : TreeState) (p : Path) (hwf : WFs st)
    (hv : is_valid_path p = true) :
    (tree_remove st p).1 = SUCCESS ∨ (tree_remove st p).2 = st := by
  by_cases hroot : IS_ROOT p = true
  · right
    unfold tree_remove
    rw [if_pos hroot]
  · have hroot2 : IS_ROOT p = false := by
      simpa using hroot
    rcases valid_nonroot_concat hv hroot2 with ⟨cs, c, hcomps, hp, hok⟩
    have hpp : make_path_to_parent p = (renderPath cs, c) := by
      rw [hp]
      exact make_path_to_parent_render cs c (compOk_last hok)
    rcases get_node_spec_root st WRITER cs hwf (compOk_init hok) with
      ⟨hdn, hget⟩ | ⟨d, ids, hd, hne, hget, hdesc⟩
    · right
      unfold tree_remove
      rw [if_neg hroot]
      simp only [hpp, hget]
    · unfold tree_remove
      rw [if_neg hroot]
      simp only [hpp, hget]
      have hlen : ids.length ≤
          (lockFin WRITER (bumpRefs st ids) d).nodes.length := by
        have := desc_length_le hdesc
        simpa using this
      cases hmg : hmap_get (childrenOf (lockFin WRITER (bumpRefs st ids) d) d) c with
      | none =>
        right
        simp only [hmg]
        show writer_unlock (unwind_path (lockFin WRITER (bumpRefs st ids) d)
          (some d) none (lockFin WRITER (bumpRefs st ids) d).nodes.length) d = st
        rw [lockFin_WRITER] at hdesc hlen ⊢
        exact unwind_writer_layer st d none ids _ hdesc.chain (by simp) hlen
      | some child =>
        simp only [hmg]
        by_cases hcnt : subdir_count
            (writer_lock (lockFin WRITER (bumpRefs st ids) d) child) child > 0
        · right
          rw [if_pos hcnt]
          show writer_unlock (unwind_path
            (writer_unlock (writer_lock (lockFin WRITER (bumpRefs st ids) d) child) child)
            (some d) none
            (writer_unlock (writer_lock (lockFin WRITER (bumpRefs st ids) d) child) child).nodes.length) d = st
          rw [writer_unlock_writer_lock]
          rw [lockFin_WRITER] at hdesc hlen ⊢
          exact unwind_writer_layer st d none ids _ hdesc.chain (by simp) hlen
        · left
          rw [if_neg hcnt]

theorem adjustN_append (l l' : List (Nat × Node)) (j : Nat) (f : Node → Node) :
    adjustN (l ++ l') j f = adjustN l j f ++ adjustN l' j f :=
  List.map_append _ _ _

theorem bumpRefs_root (st : TreeState) (L : List Nat) :
    (bumpRefs st L).root = st.root := by
  induction L generalizing st with
  | nil => rfl
  | cons a L2 ih =>
    rw [bumpRefs_cons, ih]
    unfold bumpRef
    rw [root_adjust]

theorem lookupN_adjust_other (st : TreeState) {i j : Nat} (f : Node → Node)
    (h : j ≠ i) : lookupN (adjust st i f).nodes j = lookupN st.nodes j :=
  lookupN_adjustN_other st.nodes f h

theorem lookupN_decRefs_notMem (st : TreeState) (L : List Nat) (k : Nat)
    (h : k ∉ L) : lookupN (decRefs st L).nodes k = lookupN st.nodes k := by
  induction L generalizing st with
  | nil => rfl
  | cons a L2 ih =>
    rw [decRefs_cons, ih _ (fun hm => h (List.mem_cons_of_mem _ hm))]
    have hka : k ≠ a := fun he => h (by rw [he]; exact List.mem_cons_self a L2)
    exact lookupN_adjust_other st _ hka

theorem tree_free_go_succ (fuel : Nat) (st : TreeState) (i : Nat) :
    tree_free_go (fuel + 1) st i =
      match lookupN st.nodes i with
      | none => st
      | some n =>
        removeN (n.children.foldl (fun s e => tree_free_go fuel s e.2) st) i :=
  rfl


theorem setParent_nodes (X : TreeState) (i : Nat) (p : Option Nat) :
    (setParent X i p).nodes =
      adjustN X.nodes i (fun n => { n with parent := p }) := rfl

theorem insertChild_nodes (X : TreeState) (i : Nat) (c : Path) (k : Nat) :
    (insertChild X i c k).nodes =
      adjustN X.nodes i
        (fun n => { n with children := n.children ++ [(c, k)] }) := rfl

theorem alloc_node_fst (X : TreeState) : (alloc_node X).1 = X.nextId := rfl

theorem adjustN_length (l : List (Nat × Node)) (j : Nat) (f : Node → Node) :
    (adjustN l j f).length = l.length := by
  unfold adjustN
  exact List.length_map _ _

theorem alloc_node_snd_nodes (X : TreeState) :
    (alloc_node X).2.nodes = X.nodes ++ [(X.nextId, emptyNode)] := rfl

theorem alloc_node_snd_root (X : TreeState) :
    (alloc_node X).2.root = X.root := rfl

theorem alloc_node_snd_nextId (X : TreeState) :
    (alloc_node X).2.nextId = X.nextId + 1 := rfl

theorem setParent_root (X : TreeState) (i : Nat) (p : Option Nat) :
    (setParent X i p).root = X.root := by
  unfold setParent
  rw [root_adjust]

theorem writer_unlock_nodes (X : TreeState) (i : Nat) :
    (writer_unlock X i).nodes =
      adjustN X.nodes i (fun n => { n with w_count := n.w_count - 1 }) := rfl

theorem writer_unlock_root (X : TreeState) (i : Nat) :
    (writer_unlock X i).root = X.root := by
  unfold writer_unlock
  rw [root_adjust]

theorem writer_lock_root (X : TreeState) (i : Nat) :
    (writer_lock X i).root = X.root := by
  unfold writer_lock
  rw [root_adjust]

/-- The `EEXIST` path of `tree_create`: the freshly allocated node is
freed again and the locks and refcounts are unwound, so the heap is
exactly restored (only the allocator counter has advanced). -/
theorem create_exists_cleanup (st : TreeState) (d : Nat) (ids : List Nat)
    (hwf : WFs st)
    (hdesc : Desc (writer_lock (bumpRefs st ids) d) d ids.reverse) :
    (tree_free
      (writer_unlock
        (unwind_path
          (setParent (alloc_node (writer_lock (bumpRefs st ids) d)).2
            (alloc_node (writer_lock (bumpRefs st ids) d)).1 (some d))
          (some d) none
          (setParent (alloc_node (writer_lock (bumpRefs st ids) d)).2
            (alloc_node (writer_lock (bumpRefs st ids) d)).1 (some d)).nodes.length)
        d)
      (alloc_node (writer_lock (bumpRefs st ids) d)).1).nodes = st.nodes ∧
    (tree_free
      (writer_unlock
        (unwind_path
          (setParent (alloc_node (writer_lock (bumpRefs st ids) d)).2
            (alloc_node (writer_lock (bumpRefs st ids) d)).1 (some d))
          (some d) none
          (setParent (alloc_node (writer_lock (bumpRefs st ids) d)).2
            (alloc_node (writer_lock (bumpRefs st ids) d)).1 (some d)).nodes.length)
        d)
      (alloc_node (writer_lock (bumpRefs st ids) d)).1).root = st.root := by
  set W := writer_lock (bumpRefs st ids) d with hW
  have hseW : ShapeEq st W :=
    shapeEq_trans (shapeEq_bumpRefs st ids) (shapeEq_writer_lock _ d)
  have hwfW : WFs W := shapeEq_wfs hseW hwf
  have hfresh : W.nextId ∉ heapKeys W := fresh_notMem hwfW
  have hfresh' : ∀ e ∈ W.nodes, e.1 ≠ W.nextId := by
    intro e he heq
    exact hfresh (heq ▸ List.mem_map_of_mem Prod.fst he)
  have hlknone : lookupN W.nodes W.nextId = none :=
    lookupN_eq_none_of_notMem hfresh
  have hkNotMem : W.nextId ∉ ids.reverse := by
    intro hmem
    exact hfresh (mem_heapKeys_of_isSome (upChain_inHeap hdesc.chain _ hmem))
  have hdMem : d ∈ ids.reverse := by
    rcases upChain_head hdesc.chain with ⟨M, hM⟩
    rw [hM]
    exact List.mem_cons_self d M
  have hkd : W.nextId ≠ d := fun he => hkNotMem (he ▸ hdMem)
  rw [alloc_node_fst]
  have hst2nodes : (setParent (alloc_node W).2 W.nextId (some d)).nodes
      = W.nodes ++ [(W.nextId, (⟨some d, [], 0, 0, 0, 0, 0⟩ : Node))] := by
    rw [setParent_nodes, alloc_node_snd_nodes, adjustN_append,
      adjustN_notMem _ _ _ hfresh']
    congr 1
    simp [adjustN, emptyNode]
  have hchain2 : UpChain (setParent (alloc_node W).2 W.nextId (some d)) d none
      ids.reverse := by
    unfold setParent
    refine upChain_adjust_ne _ _ hkNotMem ?_
    exact upChain_heap_append hdesc.chain _ (alloc_node_snd_nodes W)
  have hlendesc : ids.reverse.length ≤ W.nodes.length := by
    have := desc_length_le hdesc
    simpa using this
  have hfuel : ids.reverse.length ≤
      (setParent (alloc_node W).2 W.nextId (some d)).nodes.length := by
    rw [hst2nodes, List.length_append]
    simp only [List.length_cons, List.length_nil]
    omega
  rw [unwind_path_eq_decRefs ids.reverse _ d none hchain2 (by simp) _ hfuel]
  have hlk4 : lookupN (writer_unlock
      (decRefs (setParent (alloc_node W).2 W.nextId (some d)) ids.reverse)
      d).nodes W.nextId
      = some (⟨some d, [], 0, 0, 0, 0, 0⟩ : Node) := by
    rw [writer_unlock_nodes, lookupN_adjustN_other _ _ hkd,
      lookupN_decRefs_notMem _ _ _ hkNotMem, hst2nodes]
    exact lookupN_append_fresh _ _ _ hlknone
  have hlen4 : (writer_unlock
      (decRefs (setParent (alloc_node W).2 W.nextId (some d)) ids.reverse)
      d).nodes.length = W.nodes.length + 1 := by
    rw [writer_unlock_nodes, adjustN_length]
    rw [shapeEq_length (shapeEq_decRefs _ ids.reverse), hst2nodes]
    simp
  have hfree : tree_free (writer_unlock
      (decRefs (setParent (alloc_node W).2 W.nextId (some d)) ids.reverse) d)
      W.nextId
      = removeN (writer_unlock
      (decRefs (setParent (alloc_node W).2 W.nextId (some d)) ids.reverse) d)
      W.nextId := by
    unfold tree_free
    rw [hlen4, tree_free_go_succ, hlk4]
    rfl
  rw [hfree]
  have hrem : removeN (writer_unlock
      (decRefs (setParent (alloc_node W).2 W.nextId (some d)) ids.reverse) d)
      W.nextId
      = writer_unlock (decRefs
        (removeN (setParent (alloc_node W).2 W.nextId (some d)) W.nextId)
        ids.reverse) d := by
    unfold writer_unlock
    rw [removeN_adjust_comm, removeN_decRefs_comm]
  rw [hrem]
  have hremval : removeN (setParent (alloc_node W).2 W.nextId (some d)) W.nextId
      = { nodes := W.nodes,
          root := (setParent (alloc_node W).2 W.nextId (some d)).root,
          nextId := (setParent (alloc_node W).2 W.nextId (some d)).nextId } :=
    removeN_append_fresh _ _ _ _ hst2nodes hfresh'
  rw [hremval]
  have hnodeseq : ({ nodes := W.nodes,
                     root := (setParent (alloc_node W).2 W.nextId (some d)).root,
                     nextId := (setParent (alloc_node W).2 W.nextId
                       (some d)).nextId } : TreeState).nodes = W.nodes := rfl
  constructor
  · rw [writer_unlock_nodes]
    have h2 := decRefs_nodes_congr hnodeseq ids.reverse
    rw [h2]
    have h4 : (writer_unlock (decRefs W ids.reverse) d).nodes = st.nodes := by
      rw [hW]
      exact congrArg TreeState.nodes (wunlock_decRefs_layer st d ids)
    rw [writer_unlock_nodes] at h4
    exact h4
  · rw [writer_unlock_root, decRefs_root]
    show (setParent (alloc_node W).2 W.nextId (some d)).root = st.root
    rw [setParent_root, alloc_node_snd_root, hW, writer_lock_root, bumpRefs_root]

theorem tree_create_restores (st : TreeState) (p : Path) (hwf : WFs st) :
    (tree_create st p).1 = SUCCESS ∨
    ((tree_create st p).2.nodes = st.nodes ∧
      (tree_create st p).2.root = st.root) := by
  by_cases hv : is_valid_path p = true
  · by_cases hroot : IS_ROOT p = true
    · right
      unfold tree_create
      rw [if_neg (by simp [hv]), if_pos hroot]
      exact ⟨rfl, rfl⟩
    · have hroot2 : IS_ROOT p = false := by
        simpa using hroot
      rcases valid_nonroot_concat hv hroot2 with ⟨cs, c, hcomps, hp, hok⟩
      have hpp : make_path_to_parent p = (renderPath cs, c) := by
        rw [hp]
        exact make_path_to_parent_render cs c (compOk_last hok)
      rcases get_node_spec_root st WRITER cs hwf (compOk_init hok) with
        ⟨hdn, hget⟩ | ⟨d, ids, hd, hne, hget, hdesc⟩
      · right
        unfold tree_create
        rw [if_neg (by simp [hv]), if_neg hroot]
        simp only [hpp, hget]
        exact ⟨trivial, trivial⟩
      · unfold tree_create
        rw [if_neg (by simp [hv]), if_neg hroot]
        rw [lockFin_WRITER] at hget hdesc
        simp only [hpp, hget]
        cases hmg : hmap_get (childrenOf
            (setParent (alloc_node (writer_lock (bumpRefs st ids) d)).2
              (alloc_node (writer_lock (bumpRefs st ids) d)).1 (some d)) d) c with
        | some x =>
          right
          simp only [hmg]
          exact create_exists_cleanup st d ids hwf hdesc
        | none =>
          left
          simp only [hmg]
  · right
    unfold tree_create
    rw [if_pos (by simp [hv])]
    exact ⟨rfl, rfl⟩

theorem optUnlock_true (st : TreeState) (cur : Nat) :
    optUnlock true st cur = st := rfl

/-- `get_node` with `start_locked = true` (the inner descents of
`tree_move`): on failure the refcounts of the start node's whole chain
are decremented (the start node's lock is left to the caller); on
success the newly visited nodes hold one extra refcount, the found node
is write- or read-locked, and its chain extends the start chain. -/
theorem get_node_spec_locked (st : TreeState) (cur : Nat) (C : List Nat)
    (comps : List Path) (reader : Bool)
    (hwf : WFs st) (hd : Desc st cur C)
    (hall : ∀ c ∈ comps, c.all notSep = true) :
    (descend st cur comps = none ∧
      get_node st cur (renderPath comps) true reader = (none, decRefs st C)) ∨
    (∃ d ids,
      descend st cur comps = some d ∧
      Desc (get_node st cur (renderPath comps) true reader).2 d
        (ids.reverse ++ C) ∧
      ((comps = [] ∧ ids = ([] : List Nat) ∧ d = cur ∧
          get_node st cur (renderPath comps) true reader = (some cur, st)) ∨
       (comps ≠ [] ∧ ids ≠ [] ∧
          get_node st cur (renderPath comps) true reader =
            (some d, lockFin reader (bumpRefs st ids) d)))) := by
  have hfuel : comps.length ≤ (renderPath comps).length := by
    have := renderPath_length comps
    omega
  have h := get_node_go_spec comps st cur true reader C
    (renderPath comps).length hwf hd hall hfuel
  rw [← get_node_true_def] at h
  rcases h with ⟨hdn, hget⟩ | ⟨d, ids, hd2, hdesc2, hcase⟩
  · left
    rw [optUnlock_true] at hget
    exact ⟨hdn, hget⟩
  · right
    refine ⟨d, ids, hd2, hdesc2, ?_⟩
    rcases hcase with ⟨h1, h2, h3, h4⟩ | ⟨h1, h2, h3⟩
    · exact Or.inl ⟨h1, h2, h3, h4⟩
    · rw [optUnlock_true] at h3
      exact Or.inr ⟨h1, h2, h3⟩

theorem head_of_append_ne_nil {A B : List Nat} {x : Nat} {M : List Nat}
    (h : A ++ B = x :: M) (hA : A ≠ []) : ∃ A2, A = x :: A2 := by
  cases A with
  | nil => exact absurd rfl hA
  | cons a A2 =>
    rw [List.cons_append] at h
    injection h with h1 _
    exact ⟨A2, by rw [h1]⟩

theorem shapeEq_wlock_bumps (X : TreeState) (ids : List Nat) (d : Nat) :
    ShapeEq X (writer_lock (bumpRefs X ids) d) :=
  shapeEq_trans (shapeEq_bumpRefs X ids) (shapeEq_writer_lock _ d)

theorem shapeEq_wunlock_decs (X : TreeState) (L : List Nat) (j : Nat) :
    ShapeEq X (writer_unlock (decRefs X L) j) :=
  shapeEq_trans (shapeEq_decRefs X L) (shapeEq_writer_unlock _ j)

/-- Transports a descent chain to a counter-equal state, splits it at
`lca`, and extracts the facts needed for the cleanup unwind. -/
theorem chain_split_transport {stA stB : TreeState} {sp lca : Nat}
    {ids1 ids0M : List Nat} (hse : ShapeEq stA stB)
    (hd : Desc stA sp (ids1 ++ lca :: ids0M)) (hne : ids1 ≠ []) :
    UpChain stB sp (some lca) ids1 ∧ lca ∉ ids1 ∧ sp ≠ lca := by
  have hch := shapeEq_upChain hse hd.chain
  have hlcaNot : lca ∉ ids1 := by
    intro hmem
    have hdisj := List.disjoint_of_nodup_append hd.nodup
    exact hdisj hmem (List.mem_cons_self lca ids0M)
  refine ⟨upChain_split ids1 sp hne hch, hlcaNot, ?_⟩
  rcases upChain_head hd.chain with ⟨M, hM⟩
  rcases head_of_append_ne_nil hM hne with ⟨A2, hA2⟩
  intro hspl
  apply hlcaNot
  rw [hA2, ← hspl]
  exact List.mem_cons_self sp A2

theorem some_ne_of_notMem {lca : Nat} {A : List Nat} (h : lca ∉ A) :
    ∀ j ∈ A, some j ≠ some lca :=
  fun _ hj he => h (Option.some.inj he ▸ hj)

theorem move_cleanup1_self (st : TreeState) (lca : Nat) (ids0 : List Nat)
    (hdesc0 : Desc (writer_lock (bumpRefs st ids0) lca) lca ids0.reverse) :
    move_cleanup1 (writer_lock (bumpRefs st ids0) lca) lca lca = st := by
  simp only [move_cleanup1]
  rw [if_neg (by simp)]
  exact unwind_writer_layer st lca none ids0 _ hdesc0.chain (by simp)
    (by simpa using desc_length_le hdesc0)

/-- The `CLEANUP()` of the two-parent branch of `tree_move`, run from
the state in which the LCA, the source parent and the target parent are
write-locked and every node visited on the way holds one extra
refcount, restores the initial state exactly. -/
theorem move_cleanup2_restores (st st1 st2 st3 : TreeState) (lca sp tp : Nat)
    (ids0 ids1 ids2 : List Nat)
    (h1 : st1 = writer_lock (bumpRefs st ids0) lca)
    (hdesc0 : Desc st1 lca ids0.reverse)
    (hs : (sp = lca ∧ st2 = st1 ∧ ids1 = []) ∨
          (st2 = writer_lock (bumpRefs st1 ids1) sp ∧
           Desc st2 sp (ids1.reverse ++ ids0.reverse) ∧ ids1 ≠ []))
    (ht : (tp = lca ∧ st3 = st2 ∧ ids2 = []) ∨
          (st3 = writer_lock (bumpRefs st2 ids2) tp ∧
           Desc st3 tp (ids2.reverse ++ ids0.reverse) ∧ ids2 ≠ [])) :
    move_cleanup2 st3 sp tp lca = st := by
  rcases upChain_head hdesc0.chain with ⟨M0, hM0⟩
  have hlen0 : ids0.length ≤ st1.nodes.length := by
    simpa using desc_length_le hdesc0
  have hfinal : writer_unlock
      (unwind_path st1 (some lca) none st1.nodes.length) lca = st := by
    rw [h1] at hdesc0 hlen0 ⊢
    exact unwind_writer_layer st lca none ids0 _ hdesc0.chain (by simp) hlen0
  rcases hs with ⟨hspl, hst2, hids1⟩ | ⟨hst2, hdesc1, hids1⟩
  · -- source parent is the LCA itself
    rcases ht with ⟨htpl, hst3, hids2⟩ | ⟨hst3, hdesc2, hids2⟩
    · -- target parent is the LCA as well
      simp only [move_cleanup2]
      rw [if_neg (fun h => h htpl), if_neg (fun h => h hspl)]
      rw [hst3, hst2]
      exact hfinal
    · -- target parent strictly below the LCA
      rw [hM0] at hdesc2
      obtain ⟨hch2, hlca2, htpl⟩ := chain_split_transport (shapeEq_refl st3)
        hdesc2 (by simpa using hids2)
      have hlen2 : ids2.reverse.length ≤ st3.nodes.length := by
        have h2 := desc_length_le hdesc2
        simp only [List.length_append] at h2
        omega
      simp only [move_cleanup2]
      rw [if_pos htpl, if_neg (fun h => h hspl)]
      rw [unwind_path_eq_decRefs ids2.reverse st3 tp (some lca) hch2
        (some_ne_of_notMem hlca2) _ hlen2]
      rw [hst3, hst2, wunlock_decRefs_layer]
      exact hfinal
  · -- source parent strictly below the LCA
    rw [hM0] at hdesc1
    obtain ⟨hch1, hlca1, hspl⟩ := chain_split_transport (shapeEq_refl st2)
      hdesc1 (by simpa using hids1)
    rcases ht with ⟨htpl, hst3, hids2⟩ | ⟨hst3, hdesc2, hids2⟩
    · -- target parent is the LCA
      have hlen1 : ids1.reverse.length ≤ st2.nodes.length := by
        have h2 := desc_length_le hdesc1
        simp only [List.length_append] at h2
        omega
      simp only [move_cleanup2]
      rw [if_neg (fun h => h htpl), if_pos hspl]
      rw [hst3]
      rw [unwind_path_eq_decRefs ids1.reverse st2 sp (some lca) hch1
        (some_ne_of_notMem hlca1) _ hlen1]
      rw [hst2, wunlock_decRefs_layer]
      exact hfinal
    · -- both parents strictly below the LCA
      rw [hM0] at hdesc2
      have hseB : ShapeEq st2 st3 := by
        rw [hst3]
        exact shapeEq_wlock_bumps st2 ids2 tp
      obtain ⟨hch1b, hlca1b, _⟩ := chain_split_transport hseB hdesc1
        (by simpa using hids1)
      have hlen1 : ids1.reverse.length ≤ st3.nodes.length := by
        have h2 := desc_length_le hdesc1
        simp only [List.length_append] at h2
        rw [shapeEq_length hseB]
        omega
      simp only [move_cleanup2]
      rw [if_pos hspl]
      rw [unwind_path_eq_decRefs ids1.reverse st3 sp (some lca) hch1b
        (some_ne_of_notMem hlca1b) _ hlen1]
      have hst1eq : writer_unlock (decRefs st3 ids1.reverse) sp =
          writer_lock (bumpRefs st1 ids2) tp := by
        rw [hst3, decRefs_writer_lock_comm, decRefs_bumpRefs_comm,
          writer_unlock_writer_lock_comm, writer_unlock_bumpRefs_comm,
          hst2, wunlock_decRefs_layer]
      rw [hst1eq]
      have hseC : ShapeEq st3 (writer_lock (bumpRefs st1 ids2) tp) := by
        rw [← hst1eq]
        exact shapeEq_wunlock_decs st3 ids1.reverse sp
      obtain ⟨hch2b, hlca2b, htpl⟩ := chain_split_transport hseC hdesc2
        (by simpa using hids2)
      have hlen2 : ids2.reverse.length ≤
          (writer_lock (bumpRefs st1 ids2) tp).nodes.length := by
        have h2 := desc_length_le hdesc2
        simp only [List.length_append] at h2
        rw [shapeEq_length hseC]
        omega
      rw [if_pos htpl]
      rw [unwind_path_eq_decRefs ids2.reverse _ tp (some lca) hch2b
        (some_ne_of_notMem hlca2b) _ hlen2]
      rw [wunlock_decRefs_layer]
      exact hfinal

/-- The target-parent-missing error of the two-parent branch: the
failed descent has already decremented every refcount, so only the
source-parent segment (if distinct from the LCA) and the final unlocks
remain. -/
theorem move_tfail_restores (st st1 st2 : TreeState) (lca sp : Nat)
    (ids0 ids1 : List Nat)
    (h1 : st1 = writer_lock (bumpRefs st ids0) lca)
    (hdesc0 : Desc st1 lca ids0.reverse)
    (hs : (sp = lca ∧ st2 = st1 ∧ ids1 = []) ∨
          (st2 = writer_lock (bumpRefs st1 ids1) sp ∧
           Desc st2 sp (ids1.reverse ++ ids0.reverse) ∧ ids1 ≠ [])) :
    writer_unlock
      (if sp ≠ lca then
        writer_unlock (unwind_path (decRefs st2 ids0.reverse) (some sp)
          (some lca) (decRefs st2 ids0.reverse).nodes.length) sp
       else decRefs st2 ids0.reverse) lca = st := by
  rcases upChain_head hdesc0.chain with ⟨M0, hM0⟩
  rcases hs with ⟨hspl, hst2, hids1⟩ | ⟨hst2, hdesc1, hids1⟩
  · rw [if_neg (fun h => h hspl), hst2, h1, wunlock_decRefs_layer]
  · rw [hM0] at hdesc1
    have hseD : ShapeEq st2 (decRefs st2 ids0.reverse) :=
      shapeEq_decRefs st2 ids0.reverse
    obtain ⟨hch1, hlca1, hspl⟩ := chain_split_transport hseD hdesc1
      (by simpa using hids1)
    have hlen1 : ids1.reverse.length ≤
        (decRefs st2 ids0.reverse).nodes.length := by
      have h2 := desc_length_le hdesc1
      simp only [List.length_append] at h2
      rw [shapeEq_length hseD]
      omega
    rw [if_pos hspl]
    rw [unwind_path_eq_decRefs ids1.reverse _ sp (some lca) hch1
      (some_ne_of_notMem hlca1) _ hlen1]
    rw [decRefs_decRefs_comm, ← decRefs_writer_unlock_comm, hst2,
      wunlock_decRefs_layer, h1, wunlock_decRefs_layer]

theorem tree_move_restores (st : TreeState) (s t : Path) (hwf : WFs st) :
    (tree_move st s t).1 = SUCCESS ∨ (tree_move st s t).2 = st := by
  by_cases hv : (is_valid_path s = true ∧ is_valid_path t = true)
  · by_cases hrs : IS_ROOT s = true
    · right
      unfold tree_move
      rw [if_neg (not_not_intro hv), if_pos hrs]
    · by_cases hrt : IS_ROOT t = true
      · right
        unfold tree_move
        rw [if_neg (not_not_intro hv), if_neg hrs, if_pos hrt]
      · by_cases hanc : is_ancestor s t = true
        · right
          unfold tree_move
          rw [if_neg (not_not_intro hv), if_neg hrs, if_neg hrt, if_pos hanc]
        · -- the guarded part of tree_move
          have hrs' : IS_ROOT s = false := by
            simpa using hrs
          have hrt' : IS_ROOT t = false := by
            simpa using hrt
          obtain ⟨csS, cS, hcompS, hpS, hokS⟩ := valid_nonroot_concat hv.1 hrs'
          obtain ⟨csT, cT, hcompT, hpT, hokT⟩ := valid_nonroot_concat hv.2 hrt'
          have hallS : ∀ x ∈ csS ++ [cS], x.all notSep = true :=
            fun x hx => compOk_all_notSep x (hokS x hx)
          have hallT : ∀ x ∈ csT ++ [cT], x.all notSep = true :=
            fun x hx => compOk_all_notSep x (hokT x hx)
          have hlca : make_path_to_LCA s t =
              renderPath (commonStem (csS ++ [cS]) (csT ++ [cT])) := by
            unfold make_path_to_LCA
            rw [hcompS, hcompT]
          have hallStem : ∀ x ∈ commonStem (csS ++ [cS]) (csT ++ [cT]),
              x.all notSep = true :=
            fun x hx => hallS x ((commonStem_prefix_left _ _).subset hx)
          have hsnt : ¬ (s <+: t) := by
            intro h
            apply hanc
            rw [is_ancestor, List.isPrefixOf_iff_prefix]
            exact h
          have hnST : ¬ ((csS ++ [cS]) <+: (csT ++ [cT])) := by
            intro h
            apply hsnt
            apply (components_prefix_iff s t hv.1 hv.2).mpr
            rw [hcompS, hcompT]
            exact h
          have hstemS := commonStem_prefix_left (csS ++ [cS]) (csT ++ [cT])
          have hstemT := commonStem_prefix_right (csS ++ [cS]) (csT ++ [cT])
          have hstemSlt : (commonStem (csS ++ [cS]) (csT ++ [cT])).length <
              (csS ++ [cS]).length := by
            rcases lt_or_ge (commonStem (csS ++ [cS]) (csT ++ [cT])).length
              (csS ++ [cS]).length with h | h
            · exact h
            · exfalso
              apply hnST
              have heq := prefix_eq_of_length_ge hstemS h
              rw [← heq]
              exact hstemT
          have hcsSpre : commonStem (csS ++ [cS]) (csT ++ [cT]) <+: csS := by
            have h2 := prefix_dropLast_of_proper hstemS hstemSlt
            rw [List.dropLast_concat] at h2
            exact h2
          obtain ⟨Ys, hYs⟩ := hcsSpre
          have hallYs : ∀ c ∈ Ys, c.all notSep = true := by
            intro c hc
            apply hallS c
            apply List.mem_append_left
            rw [← hYs]
            exact List.mem_append_right _ hc
          have hps : make_path_to_parent s = (renderPath csS, cS) := by
            rw [hpS]
            exact make_path_to_parent_render _ _ (compOk_last hokS)
          have hpt : make_path_to_parent t = (renderPath csT, cT) := by
            rw [hpT]
            exact make_path_to_parent_render _ _ (compOk_last hokT)
          have hrpS : renderPath csS =
              renderPath (commonStem (csS ++ [cS]) (csT ++ [cT]) ++ Ys) := by
            rw [hYs]
          have hdropS : (renderPath csS).drop
              ((renderPath (commonStem (csS ++ [cS]) (csT ++ [cT]))).length - 1)
              = renderPath Ys := by
            conv_lhs => rw [hrpS]
            exact drop_renderPath _ _
          rcases get_node_spec_root st WRITER
              (commonStem (csS ++ [cS]) (csT ++ [cT])) hwf hallStem with
            ⟨hdn0, hget0⟩ | ⟨lca, ids0, hd0, hne0, hget0, hdesc0⟩
          · right
            unfold tree_move
            rw [if_neg (not_not_intro hv), if_neg hrs, if_neg hrt, if_neg hanc]
            simp only [hlca]
            simp only [hget0]
          · rw [lockFin_WRITER] at hget0 hdesc0
            have hwf1 : WFs (writer_lock (bumpRefs st ids0) lca) :=
              shapeEq_wfs (shapeEq_wlock_bumps st ids0 lca) hwf
            unfold tree_move
            rw [if_neg (not_not_intro hv), if_neg hrs, if_neg hrt, if_neg hanc]
            simp only [hlca, hps, hpt]
            simp only [hget0]
            by_cases hppeq : renderPath csS = renderPath csT
            · -- same parent path: the LCA is the common parent
              rw [if_neg (not_not_intro hppeq)]
              have hcseq : csS = csT :=
                renderPath_inj (compOk_init hokS) (compOk_init hokT) hppeq
              have hstne : s ≠ t := fun he => hanc (he ▸ is_ancestor_self s)
              have hcc : cS ≠ cT := by
                intro he
                apply hstne
                rw [hpS, hpT, hcseq, he]
              have hstemEq : commonStem (csS ++ [cS]) (csT ++ [cT]) = csT := by
                rw [← hcseq]
                exact commonStem_of_ne_last csS cS cT hcc
              have hdropS2 : (renderPath csS).drop
                  ((renderPath (commonStem (csS ++ [cS]) (csT ++ [cT]))).length
                    - 1) = renderPath ([] : List Path) := by
                have h0 := drop_renderPath csS []
                rw [List.append_nil] at h0
                rw [hstemEq, ← hcseq]
                exact h0
              simp only [hdropS2]
              have hsec : get_node (writer_lock (bumpRefs st ids0) lca) lca
                  (renderPath ([] : List Path)) true WRITER
                  = (some lca, writer_lock (bumpRefs st ids0) lca) := by
                rw [get_node_true_def]
                exact get_node_go_root _ _ _ _ _ _
              simp only [hsec]
              cases hmg1 : hmap_get
                  (childrenOf (writer_lock (bumpRefs st ids0) lca) lca) cS with
              | none =>
                right
                simp only [hmg1]
                exact move_cleanup1_self st lca ids0 hdesc0
              | some sd =>
                simp only [hmg1]
                cases hmg2 : hmap_get
                    (childrenOf (writer_lock (bumpRefs st ids0) lca) lca) cT with
                | none =>
                  left
                  simp only [hmg2]
                | some x =>
                  right
                  simp only [hmg2]
                  rw [if_neg hstne, if_neg hanc]
                  exact move_cleanup1_self st lca ids0 hdesc0
            · -- distinct parent paths
              rw [if_pos hppeq]
              simp only [hdropS]
              rcases get_node_spec_locked (writer_lock (bumpRefs st ids0) lca)
                  lca ids0.reverse Ys WRITER hwf1 hdesc0 hallYs with
                ⟨hdsn, hgets⟩ | ⟨sp, ids1, hds, hdesc1, hcase1⟩
              · right
                simp only [hgets]
                rw [wunlock_decRefs_layer]
              · obtain ⟨ST2, hgets, hs⟩ :
                    ∃ ST2v, get_node (writer_lock (bumpRefs st ids0) lca) lca
                        (renderPath Ys) true WRITER = (some sp, ST2v) ∧
                      ((sp = lca ∧ ST2v = writer_lock (bumpRefs st ids0) lca ∧
                          ids1 = []) ∨
                       (ST2v = writer_lock
                          (bumpRefs (writer_lock (bumpRefs st ids0) lca) ids1)
                          sp ∧
                        Desc ST2v sp (ids1.reverse ++ ids0.reverse) ∧
                        ids1 ≠ [])) := by
                  rcases hcase1 with ⟨hY0, hid0, hdcur, heq⟩ | ⟨hY0, hid0, heq⟩
                  · exact ⟨_, by rw [hdcur]; exact heq,
                      Or.inl ⟨hdcur, rfl, hid0⟩⟩
                  · rw [lockFin_WRITER] at heq
                    rw [heq] at hdesc1
                    exact ⟨_, heq, Or.inr ⟨rfl, hdesc1, hid0⟩⟩
                simp only [hgets]
                have hse12 : ShapeEq (writer_lock (bumpRefs st ids0) lca) ST2 := by
                  rcases hs with ⟨_, h2, _⟩ | ⟨h2, _, _⟩
                  · rw [h2]
                    exact shapeEq_refl _
                  · rw [h2]
                    exact shapeEq_wlock_bumps _ ids1 sp
                have hwf2 : WFs ST2 := shapeEq_wfs hse12 hwf1
                have hdesc0b : Desc ST2 lca ids0.reverse :=
                  desc_shapeEq hse12 hdesc0
                by_cases htdeg : commonStem (csS ++ [cS]) (csT ++ [cT])
                    = csT ++ [cT]
                · -- the target is an ancestor of the source: the
                  -- t-subpath index runs past the parent path
                  have hlenT : (renderPath csT).length ≤
                      (renderPath (commonStem (csS ++ [cS]) (csT ++ [cT]))).length
                        - 1 := by
                    rw [htdeg, renderPath_concat_length]
                    omega
                  have hdropT : (renderPath csT).drop
                      ((renderPath (commonStem (csS ++ [cS])
                        (csT ++ [cT]))).length - 1) = [] :=
                    List.drop_eq_nil_of_le hlenT
                  simp only [hdropT]
                  have hgett : get_node ST2 lca [] true WRITER
                      = (some lca, ST2) := get_node_nil_locked ST2 lca WRITER
                  simp only [hgett]
                  cases hmg1 : hmap_get (childrenOf ST2 sp) cS with
                  | none =>
                    right
                    simp only [hmg1]
                    exact move_cleanup2_restores st _ ST2 ST2 lca sp lca
                      ids0 ids1 [] rfl hdesc0 hs (Or.inl ⟨rfl, rfl, rfl⟩)
                  | some sd =>
                    simp only [hmg1]
                    cases hmg2 : hmap_get (childrenOf ST2 lca) cT with
                    | none =>
                      left
                      simp only [hmg2]
                    | some x =>
                      right
                      simp only [hmg2]
                      rw [if_neg hanc]
                      exact move_cleanup2_restores st _ ST2 ST2 lca sp lca
                        ids0 ids1 [] rfl hdesc0 hs (Or.inl ⟨rfl, rfl, rfl⟩)
                · -- the target parent lies on or below the LCA
                  have hstemTlt : (commonStem (csS ++ [cS])
                      (csT ++ [cT])).length < (csT ++ [cT]).length := by
                    rcases lt_or_ge (commonStem (csS ++ [cS])
                        (csT ++ [cT])).length (csT ++ [cT]).length with h | h
                    · exact h
                    · exact absurd (prefix_eq_of_length_ge hstemT h) htdeg
                  have hcsTpre : commonStem (csS ++ [cS]) (csT ++ [cT])
                      <+: csT := by
                    have h2 := prefix_dropLast_of_proper hstemT hstemTlt
                    rw [List.dropLast_concat] at h2
                    exact h2
                  obtain ⟨Yt, hYt⟩ := hcsTpre
                  have hallYt : ∀ c ∈ Yt, c.all notSep = true := by
                    intro c hc
                    apply hallT c
                    apply List.mem_append_left
                    rw [← hYt]
                    exact List.mem_append_right _ hc
                  have hrpT : renderPath csT =
                      renderPath (commonStem (csS ++ [cS]) (csT ++ [cT])
                        ++ Yt) := by
                    rw [hYt]
                  have hdropT : (renderPath csT).drop
                      ((renderPath (commonStem (csS ++ [cS])
                        (csT ++ [cT]))).length - 1) = renderPath Yt := by
                    conv_lhs => rw [hrpT]
                    exact drop_renderPath _ _
                  simp only [hdropT]
                  rcases get_node_spec_locked ST2 lca ids0.reverse Yt WRITER
                      hwf2 hdesc0b hallYt with
                    ⟨hdtn, hgett⟩ | ⟨tp, ids2, hdt, hdesc2, hcase2⟩
                  · right
                    simp only [hgett]
                    exact move_tfail_restores st _ ST2 lca sp ids0 ids1
                      rfl hdesc0 hs
                  · obtain ⟨ST3, hgett, ht⟩ :
                        ∃ ST3v, get_node ST2 lca (renderPath Yt) true WRITER
                            = (some tp, ST3v) ∧
                          ((tp = lca ∧ ST3v = ST2 ∧ ids2 = []) ∨
                           (ST3v = writer_lock (bumpRefs ST2 ids2) tp ∧
                            Desc ST3v tp (ids2.reverse ++ ids0.reverse) ∧
                            ids2 ≠ [])) := by
                      rcases hcase2 with ⟨hY0, hid0, hdcur, heq⟩ | ⟨hY0, hid0, heq⟩
                      · exact ⟨_, by rw [hdcur]; exact heq,
                          Or.inl ⟨hdcur, rfl, hid0⟩⟩
                      · rw [lockFin_WRITER] at heq
                        rw [heq] at hdesc2
                        exact ⟨_, heq, Or.inr ⟨rfl, hdesc2, hid0⟩⟩
                    simp only [hgett]
                    cases hmg1 : hmap_get (childrenOf ST3 sp) cS with
                    | none =>
                      right
                      simp only [hmg1]
                      exact move_cleanup2_restores st _ ST2 ST3 lca sp tp
                        ids0 ids1 ids2 rfl hdesc0 hs ht
                    | some sd =>
                      simp only [hmg1]
                      cases hmg2 : hmap_get (childrenOf ST3 tp) cT with
                      | none =>
                        left
                        simp only [hmg2]
                      | some x =>
                        right
                        simp only [hmg2]
                        rw [if_neg hanc]
                        exact move_cleanup2_restores st _ ST2 ST3 lca sp tp
                          ids0 ids1 ids2 rfl hdesc0 hs ht
  · right
    unfold tree_move
    rw [if_pos hv]

/-- **C4.** Whenever one of the four operations returns a domain error
(`NULL` for `list`; any nonzero code for `create`, `remove`, `move`),
the tree is exactly as it was before the call: every node's children
map, parent pointer and synchronisation counters are restored, so all
locks taken during the call have been released and all `subtree_refs`
(`refcount`) increments have been decremented back.  For `list`,
`remove` and `move` the entire state is restored; for `create` the
heap contents and root are restored (the `EEXIST` path first allocates
a fresh node and frees it again, so only the model's allocator counter
has advanced).  The `remove` conjunct assumes a syntactically valid
path: `tree_remove` skips validation (claim C3), and on invalid paths
its C prefix-scan is undefined behaviour.  The `move` conjunct assumes
the target is not an ancestor of the source: on target-ancestor inputs
the C descent reads uninitialized stack memory (`Tree.c:371`, see the
divergence note at `tree_move`), so the program has no determinate
execution to restore; the remaining ancestor-related inputs (`s` a
prefix of `t`) are handled before that read by the guard prefix and
covered by claims C1 and C2. -/
theorem c4_error_restores (st : TreeState) (p s t : Path) (hwf : WFs st) :
    ((tree_list st p).1 = none → (tree_list st p).2 = st) ∧
    ((tree_create st p).1 ≠ SUCCESS →
      (tree_create st p).2.nodes = st.nodes ∧
      (tree_create st p).2.root = st.root) ∧
    (is_valid_path p = true → (tree_remove st p).1 ≠ SUCCESS →
      (tree_remove st p).2 = st) ∧
    (is_ancestor t s = false → (tree_move st s t).1 ≠ SUCCESS →
      (tree_move st s t).2 = st) := by
  refine ⟨?_, ?_, ?_, ?_⟩
  · intro herr
    rcases tree_list_restores st p hwf with ⟨r, st2, heq⟩ | heq
    · rw [heq] at herr
      simp at herr
    · rw [heq]
  · intro herr
    rcases tree_create_restores st p hwf with hsucc | hrest
    · exact absurd hsucc herr
    · exact hrest
  · intro hvp herr
    rcases tree_remove_restores st p hwf hvp with hsucc | heq
    · exact absurd hsucc herr
    · exact heq
  · intro _ herr
    rcases tree_move_restores st s t hwf with hsucc | heq
    · exact absurd hsucc herr
    · exact heq

/-- Witness for C4 at the fresh tree. -/
theorem c4_error_restores_witness :
    ((tree_list tree_new ['/', 'a', '/']).1 = none →
      (tree_list tree_new ['/', 'a', '/']).2 = tree_new) ∧
    ((tree_create tree_new ['/', 'a', '/']).1 ≠ SUCCESS →
      (tree_create tree_new ['/', 'a', '/']).2.nodes = tree_new.nodes ∧
      (tree_create tree_new ['/', 'a', '/']).2.root = tree_new.root) ∧
    (is_valid_path ['/', 'a', '/'] = true →
      (tree_remove tree_new ['/', 'a', '/']).1 ≠ SUCCESS →
      (tree_remove tree_new ['/', 'a', '/']).2 = tree_new) ∧
    (is_ancestor ['/', 'b', '/'] ['/', 'a', '/'] = false →
      (tree_move tree_new ['/', 'a', '/'] ['/', 'b', '/']).1 ≠ SUCCESS →
      (tree_move tree_new ['/', 'a', '/'] ['/', 'b', '/']).2 = tree_new) :=
  c4_error_restores tree_new ['/', 'a', '/'] ['/', 'a', '/'] ['/', 'b', '/']
    wfs_tree_new

/-! ### Preservation of well-formedness (claim C5) -/

theorem lookupN_append_ne (l : List (Nat × Node)) (k : Nat) (n : Node)
    (i : Nat) (h : i ≠ k) : lookupN (l ++ [(k, n)]) i = lookupN l i := by
  induction l with
  | nil =>
    show lookupN [(k, n)] i = lookupN [] i
    unfold lookupN
    rw [if_neg (fun he => h he.symm)]
    rfl
  | cons e l2 ih =>
    rw [List.cons_append]
    unfold lookupN
    by_cases he : e.1 = i
    · rw [if_pos he, if_pos he]
    · rw [if_neg he, if_neg he]
      exact ih

theorem heapKeys_adjustN (l : List (Nat × Node)) (j : Nat) (f : Node → Node) :
    (adjustN l j f).map Prod.fst = l.map Prod.fst := by
  unfold adjustN
  rw [List.map_map]
  apply List.map_congr_left
  intro e _
  by_cases he : e.1 = j <;> simp [he]

theorem lookupN_filter_ne (l : List (Nat × Node)) (k i : Nat) (h : i ≠ k) :
    lookupN (l.filter (fun e => !(e.1 == k))) i = lookupN l i := by
  induction l with
  | nil => rfl
  | cons e l2 ih =>
    rw [List.filter_cons]
    by_cases hek : e.1 = k
    · simp only [hek, beq_self_eq_true, Bool.not_true, Bool.false_eq_true,
        if_false]
      rw [ih]
      conv_rhs => unfold lookupN
      rw [if_neg (by rw [hek]; exact fun he => h he.symm)]
    · simp only [beq_eq_false_iff_ne.mpr hek, Bool.not_false, if_true]
      unfold lookupN
      by_cases hei : e.1 = i
      · rw [if_pos hei, if_pos hei]
      · rw [if_neg hei, if_neg hei]
        exact ih

theorem lookupN_filter_self (l : List (Nat × Node)) (k : Nat) :
    lookupN (l.filter (fun e => !(e.1 == k))) k = none := by
  induction l with
  | nil => rfl
  | cons e l2 ih =>
    rw [List.filter_cons]
    by_cases hek : e.1 = k
    · simp only [hek, beq_self_eq_true, Bool.not_true, Bool.false_eq_true,
        if_false]
      exact ih
    · simp only [beq_eq_false_iff_ne.mpr hek, Bool.not_false, if_true]
      unfold lookupN
      rw [if_neg hek]
      exact ih

/-- Transports a parent chain to any state whose parent resolution
agrees on the chain's members. -/
theorem upChain_parent_preserved {st st2 : TreeState} {i : Nat}
    {e : Option Nat} {L : List Nat}
    (hpp : ∀ j n, j ∈ L → lookupN st.nodes j = some n →
      ∃ n2, lookupN st2.nodes j = some n2 ∧ n2.parent = n.parent)
    (h : UpChain st i e L) : UpChain st2 i e L := by
  induction h with
  | single i2 n e2 h1 h2 =>
    rcases hpp i2 n (List.mem_singleton_self i2) h1 with ⟨n2, hl2, hp2⟩
    exact UpChain.single i2 n2 e2 hl2 (by rw [hp2, h2])
  | step i2 n p e2 L2 h1 h2 h3 ih =>
    rcases hpp i2 n (List.mem_cons_self i2 L2) h1 with ⟨n2, hl2, hp2⟩
    refine UpChain.step i2 n2 p e2 L2 hl2 (by rw [hp2, h2]) ?_
    exact ih (fun j n hj hl => hpp j n (List.mem_cons_of_mem _ hj) hl)

theorem upChain_chainUp {st : TreeState} {i : Nat} {e : Option Nat}
    {L : List Nat} (h : UpChain st i e L) (he : e = none) :
    chainUp st L.length i = some L := by
  induction h with
  | single i2 n e2 h1 h2 =>
    exact chainUp_top st 0 i2 n h1 (by rw [h2, he])
  | step i2 n p e2 L2 h1 h2 h3 ih =>
    rw [List.length_cons, chainUp_step st L2.length i2 p n h1 h2, ih he]
    rfl

theorem upChain_length_le {st : TreeState} {i : Nat} {L : List Nat}
    (h : UpChain st i none L) (hnd : L.Nodup) : L.length ≤ st.nodes.length :=
  desc_length_le ⟨h, hnd⟩

/-- `chainUp` succeeds at fuel `nodes.length` whenever a duplicate-free
chain exists. -/
theorem chainOk_of_upChain {st : TreeState} {i : Nat} {L : List Nat}
    (h : UpChain st i none L) (hnd : L.Nodup) :
    (chainUp st st.nodes.length i).isSome = true := by
  rw [chainUp_mono (upChain_chainUp h rfl) (upChain_length_le h hnd)]
  rfl

theorem upChain_concat {st : TreeState} {i j : Nat} {e1 : Option Nat}
    {L1 L2 : List Nat} (h1 : UpChain st i e1 L1) (he : e1 = some j)
    (h2 : UpChain st j none L2) : UpChain st i none (L1 ++ L2) := by
  induction h1 with
  | single i2 n e2 hl hp =>
    rw [List.singleton_append]
    exact UpChain.step i2 n j none L2 hl (by rw [hp, he]) h2
  | step i2 n p e2 L hl hp hc ih =>
    rw [List.cons_append]
    exact UpChain.step i2 n p none (L ++ L2) hl hp (ih he)

theorem upChain_mem_suffix {st : TreeState} {i : Nat} {e : Option Nat}
    {L : List Nat} (h : UpChain st i e L) :
    ∀ u ∈ L, ∃ S, UpChain st u e S ∧ S.IsSuffix L := by
  induction h with
  | single i2 n e2 h1 h2 =>
    intro u hu
    rw [List.mem_singleton] at hu
    subst hu
    exact ⟨[u], UpChain.single u n e2 h1 h2, List.suffix_refl _⟩
  | step i2 n p e2 L2 h1 h2 h3 ih =>
    intro u hu
    rcases List.mem_cons.mp hu with hu | hu
    · subst hu
      exact ⟨u :: L2, UpChain.step u n p e2 L2 h1 h2 h3, List.suffix_refl _⟩
    · rcases ih u hu with ⟨S, hS, hsuf⟩
      exact ⟨S, hS, hsuf.trans (List.suffix_cons i2 L2)⟩

theorem upChain_mem_pred {st : TreeState} {i : Nat} {e : Option Nat}
    {L : List Nat} (h : UpChain st i e L) :
    ∀ u ∈ L, u = i ∨ ∃ w nw, lookupN st.nodes w = some nw ∧
      nw.parent = some u := by
  induction h with
  | single i2 n e2 h1 h2 =>
    intro u hu
    rw [List.mem_singleton] at hu
    exact Or.inl hu
  | step i2 n p e2 L2 h1 h2 h3 ih =>
    intro u hu
    rcases List.mem_cons.mp hu with hu | hu
    · exact Or.inl hu
    · rcases ih u hu with hu2 | hu2
      · exact Or.inr ⟨i2, n, h1, by rw [h2, hu2]⟩
      · exact Or.inr hu2

theorem decRefs_nextId (st : TreeState) (L : List Nat) :
    (decRefs st L).nextId = st.nextId := by
  induction L generalizing st with
  | nil => rfl
  | cons a L2 ih =>
    rw [decRefs_cons, ih]
    unfold decRef
    rw [nextId_adjust]

theorem bumpRefs_nextId (st : TreeState) (L : List Nat) :
    (bumpRefs st L).nextId = st.nextId := by
  induction L generalizing st with
  | nil => rfl
  | cons a L2 ih =>
    rw [bumpRefs_cons, ih]
    unfold bumpRef
    rw [nextId_adjust]

theorem unwind_path_nextId (fuel : Nat) :
    ∀ (st : TreeState) (s e : Option Nat),
      (unwind_path st s e fuel).nextId = st.nextId := by
  induction fuel with
  | zero => intro st s e; rfl
  | succ k ih =>
    intro st s e
    unfold unwind_path
    by_cases hse : s = e
    · rw [if_pos hse]
    · rw [if_neg hse]
      cases s with
      | none => rfl
      | some i =>
        show (match lookupN st.nodes i with
              | none => st
              | some n => unwind_path (decRef st i) n.parent e k).nextId
          = st.nextId
        cases hl : lookupN st.nodes i with
        | none => rfl
        | some n =>
          show (unwind_path (decRef st i) n.parent e k).nextId = st.nextId
          rw [ih]
          unfold decRef
          rw [nextId_adjust]

theorem removeN_nextId (st : TreeState) (i : Nat) :
    (removeN st i).nextId = st.nextId := rfl

theorem tree_free_go_foldl_nextId (k : Nat)
    (ih : ∀ (st : TreeState) (i : Nat),
      (tree_free_go k st i).nextId = st.nextId) :
    ∀ (cl : List (Path × Nat)) (st : TreeState),
      (cl.foldl (fun s e => tree_free_go k s e.2) st).nextId = st.nextId := by
  intro cl
  induction cl with
  | nil =>
    intro st
    rfl
  | cons e cl2 ih2 =>
    intro st
    rw [List.foldl_cons, ih2, ih]

theorem tree_free_go_nextId : ∀ (fuel : Nat) (st : TreeState) (i : Nat),
    (tree_free_go fuel st i).nextId = st.nextId := by
  intro fuel
  induction fuel with
  | zero => intro st i; rfl
  | succ k ih =>
    intro st i
    rw [tree_free_go_succ]
    cases hl : lookupN st.nodes i with
    | none => rfl
    | some n =>
      show (removeN (n.children.foldl
        (fun s e => tree_free_go k s e.2) st) i).nextId = st.nextId
      rw [removeN_nextId]
      exact tree_free_go_foldl_nextId k ih n.children st

/-- Well-formedness only constrains the heap, the root, and an upper
bound on the allocated keys, so it transfers to any state with the same
heap and root and a nextId at least as large. -/
theorem wfs_of_eq_mono (st st2 : TreeState) (hn : st2.nodes = st.nodes)
    (hr : st2.root = st.root) (hid : st.nextId ≤ st2.nextId)
    (hwf : WFs st) : WFs st2 := by
  obtain ⟨w1, w2, w3, w4, w5, w6, w7, w8, w9, w10⟩ := hwf
  have hck : ∀ fuel i, chainUp st2 fuel i = chainUp st fuel i := by
    intro fuel
    induction fuel with
    | zero => intro i; rfl
    | succ k ih =>
      intro i
      unfold chainUp
      rw [hn]
      cases lookupN st.nodes i with
      | none => rfl
      | some n =>
        show (match n.parent with
              | none => some [i]
              | some p => Option.map (fun L => i :: L) (chainUp st2 k p)) =
          (match n.parent with
              | none => some [i]
              | some p => Option.map (fun L => i :: L) (chainUp st k p))
        cases n.parent with
        | none => rfl
        | some p =>
          show Option.map (fun L => i :: L) (chainUp st2 k p) =
            Option.map (fun L => i :: L) (chainUp st k p)
          rw [ih]
  refine ⟨?_, ?_, ?_, ?_, ?_, ?_, ?_, ?_, ?_, ?_⟩
  · unfold heapKeys
    rw [hn]
    exact w1
  · rw [hn, hr]
    exact w2
  · rw [hn, hr]
    exact w3
  · rw [hn]
    exact w4
  · intro e he p hp
    rw [hn] at he
    have := w5 e he p hp
    unfold childrenOf
    rw [hn]
    exact this
  · intro e he
    rw [hn] at he
    rw [hck, hn]
    exact w6 e he
  · rw [hn]
    exact w7
  · rw [hn, hr]
    exact w8
  · rw [hn]
    exact w9
  · intro e he
    rw [hn] at he
    have := w10 e he
    omega

/-- Inserting a fresh leaf `k` under `parent` with a previously absent
name `c` preserves every well-formedness invariant. -/
theorem wfs_insert_node (st : TreeState) (parent k : Nat) (c : Path)
    (hwf : WFs st)
    (hpmem : (lookupN st.nodes parent).isSome = true)
    (hknotin : k ∉ heapKeys st)
    (hcnone : hmap_get (childrenOf st parent) c = none) :
    WFs { nodes := adjustN st.nodes parent
            (fun n => { n with children := n.children ++ [(c, k)] })
          ++ [(k, (⟨some parent, [], 0, 0, 0, 0, 0⟩ : Node))],
          root := st.root, nextId := max st.nextId (k + 1) } := by
  obtain ⟨w1, w2, w3, w4, w5, w6, w7, w8, w9, w10⟩ := hwf
  have hwf' : WFs st := ⟨w1, w2, w3, w4, w5, w6, w7, w8, w9, w10⟩
  set f : Node → Node :=
    fun n => { n with children := n.children ++ [(c, k)] } with hf
  set nk : Node := ⟨some parent, [], 0, 0, 0, 0, 0⟩ with hnk
  set L2 : List (Nat × Node) := adjustN st.nodes parent f ++ [(k, nk)] with hL2
  have hknotin' : ∀ i, (lookupN st.nodes i).isSome = true → i ≠ k :=
    fun i hi he => hknotin (he ▸ mem_heapKeys_of_isSome hi)
  have hpk : parent ≠ k := hknotin' parent hpmem
  have hmaster : ∀ i, lookupN L2 i =
      if i = k then some nk
      else if i = parent then (lookupN st.nodes i).map f
      else lookupN st.nodes i := by
    intro i
    by_cases hik : i = k
    · rw [if_pos hik, hik, hL2]
      apply lookupN_append_fresh
      apply lookupN_eq_none_of_notMem
      rw [heapKeys_adjustN]
      exact hknotin
    · rw [if_neg hik, hL2, lookupN_append_ne _ _ _ _ hik]
      by_cases hip : i = parent
      · rw [if_pos hip, hip]
        exact lookupN_adjustN_self _ _ _
      · rw [if_neg hip]
        exact lookupN_adjustN_other _ _ hip
  have hparmap : ∀ i, i ≠ k →
      (lookupN L2 i).map Node.parent = (lookupN st.nodes i).map Node.parent := by
    intro i hik
    rw [hmaster, if_neg hik]
    by_cases hip : i = parent
    · rw [if_pos hip]
      cases lookupN st.nodes i <;> rfl
    · rw [if_neg hip]
  have hmemL : ∀ e ∈ L2,
      (∃ e0, e0 ∈ st.nodes ∧ e.1 = e0.1 ∧
        e.2 = (if e0.1 = parent then f e0.2 else e0.2)) ∨ e = (k, nk) := by
    intro e he
    rw [hL2, List.mem_append] at he
    rcases he with he | he
    · left
      unfold adjustN at he
      rcases List.mem_map.mp he with ⟨e0, he0, hee⟩
      refine ⟨e0, he0, ?_, ?_⟩
      · rw [← hee]
        by_cases h0 : e0.1 = parent <;> simp [h0]
      · rw [← hee]
        by_cases h0 : e0.1 = parent <;> simp [h0]
    · right
      simpa using he
  have hchild : ∀ i, childrenOf { nodes := L2, root := st.root,
                                   nextId := max st.nextId (k + 1) } i =
      if i = k then [] else if i = parent then childrenOf st i ++ [(c, k)]
      else childrenOf st i := by
    intro i
    unfold childrenOf
    show (match lookupN L2 i with
          | none => []
          | some n => n.children) = _
    rw [hmaster]
    by_cases hik : i = k
    · rw [if_pos hik, if_pos hik]
    · rw [if_neg hik, if_neg hik]
      by_cases hip : i = parent
      · rw [if_pos hip, if_pos hip, hip]
        cases hlp : lookupN st.nodes parent with
        | none =>
          rw [hlp] at hpmem
          simp at hpmem
        | some n => rfl
      · rw [if_neg hip, if_neg hip]
  have hrootk : st.root ≠ k := by
    apply hknotin'
    cases hlr : lookupN st.nodes st.root with
    | none =>
      rw [hlr] at w2
      cases w2
    | some rn => rfl
  have htransport : ∀ {i : Nat} {C : List Nat}, UpChain st i none C →
      UpChain { nodes := L2, root := st.root,
                nextId := max st.nextId (k + 1) } i none C := by
    intro i C hch
    refine upChain_parent_preserved ?_ hch
    intro j n _ hln
    have hjk : j ≠ k := hknotin' j (by rw [hln]; rfl)
    refine ⟨if j = parent then f n else n, ?_, ?_⟩
    · show lookupN L2 j = _
      rw [hmaster, if_neg hjk]
      by_cases hjp : j = parent
      · rw [if_pos hjp, if_pos hjp, hln]
        rfl
      · rw [if_neg hjp, if_neg hjp, hln]
    · by_cases hjp : j = parent <;> simp [hjp, hf]
  refine ⟨?_, ?_, ?_, ?_, ?_, ?_, ?_, ?_, ?_, ?_⟩
  · -- keys are duplicate-free
    show ((adjustN st.nodes parent f ++ [(k, nk)]).map Prod.fst).Nodup
    rw [List.map_append, heapKeys_adjustN]
    rw [List.nodup_append]
    refine ⟨w1, List.nodup_singleton k, ?_⟩
    intro a ha hb
    rw [List.map_singleton, List.mem_singleton] at hb
    cases hb
    exact hknotin ha
  · -- root has no parent
    show (lookupN L2 st.root).map Node.parent = some none
    rw [hparmap st.root hrootk]
    exact w2
  · -- only the root has no parent
    intro e he hp
    rcases hmemL e he with ⟨e0, he0, h1, h2⟩ | he2
    · rw [h1]
      apply w3 e0 he0
      rw [h2] at hp
      by_cases h0 : e0.1 = parent
      · rw [if_pos h0] at hp
        exact hp
      · rw [if_neg h0] at hp
        exact hp
    · exfalso
      rw [he2] at hp
      cases hp
  · -- children point back
    intro e he ch hch
    rcases hmemL e he with ⟨e0, he0, h1, h2⟩ | he2
    · rw [h2] at hch
      by_cases h0 : e0.1 = parent
      · rw [if_pos h0] at hch
        show (lookupN L2 ch.2).map Node.parent = some (some e.1)
        rcases List.mem_append.mp hch with hch | hch
        · have hold := w4 e0 he0 ch hch
          have hchk : ch.2 ≠ k := by
            apply hknotin'
            cases hlc : lookupN st.nodes ch.2 with
            | none =>
              rw [hlc] at hold
              cases hold
            | some cn => rfl
          rw [hparmap ch.2 hchk, h1]
          exact hold
        · rw [List.mem_singleton] at hch
          rw [hch]
          show (lookupN L2 k).map Node.parent = some (some e.1)
          rw [hmaster, if_pos rfl, h1, h0]
          rfl
      · rw [if_neg h0] at hch
        have hold := w4 e0 he0 ch hch
        have hchk : ch.2 ≠ k := by
          apply hknotin'
          cases hlc : lookupN st.nodes ch.2 with
          | none =>
            rw [hlc] at hold
            cases hold
          | some cn => rfl
        show (lookupN L2 ch.2).map Node.parent = some (some e.1)
        rw [hparmap ch.2 hchk, h1]
        exact hold
    · rw [he2] at hch
      simp [hnk] at hch
  · -- every non-root is registered in its parent's map
    intro e he p hp
    rcases hmemL e he with ⟨e0, he0, h1, h2⟩ | he2
    · have hpar : e.2.parent = e0.2.parent := by
        rw [h2]
        by_cases h0 : e0.1 = parent <;> simp [h0, hf]
      rw [hpar] at hp
      have hold := w5 e0 he0 p hp
      rw [hchild, h1]
      have hpk2 : p ≠ k := by
        intro hpk3
        rw [hpk3] at hold
        have : childrenOf st k = [] := by
          unfold childrenOf
          rw [lookupN_eq_none_of_notMem hknotin]
        rw [this] at hold
        simp at hold
      rw [if_neg hpk2]
      by_cases hpp : p = parent
      · rw [if_pos hpp, List.map_append]
        exact List.mem_append_left _ (hpp ▸ hold)
      · rw [if_neg hpp]
        exact hold
    · rw [he2] at hp ⊢
      simp only [hnk, Option.toList_some, List.mem_singleton] at hp
      rw [hchild]
      rw [hp, if_neg hpk, if_pos rfl]
      rw [List.map_append]
      apply List.mem_append_right
      simp
  · -- every node's parent chain reaches the root
    intro e he
    rcases hmemL e he with ⟨e0, he0, h1, h2⟩ | he2
    · have hold := w6 e0 he0
      rw [Option.isSome_iff_exists] at hold
      rcases hold with ⟨C, hC⟩
      have hch := chainUp_upChain hC
      have hnd := chainUp_nodup hC
      rw [h1]
      exact chainOk_of_upChain (htransport hch) hnd
    · rw [he2]
      rw [Option.isSome_iff_exists] at hpmem
      rcases hpmem with ⟨np, hnp⟩
      have hmemp : (parent, np) ∈ st.nodes := mem_of_lookupN hnp
      have hold := w6 (parent, np) hmemp
      rw [Option.isSome_iff_exists] at hold
      rcases hold with ⟨C, hC⟩
      have hchOld := chainUp_upChain hC
      have hch := htransport hchOld
      have hnd := chainUp_nodup hC
      have hlkk : lookupN L2 k = some nk := by
        rw [hmaster, if_pos rfl]
      have hchain : UpChain { nodes := L2, root := st.root,
                              nextId := max st.nextId (k + 1) } k none
          (k :: C) :=
        UpChain.step k nk parent none C hlkk rfl hch
      have hndk : (k :: C).Nodup := by
        rw [List.nodup_cons]
        refine ⟨?_, hnd⟩
        intro hmem
        exact hknotin
          (mem_heapKeys_of_isSome (upChain_inHeap hchOld k hmem))
      exact chainOk_of_upChain hchain hndk
  · -- children keys are duplicate-free
    have hcnotin : c ∉ (childrenOf st parent).map Prod.fst := by
      intro hmem
      rcases List.mem_map.mp hmem with ⟨ee, hee, heqc⟩
      apply hmap_get_none hcnone ee.2
      rw [← heqc]
      exact hee
    intro e he
    rcases hmemL e he with ⟨e0, he0, h1, h2⟩ | he2
    · rw [h2]
      by_cases h0 : e0.1 = parent
      · rw [if_pos h0]
        show ((e0.2.children ++ [(c, k)]).map Prod.fst).Nodup
        rw [List.map_append, List.nodup_append]
        refine ⟨w7 e0 he0, by simp, ?_⟩
        intro a ha hb
        simp only [List.map_cons, List.map_nil, List.mem_singleton] at hb
        subst hb
        apply hcnotin
        have hlp : lookupN st.nodes parent = some e0.2 :=
          lookupN_of_mem w1 (by rw [← h0]; exact he0)
        unfold childrenOf
        rw [hlp]
        exact ha
      · rw [if_neg h0]
        exact w7 e0 he0
    · rw [he2]
      simp [hnk]
  · -- the root is nobody's child
    intro e he ch hch
    rcases hmemL e he with ⟨e0, he0, h1, h2⟩ | he2
    · rw [h2] at hch
      by_cases h0 : e0.1 = parent
      · rw [if_pos h0] at hch
        rcases List.mem_append.mp hch with hch | hch
        · exact w8 e0 he0 ch hch
        · rw [List.mem_singleton] at hch
          rw [hch]
          exact fun he3 => hrootk he3.symm
      · rw [if_neg h0] at hch
        exact w8 e0 he0 ch hch
    · rw [he2] at hch
      simp [hnk] at hch
  · -- every child value has a unique position
    have holdtarget : ∀ e0 ∈ st.nodes, ∀ ch ∈ e0.2.children, ch.2 ≠ k := by
      intro e0 he0 ch hch
      have hold := w4 e0 he0 ch hch
      apply hknotin'
      cases hlc : lookupN st.nodes ch.2 with
      | none =>
        rw [hlc] at hold
        cases hold
      | some cn => rfl
    have hedge : ∀ e ∈ L2, ∀ ch ∈ e.2.children,
        (∃ e0, e0 ∈ st.nodes ∧ e.1 = e0.1 ∧ ch ∈ e0.2.children) ∨
        (e.1 = parent ∧ ch = (c, k)) := by
      intro e he ch hch
      rcases hmemL e he with ⟨e0, he0, h1, h2⟩ | he2
      · rw [h2] at hch
        by_cases h0 : e0.1 = parent
        · rw [if_pos h0] at hch
          rcases List.mem_append.mp hch with hch | hch
          · exact Or.inl ⟨e0, he0, h1, hch⟩
          · rw [List.mem_singleton] at hch
            exact Or.inr ⟨h1.trans h0, hch⟩
        · rw [if_neg h0] at hch
          exact Or.inl ⟨e0, he0, h1, hch⟩
      · rw [he2] at hch
        simp [hnk] at hch
    intro e he e2 he2 ch hch ch2 hch2 heq
    rcases hedge e he ch hch with ⟨e0, he0, h1, hc0⟩ | ⟨h1, hc0⟩ <;>
      rcases hedge e2 he2 ch2 hch2 with ⟨e02, he02, h12, hc02⟩ | ⟨h12, hc02⟩
    · have h9 := w9 e0 he0 e02 he02 ch hc0 ch2 hc02 heq
      exact ⟨h1.trans (h9.1.trans h12.symm), h9.2⟩
    · exfalso
      apply holdtarget e0 he0 ch hc0
      rw [heq, hc02]
    · exfalso
      apply holdtarget e02 he02 ch2 hc02
      rw [← heq, hc0]
    · refine ⟨h1.trans h12.symm, ?_⟩
      rw [hc0, hc02]
  · -- allocated keys stay below nextId
    intro e he
    show e.1 < max st.nextId (k + 1)
    rcases hmemL e he with ⟨e0, he0, h1, _⟩ | he2
    · rw [h1]
      have := w10 e0 he0
      omega
    · rw [he2]
      show k < max st.nextId (k + 1)
      omega

theorem shapeEq_tree_list (st : TreeState) (p : Path) :
    ShapeEq st (tree_list st p).2 := by
  unfold tree_list
  by_cases hv : ¬ is_valid_path p = true
  · rw [if_pos hv]
    exact shapeEq_refl st
  · rw [if_neg hv]
    have hse := shapeEq_get_node st st.root p false READER
    cases hgo : get_node st st.root p false READER with
    | mk o st1 =>
      rw [hgo] at hse
      cases o with
      | none =>
        simp only [hgo]
        exact hse
      | some dir =>
        simp only [hgo]
        exact shapeEq_trans hse (shapeEq_trans
          (shapeEq_unwind_path st1 _ _ _) (shapeEq_reader_unlock _ dir))

theorem wfs_tree_list (st : TreeState) (p : Path) (hwf : WFs st) :
    WFs (tree_list st p).2 :=
  shapeEq_wfs (shapeEq_tree_list st p) hwf

theorem create_exists_nextId (st : TreeState) (d : Nat) (ids : List Nat) :
    (tree_free
      (writer_unlock
        (unwind_path
          (setParent (alloc_node (writer_lock (bumpRefs st ids) d)).2
            (alloc_node (writer_lock (bumpRefs st ids) d)).1 (some d))
          (some d) none
          (setParent (alloc_node (writer_lock (bumpRefs st ids) d)).2
            (alloc_node (writer_lock (bumpRefs st ids) d)).1 (some d)).nodes.length)
        d)
      (alloc_node (writer_lock (bumpRefs st ids) d)).1).nextId
    = st.nextId + 1 := by
  unfold tree_free
  rw [tree_free_go_nextId]
  unfold writer_unlock
  rw [nextId_adjust, unwind_path_nextId]
  unfold setParent
  rw [nextId_adjust]
  show (writer_lock (bumpRefs st ids) d).nextId + 1 = st.nextId + 1
  unfold writer_lock
  rw [nextId_adjust, bumpRefs_nextId]

theorem childrenOf_setParent_alloc (X : TreeState) (d : Nat) (pr : Option Nat)
    (hd : d ≠ X.nextId) :
    childrenOf (setParent (alloc_node X).2 X.nextId pr) d = childrenOf X d := by
  unfold childrenOf
  have h1 : lookupN (setParent (alloc_node X).2 X.nextId pr).nodes d
      = lookupN X.nodes d := by
    rw [setParent_nodes, lookupN_adjustN_other _ _ hd, alloc_node_snd_nodes,
      lookupN_append_ne _ _ _ _ hd]
  rw [h1]

theorem setParent_alloc_nodes (X : TreeState) (d : Nat)
    (hfresh : ∀ e ∈ X.nodes, e.1 ≠ X.nextId) :
    (setParent (alloc_node X).2 X.nextId (some d)).nodes
      = X.nodes ++ [(X.nextId, (⟨some d, [], 0, 0, 0, 0, 0⟩ : Node))] := by
  rw [setParent_nodes, alloc_node_snd_nodes, adjustN_append,
    adjustN_notMem _ _ _ hfresh]
  congr 1
  simp [adjustN, emptyNode]

theorem wfs_tree_create (st : TreeState) (p : Path) (hwf : WFs st) :
    WFs (tree_create st p).2 := by
  by_cases hv : is_valid_path p = true
  · by_cases hroot : IS_ROOT p = true
    · unfold tree_create
      rw [if_neg (by simp [hv]), if_pos hroot]
      exact hwf
    · have hroot2 : IS_ROOT p = false := by
        simpa using hroot
      rcases valid_nonroot_concat hv hroot2 with ⟨cs, c, hcomps, hp, hok⟩
      have hpp : make_path_to_parent p = (renderPath cs, c) := by
        rw [hp]
        exact make_path_to_parent_render cs c (compOk_last hok)
      rcases get_node_spec_root st WRITER cs hwf (compOk_init hok) with
        ⟨hdn, hget⟩ | ⟨d, ids, hd, hne, hget, hdesc⟩
      · unfold tree_create
        rw [if_neg (by simp [hv]), if_neg hroot]
        simp only [hpp, hget]
        exact hwf
      · unfold tree_create
        rw [if_neg (by simp [hv]), if_neg hroot]
        rw [lockFin_WRITER] at hget hdesc
        simp only [hpp, hget]
        have hwf1 : WFs (writer_lock (bumpRefs st ids) d) :=
          shapeEq_wfs (shapeEq_wlock_bumps st ids d) hwf
        have hdmem : (lookupN (writer_lock (bumpRefs st ids) d).nodes d).isSome
            = true := by
          rcases upChain_head hdesc.chain with ⟨M, hM⟩
          apply upChain_inHeap hdesc.chain d
          rw [hM]
          exact List.mem_cons_self d M
        have hfresh' : ∀ e ∈ (writer_lock (bumpRefs st ids) d).nodes,
            e.1 ≠ (writer_lock (bumpRefs st ids) d).nextId := by
          intro e he heq
          exact fresh_notMem hwf1 (heq ▸ List.mem_map_of_mem Prod.fst he)
        have hdk : d ≠ (writer_lock (bumpRefs st ids) d).nextId := by
          intro heq
          exact fresh_notMem hwf1 (heq ▸ mem_heapKeys_of_isSome hdmem)
        cases hmg : hmap_get (childrenOf
            (setParent (alloc_node (writer_lock (bumpRefs st ids) d)).2
              (alloc_node (writer_lock (bumpRefs st ids) d)).1 (some d)) d) c with
        | some x =>
          simp only [hmg]
          obtain ⟨hnodes, hroot3⟩ := create_exists_cleanup st d ids hwf hdesc
          refine wfs_of_eq_mono st _ hnodes hroot3 ?_ hwf
          rw [create_exists_nextId]
          omega
        | none =>
          simp only [hmg]
          rw [alloc_node_fst] at hmg ⊢
          have hcnone : hmap_get (childrenOf (writer_lock (bumpRefs st ids) d)
              d) c = none := by
            rw [← childrenOf_setParent_alloc (writer_lock (bumpRefs st ids) d)
              d (some d) hdk]
            exact hmg
          have hwfI := wfs_insert_node (writer_lock (bumpRefs st ids) d) d
            (writer_lock (bumpRefs st ids) d).nextId c hwf1 hdmem
            (fresh_notMem hwf1) hcnone
          have hST3nodes : (insertChild
              (setParent (alloc_node (writer_lock (bumpRefs st ids) d)).2
                (writer_lock (bumpRefs st ids) d).nextId (some d)) d c
              (writer_lock (bumpRefs st ids) d).nextId).nodes
              = adjustN (writer_lock (bumpRefs st ids) d).nodes d
                  (fun n => { n with children := n.children ++
                    [(c, (writer_lock (bumpRefs st ids) d).nextId)] })
                ++ [((writer_lock (bumpRefs st ids) d).nextId,
                    (⟨some d, [], 0, 0, 0, 0, 0⟩ : Node))] := by
            rw [insertChild_nodes, setParent_alloc_nodes _ _ hfresh',
              adjustN_append]
            congr 1
            simp only [adjustN, List.map_cons, List.map_nil]
            rw [if_neg (fun heq => hdk heq.symm)]
          have hwfST3 : WFs (insertChild
              (setParent (alloc_node (writer_lock (bumpRefs st ids) d)).2
                (writer_lock (bumpRefs st ids) d).nextId (some d)) d c
              (writer_lock (bumpRefs st ids) d).nextId) := by
            refine wfs_of_eq_mono _ _ hST3nodes ?_ ?_ hwfI
            · unfold insertChild
              rw [root_adjust, setParent_root, alloc_node_snd_root]
            · show max (writer_lock (bumpRefs st ids) d).nextId
                  ((writer_lock (bumpRefs st ids) d).nextId + 1) ≤
                (insertChild (setParent
                  (alloc_node (writer_lock (bumpRefs st ids) d)).2
                  (writer_lock (bumpRefs st ids) d).nextId (some d)) d c
                  (writer_lock (bumpRefs st ids) d).nextId).nextId
              unfold insertChild
              rw [nextId_adjust]
              unfold setParent
              rw [nextId_adjust, alloc_node_snd_nextId]
              omega
          exact shapeEq_wfs (shapeEq_trans
            (shapeEq_unwind_path _ _ _ _) (shapeEq_writer_unlock _ d)) hwfST3
  · unfold tree_create
    rw [if_pos (by simp [hv])]
    exact hwf

theorem map_fst_filter_key {α : Type} {β : Type} [BEq α]
    (l : List (α × β)) (k : α) :
    (l.filter (fun e => !(e.1 == k))).map Prod.fst
      = (l.map Prod.fst).filter (fun i => !(i == k)) := by
  induction l with
  | nil => rfl
  | cons e l2 ih =>
    rw [List.map_cons, List.filter_cons, List.filter_cons]
    cases hek : e.1 == k
    · simp only [hek, Bool.not_false, if_true]
      rw [List.map_cons, ih]
    · simp only [hek, Bool.not_true, Bool.false_eq_true, if_false]
      exact ih

theorem hmap_get_of_mem {m : List (Path × Nat)} {k : Path} {v : Nat}
    (hnd : (m.map Prod.fst).Nodup) (h : (k, v) ∈ m) :
    hmap_get m k = some v := by
  induction m with
  | nil => simp at h
  | cons e m2 ih =>
    rw [List.map_cons, List.nodup_cons] at hnd
    rw [hmap_get]
    rcases List.mem_cons.mp h with h | h
    · subst h
      rw [if_pos rfl]
    · by_cases he : e.1 = k
      · exfalso
        apply hnd.1
        rw [he]
        exact List.mem_map_of_mem Prod.fst h
      · rw [if_neg he]
        exact ih hnd.2 h

/-- The node returned by a successful `get_node_go` descent is
allocated in the final state, for an arbitrary path (no validity
assumption); needed because `tree_remove` skips path validation. -/
theorem get_node_go_inHeap (fuel : Nat) : ∀ (st : TreeState) (cur : Nat)
    (path : Path) (sl r : Bool) (e : Option Nat) (d : Nat) (st' : TreeState),
    WFs st → (lookupN st.nodes cur).isSome = true →
    get_node_go st cur path sl r e fuel = (some d, st') →
    (lookupN st'.nodes d).isSome = true := by
  induction fuel with
  | zero =>
    intro st cur path sl r e d st' hwf hcur h
    rw [get_node_go_zero] at h
    injection h with h1 h2
    injection h1 with h1
    subst h1
    subst h2
    exact hcur
  | succ k ih =>
    intro st cur path sl r e d st' hwf hcur h
    cases hs : split_path path with
    | none =>
      rw [get_node_go_succ_done st cur path sl r e k hs] at h
      injection h with h1 h2
      injection h1 with h1
      subst h1
      subst h2
      exact hcur
    | some ns =>
      obtain ⟨name, sub⟩ := ns
      cases hg : hmap_get (childrenOf st cur) name with
      | none =>
        rw [get_node_go_succ_miss st cur path sl r e k name sub hs hg] at h
        injection h with h1 h2
        cases h1
      | some child =>
        rw [get_node_go_succ_hit st cur path sl r e k name sub child hs hg] at h
        have h1 := shapeEq_startLock st child (decide (sub = ['/']) && !r)
        have h2 := shapeEq_trans h1 (shapeEq_bumpRef _ child)
        have hse := shapeEq_trans h2 (shapeEq_optUnlock _ cur sl)
        rcases child_backptr hwf hg with ⟨cn, hlc, hcp⟩
        have hmemc : (lookupN st.nodes child).isSome = true := by
          rw [hlc]
          rfl
        refine ih _ child sub false r e d st' (shapeEq_wfs hse hwf) ?_ h
        rw [shapeEq_isSome hse]
        exact hmemc

/-- `get_node` version of the membership lemma. -/
theorem get_node_inHeap (st : TreeState) (start : Nat) (path : Path)
    (sl r : Bool) (d : Nat) (st' : TreeState) (hwf : WFs st)
    (hstart : (lookupN st.nodes start).isSome = true)
    (h : get_node st start path sl r = (some d, st')) :
    (lookupN st'.nodes d).isSome = true := by
  unfold get_node at h
  by_cases hsl : sl = true
  · rw [if_pos hsl] at h
    exact get_node_go_inHeap path.length st start path true r none d st'
      hwf hstart h
  · rw [if_neg hsl] at h
    have hse : ShapeEq st
        (bumpRef (if path = ['/'] && !r then writer_lock st start
                  else reader_lock st start) start) :=
      shapeEq_trans (shapeEq_startLock st start _) (shapeEq_bumpRef _ start)
    refine get_node_go_inHeap path.length _ start path false r _ d st'
      (shapeEq_wfs hse hwf) ?_ h
    rw [shapeEq_isSome hse]
    exact hstart

theorem shapeEq_removeN_congr {st st2 : TreeState} (h : ShapeEq st st2)
    (k : Nat) : ShapeEq (removeN st k) (removeN st2 k) := by
  obtain ⟨hr, hn, F, hF, hm⟩ := h
  refine ⟨hr, hn, F, hF, ?_⟩
  show st2.nodes.filter (fun e => !(e.1 == k))
      = (st.nodes.filter (fun e => !(e.1 == k))).map
          (fun e => (e.1, F e.1 e.2))
  rw [hm, List.filter_map]
  congr 1

/-- Removing an empty (leaf) directory `child`, registered under `name`
in `parent`'s children map, preserves well-formedness.  This is the
structural core of `tree_remove`'s SUCCESS path. -/
theorem wfs_remove_leaf (Y : TreeState) (parent : Nat) (name : Path)
    (child : Nat) (hwf : WFs Y)
    (hget : hmap_get (childrenOf Y parent) name = some child)
    (hleaf : childrenOf Y child = []) :
    WFs (removeN (popChild Y parent name) child) := by
  obtain ⟨w1, w2, w3, w4, w5, w6, w7, w8, w9, w10⟩ := hwf
  have hwf' : WFs Y := ⟨w1, w2, w3, w4, w5, w6, w7, w8, w9, w10⟩
  rcases childrenOf_lookup hget with ⟨np, hlp, hmemedge⟩
  rcases child_backptr hwf' hget with ⟨cn, hlc, hcp⟩
  have hrootc : child ≠ Y.root :=
    w8 (parent, np) (mem_of_lookupN hlp) (name, child) hmemedge
  have hcY : childrenOf Y parent = np.children := by
    unfold childrenOf
    rw [hlp]
  have hndp : (np.children.map Prod.fst).Nodup := w7 (parent, np) (mem_of_lookupN hlp)
  have noChildTarget : ∀ e0 ∈ Y.nodes, ∀ ch ∈ e0.2.children,
      ch.2 = child → e0.1 = parent ∧ ch.1 = name := by
    intro e0 he0 ch hch hv
    exact w9 e0 he0 (parent, np) (mem_of_lookupN hlp) ch hch (name, child)
      hmemedge hv
  have noParentChild : ∀ e0 ∈ Y.nodes, e0.2.parent ≠ some child := by
    intro e0 he0 hp
    have hmem : child ∈ e0.2.parent.toList := by
      rw [hp]
      simp
    have h5 := w5 e0 he0 child hmem
    rw [hleaf] at h5
    simp at h5
  show WFs { nodes := (adjustN Y.nodes parent
               (fun n => { n with
                           children := hmap_remove n.children name })).filter
               (fun e => !(e.1 == child)),
             root := Y.root, nextId := Y.nextId }
  set f : Node → Node :=
    fun n => { n with children := hmap_remove n.children name } with hf
  set L2 : List (Nat × Node) :=
    (adjustN Y.nodes parent f).filter (fun e => !(e.1 == child)) with hL2
  have hmaster : ∀ i, lookupN L2 i =
      if i = child then none
      else if i = parent then (lookupN Y.nodes i).map f
      else lookupN Y.nodes i := by
    intro i
    by_cases hic : i = child
    · rw [if_pos hic, hic, hL2]
      exact lookupN_filter_self _ _
    · rw [if_neg hic, hL2, lookupN_filter_ne _ _ _ hic]
      by_cases hip : i = parent
      · rw [if_pos hip, hip]
        exact lookupN_adjustN_self _ _ _
      · rw [if_neg hip]
        exact lookupN_adjustN_other _ _ hip
  have hparmap : ∀ i, i ≠ child →
      (lookupN L2 i).map Node.parent = (lookupN Y.nodes i).map Node.parent := by
    intro i hic
    rw [hmaster, if_neg hic]
    by_cases hip : i = parent
    · rw [if_pos hip]
      cases lookupN Y.nodes i <;> rfl
    · rw [if_neg hip]
  have hmemL : ∀ e ∈ L2, ∃ e0, e0 ∈ Y.nodes ∧ e.1 = e0.1 ∧ e.1 ≠ child ∧
      e.2 = (if e0.1 = parent then f e0.2 else e0.2) := by
    intro e he
    rw [hL2, List.mem_filter] at he
    obtain ⟨hadj, hpred⟩ := he
    have hne : e.1 ≠ child := by simpa using hpred
    unfold adjustN at hadj
    rcases List.mem_map.mp hadj with ⟨e0, he0, hee⟩
    refine ⟨e0, he0, ?_, hne, ?_⟩
    · rw [← hee]
      by_cases h0 : e0.1 = parent <;> simp [h0]
    · rw [← hee]
      by_cases h0 : e0.1 = parent <;> simp [h0]
  have hchild : ∀ i, childrenOf { nodes := L2, root := Y.root,
                                  nextId := Y.nextId } i =
      if i = child then []
      else if i = parent then hmap_remove (childrenOf Y i) name
      else childrenOf Y i := by
    intro i
    show (match lookupN L2 i with
          | none => ([] : List (Path × Nat))
          | some n => n.children) = _
    rw [hmaster]
    by_cases hic : i = child
    · rw [if_pos hic, if_pos hic]
    · rw [if_neg hic, if_neg hic]
      by_cases hip : i = parent
      · rw [if_pos hip, if_pos hip, hip, hlp]
        show hmap_remove np.children name = hmap_remove (childrenOf Y parent) name
        rw [hcY]
      · rw [if_neg hip, if_neg hip]
        unfold childrenOf
        rfl
  have htransport : ∀ {i : Nat} {C : List Nat}, UpChain Y i none C →
      child ∉ C →
      UpChain { nodes := L2, root := Y.root, nextId := Y.nextId } i none C := by
    intro i C hch havoid
    refine upChain_parent_preserved ?_ hch
    intro j n hj hln
    have hjc : j ≠ child := fun he => havoid (he ▸ hj)
    refine ⟨if j = parent then f n else n, ?_, ?_⟩
    · show lookupN L2 j = _
      rw [hmaster, if_neg hjc]
      by_cases hjp : j = parent
      · rw [if_pos hjp, if_pos hjp, hln]
        rfl
      · rw [if_neg hjp, if_neg hjp, hln]
    · by_cases hjp : j = parent <;> simp [hjp, hf]
  refine ⟨?_, ?_, ?_, ?_, ?_, ?_, ?_, ?_, ?_, ?_⟩
  · -- keys remain duplicate-free
    show (L2.map Prod.fst).Nodup
    rw [hL2, map_fst_filter_key, heapKeys_adjustN]
    exact w1.filter _
  · -- the root keeps no parent
    show (lookupN L2 Y.root).map Node.parent = some none
    rw [hparmap Y.root (fun he => hrootc he.symm)]
    exact w2
  · -- only the root is parentless
    intro e he hp
    rcases hmemL e he with ⟨e0, he0, h1, hne, h2⟩
    show e.1 = Y.root
    rw [h1]
    refine w3 e0 he0 ?_
    rw [h2] at hp
    by_cases h0 : e0.1 = parent
    · rw [if_pos h0] at hp
      exact hp
    · rw [if_neg h0] at hp
      exact hp
  · -- children still point back to their parent
    intro e he ch hch
    rcases hmemL e he with ⟨e0, he0, h1, hne, h2⟩
    rw [h2] at hch
    by_cases h0 : e0.1 = parent
    · rw [if_pos h0] at hch
      have hch2 : ch ∈ hmap_remove e0.2.children name := hch
      obtain ⟨hch0, hchname⟩ := List.mem_filter.mp hch2
      have hold := w4 e0 he0 ch hch0
      have hchc : ch.2 ≠ child := by
        intro hv
        have h9 := noChildTarget e0 he0 ch hch0 hv
        rw [h9.2] at hchname
        simp at hchname
      show (lookupN L2 ch.2).map Node.parent = some (some e.1)
      rw [hparmap ch.2 hchc, h1]
      exact hold
    · rw [if_neg h0] at hch
      have hold := w4 e0 he0 ch hch
      have hchc : ch.2 ≠ child := by
        intro hv
        exact h0 (noChildTarget e0 he0 ch hch hv).1
      show (lookupN L2 ch.2).map Node.parent = some (some e.1)
      rw [hparmap ch.2 hchc, h1]
      exact hold
  · -- every non-root survivor stays registered under its parent
    intro e he p hp
    rcases hmemL e he with ⟨e0, he0, h1, hne, h2⟩
    have hpar : e.2.parent = e0.2.parent := by
      rw [h2]
      by_cases h0 : e0.1 = parent <;> simp [h0, hf]
    rw [hpar] at hp
    have hold := w5 e0 he0 p hp
    have hps : e0.2.parent = some p := by
      cases ho : e0.2.parent with
      | none =>
        rw [ho] at hp
        simp at hp
      | some q =>
        rw [ho] at hp
        simp at hp
        rw [hp]
    have hpc : p ≠ child := by
      intro he2
      rw [he2] at hps
      exact noParentChild e0 he0 hps
    rw [hchild, if_neg hpc]
    by_cases hpp : p = parent
    · rw [if_pos hpp]
      rcases List.mem_map.mp hold with ⟨en, hen, hend⟩
      have henname : en.1 ≠ name := by
        intro he3
        have hget2 : hmap_get (childrenOf Y parent) name = some en.2 := by
          apply hmap_get_of_mem
          · rw [hcY]
            exact hndp
          · rw [hpp] at hen
            have heta : en = (name, en.2) := by
              rw [← he3]
            rw [← heta]
            exact hen
        have hvc : en.2 = child := by
          have h6 := hget2.symm.trans hget
          injection h6
        apply hne
        rw [h1, ← hend, hvc]
      apply List.mem_map.mpr
      refine ⟨en, ?_, hend.trans h1.symm⟩
      apply List.mem_filter.mpr
      refine ⟨hen, ?_⟩
      simp [henname]
    · rw [if_neg hpp]
      rw [h1]
      exact hold
  · -- parent chains still terminate
    intro e he
    rcases hmemL e he with ⟨e0, he0, h1, hne, h2⟩
    have hold := w6 e0 he0
    rw [Option.isSome_iff_exists] at hold
    rcases hold with ⟨C, hC⟩
    have hch := chainUp_upChain hC
    have hnd := chainUp_nodup hC
    have havoid : child ∉ C := by
      intro hmem
      rcases upChain_mem_pred hch child hmem with he2 | ⟨w, nw, hlw, hpw⟩
      · exact hne (h1.trans he2.symm)
      · exact noParentChild (w, nw) (mem_of_lookupN hlw) hpw
    rw [h1]
    exact chainOk_of_upChain (htransport hch havoid) hnd
  · -- per-directory names stay duplicate-free
    intro e he
    rcases hmemL e he with ⟨e0, he0, h1, hne, h2⟩
    rw [h2]
    by_cases h0 : e0.1 = parent
    · rw [if_pos h0]
      show ((hmap_remove e0.2.children name).map Prod.fst).Nodup
      unfold hmap_remove
      rw [map_fst_filter_key]
      exact (w7 e0 he0).filter _
    · rw [if_neg h0]
      exact w7 e0 he0
  · -- the root still is nobody's child
    intro e he ch hch
    rcases hmemL e he with ⟨e0, he0, h1, hne, h2⟩
    rw [h2] at hch
    by_cases h0 : e0.1 = parent
    · rw [if_pos h0] at hch
      have hch2 : ch ∈ hmap_remove e0.2.children name := hch
      exact w8 e0 he0 ch (List.mem_filter.mp hch2).1
    · rw [if_neg h0] at hch
      exact w8 e0 he0 ch hch
  · -- child positions stay unique
    have hedge : ∀ e ∈ L2, ∀ ch ∈ e.2.children,
        ∃ e0, e0 ∈ Y.nodes ∧ e.1 = e0.1 ∧ ch ∈ e0.2.children := by
      intro e he ch hch
      rcases hmemL e he with ⟨e0, he0, h1, hne, h2⟩
      rw [h2] at hch
      by_cases h0 : e0.1 = parent
      · rw [if_pos h0] at hch
        have hch2 : ch ∈ hmap_remove e0.2.children name := hch
        exact ⟨e0, he0, h1, (List.mem_filter.mp hch2).1⟩
      · rw [if_neg h0] at hch
        exact ⟨e0, he0, h1, hch⟩
    intro e he e2 he2 ch hch ch2 hch2 heq
    rcases hedge e he ch hch with ⟨e0, he0, h1, hc0⟩
    rcases hedge e2 he2 ch2 hch2 with ⟨e02, he02, h12, hc02⟩
    have h9 := w9 e0 he0 e02 he02 ch hc0 ch2 hc02 heq
    exact ⟨h1.trans (h9.1.trans h12.symm), h9.2⟩
  · -- allocation bound unchanged
    intro e he
    rcases hmemL e he with ⟨e0, he0, h1, -, -⟩
    show e.1 < Y.nextId
    rw [h1]
    exact w10 e0 he0

/-- The SUCCESS path of `tree_remove` (pop the child from the parent's
map, then free it) preserves well-formedness; the surrounding lock and
refcount traffic only changes counters. -/
theorem remove_success_wfs (st1 : TreeState) (parent : Nat) (name : Path)
    (child : Nat) (hwf1 : WFs st1)
    (hmg : hmap_get (childrenOf st1 parent) name = some child)
    (hcnt : ¬ subdir_count (writer_lock st1 child) child > 0) :
    WFs (tree_free
          (writer_unlock
            (unwind_path
              (writer_unlock (popChild (writer_lock st1 child) parent name)
                child)
              (some parent) none
              (writer_unlock (popChild (writer_lock st1 child) parent name)
                child).nodes.length)
            parent)
          child) := by
  set Y : TreeState := writer_lock st1 child with hY
  have hseY : ShapeEq st1 Y := shapeEq_writer_lock st1 child
  have hwfY : WFs Y := shapeEq_wfs hseY hwf1
  have hgetY : hmap_get (childrenOf Y parent) name = some child := by
    rw [shapeEq_childrenOf hseY parent]
    exact hmg
  have hleafY : childrenOf Y child = [] := by
    have h0 : (childrenOf Y child).length = 0 := Nat.eq_zero_of_not_pos hcnt
    exact List.eq_nil_of_length_eq_zero h0
  have hcore := wfs_remove_leaf Y parent name child hwfY hgetY hleafY
  set X : TreeState := popChild Y parent name with hX
  set S6 : TreeState :=
    writer_unlock
      (unwind_path (writer_unlock X child) (some parent) none
        (writer_unlock X child).nodes.length)
      parent with hS6
  have hseX6 : ShapeEq X S6 := by
    refine shapeEq_trans (shapeEq_writer_unlock X child) ?_
    exact shapeEq_trans (shapeEq_unwind_path _ _ _ _)
      (shapeEq_writer_unlock _ parent)
  rcases child_backptr hwfY hgetY with ⟨cn, hlcY, hcpY⟩
  have hcpne : child ≠ parent := by
    have hd := depth_parent hwfY hlcY hcpY
    intro he
    rw [he] at hd
    omega
  have hchn : cn.children = [] := by
    have h0 := hleafY
    unfold childrenOf at h0
    rw [hlcY] at h0
    exact h0
  have hlkX : lookupN X.nodes child = some cn := by
    show lookupN (adjustN Y.nodes parent
        (fun n => { n with children := hmap_remove n.children name }))
      child = some cn
    rw [lookupN_adjustN_other _ _ hcpne]
    exact hlcY
  have hchX : childrenOf X child = [] := by
    unfold childrenOf
    rw [hlkX]
    exact hchn
  have hlk6 : (lookupN S6.nodes child).isSome = true := by
    rw [shapeEq_isSome hseX6, hlkX]
    rfl
  obtain ⟨n6, hn6⟩ := Option.isSome_iff_exists.mp hlk6
  have hn6c : n6.children = [] := by
    have hc6 : childrenOf S6 child = [] := by
      rw [shapeEq_childrenOf hseX6]
      exact hchX
    unfold childrenOf at hc6
    rw [hn6] at hc6
    exact hc6
  have hfree : tree_free S6 child = removeN S6 child := by
    unfold tree_free
    cases hL : S6.nodes.length with
    | zero =>
      exfalso
      have hnil : S6.nodes = [] := List.length_eq_zero.mp hL
      rw [hnil] at hn6
      simp [lookupN] at hn6
    | succ m =>
      rw [tree_free_go_succ]
      simp only [hn6]
      rw [hn6c]
      rfl
  show WFs (tree_free S6 child)
  rw [hfree]
  exact shapeEq_wfs (shapeEq_removeN_congr hseX6 child) hcore

theorem wfs_tree_remove (st : TreeState) (p : Path) (hwf : WFs st) :
    WFs (tree_remove st p).2 := by
  by_cases hroot : IS_ROOT p = true
  · unfold tree_remove
    rw [if_pos hroot]
    exact hwf
  · unfold tree_remove
    rw [if_neg hroot]
    have hse1 := shapeEq_get_node st st.root (make_path_to_parent p).1 false
      WRITER
    cases hg : get_node st st.root (make_path_to_parent p).1 false WRITER with
    | mk o st1 =>
      rw [hg] at hse1
      cases o with
      | none =>
        simp only [hg]
        exact shapeEq_wfs hse1 hwf
      | some parent =>
        simp only [hg]
        have hwf1 : WFs st1 := shapeEq_wfs hse1 hwf
        cases hmg : hmap_get (childrenOf st1 parent)
            (make_path_to_parent p).2 with
        | none =>
          simp only [hmg]
          refine shapeEq_wfs (shapeEq_trans hse1 ?_) hwf
          exact shapeEq_trans (shapeEq_unwind_path st1 _ _ _)
            (shapeEq_writer_unlock _ parent)
        | some child =>
          simp only [hmg]
          by_cases hcnt : subdir_count (writer_lock st1 child) child > 0
          · rw [if_pos hcnt]
            refine shapeEq_wfs (shapeEq_trans hse1 ?_) hwf
            refine shapeEq_trans (shapeEq_writer_lock st1 child) ?_
            refine shapeEq_trans (shapeEq_writer_unlock _ child) ?_
            exact shapeEq_trans (shapeEq_unwind_path _ _ _ _)
              (shapeEq_writer_unlock _ parent)
          · rw [if_neg hcnt]
            exact remove_success_wfs st1 parent (make_path_to_parent p).2
              child hwf1 hmg hcnt

/-- Parent chains to the root are unique (parent resolution is a
function, and reaching `none` is unambiguous). -/
theorem upChain_det {st : TreeState} {i : Nat} {e : Option Nat}
    {L M : List Nat} (h1 : UpChain st i e L) (he : e = none)
    (h2 : UpChain st i e M) : L = M := by
  induction h1 generalizing M with
  | single i2 n e2 hl hp =>
    obtain ⟨M2, hM⟩ := upChain_head h2
    subst hM
    rcases upChain_cons_inv h2 with ⟨-, n2, hl2, hcase⟩
    have hn : n2 = n := by
      rw [hl] at hl2
      injection hl2 with h
      rw [h]
    rcases hcase with ⟨hnil, hpar⟩ | ⟨p, hpar, hch⟩
    · rw [hnil]
    · exfalso
      rw [hn, hp, he] at hpar
      cases hpar
  | step i2 n p e2 L2 hl hp hch ih =>
    obtain ⟨M2, hM⟩ := upChain_head h2
    subst hM
    rcases upChain_cons_inv h2 with ⟨-, n2, hl2, hcase⟩
    have hn : n2 = n := by
      rw [hl] at hl2
      injection hl2 with h
      rw [h]
    rcases hcase with ⟨hnil, hpar⟩ | ⟨q, hpar, hch2⟩
    · exfalso
      rw [hn, hp] at hpar
      rw [he] at hpar
      cases hpar
    · have hq : q = p := by
        rw [hn, hp] at hpar
        injection hpar with h
        rw [h]
      rw [ih he (hq ▸ hch2)]

theorem descend_append (st : TreeState) (A B : List Path) : ∀ (u : Nat),
    descend st u (A ++ B) =
      match descend st u A with
      | none => none
      | some q => descend st q B := by
  induction A with
  | nil =>
    intro u
    rfl
  | cons a A2 ih =>
    intro u
    rw [List.cons_append]
    show (match hmap_get (childrenOf st u) a with
          | none => none
          | some c => descend st c (A2 ++ B)) =
      match (match hmap_get (childrenOf st u) a with
             | none => none
             | some c => descend st c A2) with
      | none => none
      | some q => descend st q B
    cases hg : hmap_get (childrenOf st u) a with
    | none => rfl
    | some c => exact ih c

/-- Each `descend` step goes down one level. -/
theorem descend_depth {st : TreeState} (hwf : WFs st) :
    ∀ (P : List Path) (u x : Nat), descend st u P = some x →
      depthOf st x = depthOf st u + P.length := by
  intro P
  induction P with
  | nil =>
    intro u x h
    have h2 : some u = some x := h
    injection h2 with h2
    subst h2
    simp
  | cons a P2 ih =>
    intro u x h
    have h2 : (match hmap_get (childrenOf st u) a with
               | none => none
               | some c => descend st c P2) = some x := h
    cases hg : hmap_get (childrenOf st u) a with
    | none =>
      rw [hg] at h2
      cases h2
    | some c =>
      rw [hg] at h2
      rcases child_backptr hwf hg with ⟨cn, hlc, hcp⟩
      have hd := depth_parent hwf hlc hcp
      have h3 := ih c x h2
      rw [List.length_cons]
      omega

theorem descend_inj_aux {st : TreeState} (hwf : WFs st) :
    ∀ (k : Nat) (A B : List Path) (u x : Nat), A.length ≤ k →
      descend st u A = some x → descend st u B = some x → A = B := by
  intro k
  induction k with
  | zero =>
    intro A B u x hk hA hB
    have hA0 : A = [] := List.eq_nil_of_length_eq_zero (Nat.le_zero.mp hk)
    subst hA0
    have hux : some u = some x := hA
    injection hux with hux
    have hdB := descend_depth hwf B u x hB
    rw [hux] at hdB
    have hB0 : B.length = 0 := by omega
    exact (List.eq_nil_of_length_eq_zero hB0).symm
  | succ k ih =>
    intro A B u x hk hA hB
    rcases List.eq_nil_or_concat A with hA0 | ⟨A2, m, hA2⟩
    · subst hA0
      have hux : some u = some x := hA
      injection hux with hux
      have hdB := descend_depth hwf B u x hB
      rw [hux] at hdB
      have hB0 : B.length = 0 := by omega
      exact (List.eq_nil_of_length_eq_zero hB0).symm
    · subst hA2
      rw [List.concat_eq_append] at hA hk ⊢
      rcases List.eq_nil_or_concat B with hB0 | ⟨B2, n, hB2⟩
      · subst hB0
        exfalso
        have hux : some u = some x := hB
        injection hux with hux
        have hdA := descend_depth hwf (A2 ++ [m]) u x hA
        rw [hux, List.length_append] at hdA
        simp at hdA
      · subst hB2
        rw [List.concat_eq_append] at hB ⊢
        rw [descend_append st A2 [m] u] at hA
        rw [descend_append st B2 [n] u] at hB
        cases hqa : descend st u A2 with
        | none =>
          rw [hqa] at hA
          cases hA
        | some qa =>
          rw [hqa] at hA
          cases hqb : descend st u B2 with
          | none =>
            rw [hqb] at hB
            cases hB
          | some qb =>
            rw [hqb] at hB
            have hga : hmap_get (childrenOf st qa) m = some x := by
              have h0 : (match hmap_get (childrenOf st qa) m with
                         | none => none
                         | some c => descend st c ([] : List Path))
                  = some x := hA
              cases hg : hmap_get (childrenOf st qa) m with
              | none =>
                rw [hg] at h0
                exact h0
              | some c =>
                rw [hg] at h0
                exact h0
            have hgb : hmap_get (childrenOf st qb) n = some x := by
              have h0 : (match hmap_get (childrenOf st qb) n with
                         | none => none
                         | some c => descend st c ([] : List Path))
                  = some x := hB
              cases hg : hmap_get (childrenOf st qb) n with
              | none =>
                rw [hg] at h0
                exact h0
              | some c =>
                rw [hg] at h0
                exact h0
            rcases childrenOf_lookup hga with ⟨na, hla, hmema⟩
            rcases childrenOf_lookup hgb with ⟨nb, hlb, hmemb⟩
            have h9 := hwf.childUnique (qa, na) (mem_of_lookupN hla) (qb, nb)
              (mem_of_lookupN hlb) (m, x) hmema (n, x) hmemb rfl
            have hlen : A2.length ≤ k := by
              rw [List.length_append] at hk
              simp at hk
              omega
            have hqaqb : qa = qb := h9.1
            have hmn : m = n := h9.2
            have hAB : A2 = B2 := ih A2 B2 u qa hlen hqa
              (by rw [hqaqb]; exact hqb)
            rw [hAB, hmn]

/-- Two component lists descending from the same start to the same node
are equal: a node has a unique path. -/
theorem descend_inj {st : TreeState} (hwf : WFs st) {A B : List Path}
    {u x : Nat} (hA : descend st u A = some x) (hB : descend st u B = some x) :
    A = B :=
  descend_inj_aux hwf A.length A B u x (Nat.le_refl _) hA hB

/-- The parent chain of a node reached by `descend` consists exactly of
the nodes at the prefixes of its path. -/
theorem descend_chain_covers_aux {st : TreeState} (hwf : WFs st) :
    ∀ (k : Nat) (P : List Path) (u x : Nat) (nu : Node), P.length ≤ k →
      lookupN st.nodes u = some nu → descend st u P = some x →
      ∃ C, UpChain st x nu.parent C ∧
        ∀ a ∈ C, ∃ Q, Q <+: P ∧ descend st u Q = some a := by
  intro k
  induction k with
  | zero =>
    intro P u x nu hk hlu h
    have hP0 : P = [] := List.eq_nil_of_length_eq_zero (Nat.le_zero.mp hk)
    subst hP0
    have hux : some u = some x := h
    injection hux with hux
    subst hux
    refine ⟨[u], UpChain.single u nu nu.parent hlu rfl, ?_⟩
    intro a ha
    rw [List.mem_singleton] at ha
    subst ha
    exact ⟨[], List.nil_prefix, rfl⟩
  | succ k ih =>
    intro P u x nu hk hlu h
    rcases List.eq_nil_or_concat P with hP0 | ⟨P2, n, hP2⟩
    · subst hP0
      have hux : some u = some x := h
      injection hux with hux
      subst hux
      refine ⟨[u], UpChain.single u nu nu.parent hlu rfl, ?_⟩
      intro a ha
      rw [List.mem_singleton] at ha
      subst ha
      exact ⟨[], List.nil_prefix, rfl⟩
    · subst hP2
      rw [List.concat_eq_append] at h hk ⊢
      rw [descend_append st P2 [n] u] at h
      cases hq : descend st u P2 with
      | none =>
        rw [hq] at h
        cases h
      | some q =>
        rw [hq] at h
        have hgq : hmap_get (childrenOf st q) n = some x := by
          have h0 : (match hmap_get (childrenOf st q) n with
                     | none => none
                     | some c => descend st c ([] : List Path)) = some x := h
          cases hg : hmap_get (childrenOf st q) n with
          | none =>
            rw [hg] at h0
            exact h0
          | some c =>
            rw [hg] at h0
            exact h0
        rcases child_backptr hwf hgq with ⟨nx, hlx, hpx⟩
        have hlen : P2.length ≤ k := by
          rw [List.length_append] at hk
          simp at hk
          omega
        rcases ih P2 u q nu hlen hlu hq with ⟨C, hC, hcov⟩
        refine ⟨x :: C, UpChain.step x nx q nu.parent C hlx hpx hC, ?_⟩
        intro a ha
        rcases List.mem_cons.mp ha with ha | ha
        · subst ha
          refine ⟨P2 ++ [n], List.prefix_refl _, ?_⟩
          rw [descend_append st P2 [n] u, hq]
          show (match hmap_get (childrenOf st q) n with
                | none => none
                | some c => descend st c ([] : List Path)) = some a
          rw [hgq]
          rfl
        · rcases hcov a ha with ⟨Q, hQ, hdq⟩
          exact ⟨Q, hQ.trans (List.prefix_append _ _), hdq⟩

/-- Every member of the root chain of a node reached from the root is
itself at a prefix of the node's path. -/
theorem chain_member_path {st : TreeState} (hwf : WFs st) {P : List Path}
    {tp sd : Nat} {C : List Nat}
    (hdt : descend st st.root P = some tp)
    (hC : UpChain st tp none C) (hmem : sd ∈ C) :
    ∃ Q, Q <+: P ∧ descend st st.root Q = some sd := by
  have hr := hwf.rootParent
  cases hlr : lookupN st.nodes st.root with
  | none =>
    rw [hlr] at hr
    cases hr
  | some nr =>
    rw [hlr] at hr
    have hrp : nr.parent = none := by
      injection hr
    rcases descend_chain_covers_aux hwf P.length P st.root tp nr
        (Nat.le_refl _) hlr hdt with ⟨C2, hC2, hcov⟩
    rw [hrp] at hC2
    have hCC : C = C2 := upChain_det hC rfl hC2
    rw [hCC] at hmem
    exact hcov sd hmem

/-- If the path of `sd` is not a prefix of the path of `tp`, then `sd`
is not on `tp`'s parent chain (the acyclicity argument of `tree_move`:
`is_ancestor` tests exactly this prefix relation). -/
theorem acyc_from_paths {st : TreeState} (hwf : WFs st) {P S : List Path}
    {tp sd : Nat} {C : List Nat}
    (hdt : descend st st.root P = some tp)
    (hds : descend st st.root S = some sd)
    (hC : UpChain st tp none C)
    (hnp : ¬ (S <+: P)) : sd ∉ C := by
  intro hmem
  rcases chain_member_path hwf hdt hC hmem with ⟨Q, hQ, hdq⟩
  have hqs : Q = S := descend_inj hwf hdq hds
  exact hnp (hqs ▸ hQ)

/-- Re-hanging a subtree under a new parent preserves well-formedness:
`sd` is unhooked from `sp` (where it hangs under `sn`) and hooked under
the free name `tn` of `tp`, provided `sd` is not on `tp`'s parent chain
(the `is_ancestor` guard).  This is the structural core of `tree_move`'s
SUCCESS paths. -/
theorem wfs_move_edge (Z : TreeState) (sp tp sd : Nat) (sn tn : Path)
    (hwf : WFs Z)
    (hs : hmap_get (childrenOf Z sp) sn = some sd)
    (ht : hmap_get (childrenOf Z tp) tn = none)
    (htp : (lookupN Z.nodes tp).isSome = true)
    (C : List Nat) (hC : UpChain Z tp none C) (hCnd : C.Nodup)
    (hacyc : sd ∉ C) :
    WFs (insertChild (setParent (popChild Z sp sn) sd (some tp)) tp tn sd) := by
  obtain ⟨w1, w2, w3, w4, w5, w6, w7, w8, w9, w10⟩ := hwf
  have hwf' : WFs Z := ⟨w1, w2, w3, w4, w5, w6, w7, w8, w9, w10⟩
  rcases childrenOf_lookup hs with ⟨nsp, hlsp, hmemS⟩
  rcases child_backptr hwf' hs with ⟨nsd, hlsd, hpsd⟩
  obtain ⟨ntp, hltp⟩ := Option.isSome_iff_exists.mp htp
  have hsdsp : sd ≠ sp := by
    have hd := depth_parent hwf' hlsd hpsd
    intro he
    rw [he] at hd
    omega
  have hsdtp : sd ≠ tp := by
    obtain ⟨M, hM⟩ := upChain_head hC
    intro he
    apply hacyc
    rw [hM, he]
    exact List.mem_cons_self tp M
  have hsdroot : sd ≠ Z.root := w8 (sp, nsp) (mem_of_lookupN hlsp) (sn, sd) hmemS
  have htnfree : ∀ v, (tn, v) ∉ childrenOf Z tp := hmap_get_none ht
  have hcZsp : childrenOf Z sp = nsp.children := by
    unfold childrenOf
    rw [hlsp]
  set F : Nat → Node → Node := fun i n =>
    { parent := if i = sd then some tp else n.parent,
      children := (if i = sp then hmap_remove n.children sn else n.children)
        ++ (if i = tp then [(tn, sd)] else []),
      r_count := n.r_count, w_count := n.w_count,
      r_wait := n.r_wait, w_wait := n.w_wait,
      refcount := n.refcount } with hF
  have hmaster : ∀ i, lookupN (insertChild (setParent (popChild Z sp sn) sd
        (some tp)) tp tn sd).nodes i = (lookupN Z.nodes i).map (F i) := by
    intro i
    show lookupN (adjustN (adjustN (adjustN Z.nodes sp
        (fun n => { n with children := hmap_remove n.children sn })) sd
        (fun n => { n with parent := some tp })) tp
        (fun n => { n with children := n.children ++ [(tn, sd)] })) i
      = (lookupN Z.nodes i).map (F i)
    rw [lookupN_adjustN, lookupN_adjustN, lookupN_adjustN]
    cases hlook : lookupN Z.nodes i with
    | none => simp
    | some n =>
      by_cases h3 : i = tp
      · by_cases h2 : i = sd
        · by_cases h1 : i = sp
          · simp [hF, if_pos h1, if_pos h2, if_pos h3]
          · simp [hF, if_neg h1, if_pos h2, if_pos h3]
        · by_cases h1 : i = sp
          · simp [hF, if_pos h1, if_neg h2, if_pos h3]
          · simp [hF, if_neg h1, if_neg h2, if_pos h3]
      · by_cases h2 : i = sd
        · by_cases h1 : i = sp
          · simp [hF, if_pos h1, if_pos h2, if_neg h3]
          · simp [hF, if_neg h1, if_pos h2, if_neg h3]
        · by_cases h1 : i = sp
          · simp [hF, if_pos h1, if_neg h2, if_neg h3]
          · simp [hF, if_neg h1, if_neg h2, if_neg h3]
  have hkeysW : (insertChild (setParent (popChild Z sp sn) sd (some tp))
        tp tn sd).nodes.map Prod.fst = Z.nodes.map Prod.fst := by
    show (adjustN (adjustN (adjustN Z.nodes sp
        (fun n => { n with children := hmap_remove n.children sn })) sd
        (fun n => { n with parent := some tp })) tp
        (fun n => { n with children := n.children ++ [(tn, sd)] })).map
          Prod.fst
      = Z.nodes.map Prod.fst
    rw [heapKeys_adjustN, heapKeys_adjustN, heapKeys_adjustN]
  have hFpar : ∀ i n, i ≠ sd → (F i n).parent = n.parent := by
    intro i n h2
    show (if i = sd then some tp else n.parent) = n.parent
    rw [if_neg h2]
  have hFparSd : ∀ n, (F sd n).parent = some tp := by
    intro n
    show (if sd = sd then some tp else n.parent) = some tp
    rw [if_pos rfl]
  have hFchild : ∀ i n, (F i n).children =
      (if i = sp then hmap_remove n.children sn else n.children) ++
      (if i = tp then [(tn, sd)] else []) := fun i n => rfl
  have hparW : ∀ i, i ≠ sd →
      (lookupN (insertChild (setParent (popChild Z sp sn) sd (some tp))
        tp tn sd).nodes i).map Node.parent
      = (lookupN Z.nodes i).map Node.parent := by
    intro i hi
    rw [hmaster]
    cases lookupN Z.nodes i with
    | none => rfl
    | some n =>
      show some (F i n).parent = some n.parent
      rw [hFpar i n hi]
  have hlsdW : lookupN (insertChild (setParent (popChild Z sp sn) sd
        (some tp)) tp tn sd).nodes sd = some (F sd nsd) := by
    rw [hmaster, hlsd]
    rfl
  have hmemW : ∀ e ∈ (insertChild (setParent (popChild Z sp sn) sd
        (some tp)) tp tn sd).nodes,
      ∃ e0, e0 ∈ Z.nodes ∧ e.1 = e0.1 ∧ e.2 = F e0.1 e0.2 := by
    intro e he
    have hndW : ((insertChild (setParent (popChild Z sp sn) sd (some tp))
        tp tn sd).nodes.map Prod.fst).Nodup := by
      rw [hkeysW]
      exact w1
    have hle := lookupN_of_mem hndW he
    rw [hmaster] at hle
    cases hlook : lookupN Z.nodes e.1 with
    | none =>
      rw [hlook] at hle
      cases hle
    | some n0 =>
      rw [hlook] at hle
      have hle2 : some (F e.1 n0) = some e.2 := hle
      injection hle2 with h2
      exact ⟨(e.1, n0), mem_of_lookupN hlook, rfl, h2.symm⟩
  have hchildW : ∀ i, childrenOf (insertChild (setParent (popChild Z sp sn)
        sd (some tp)) tp tn sd) i =
      (if i = sp then hmap_remove (childrenOf Z i) sn else childrenOf Z i) ++
      (if i = tp then [(tn, sd)] else []) := by
    intro i
    unfold childrenOf
    rw [hmaster]
    cases hl : lookupN Z.nodes i with
    | none =>
      by_cases h3 : i = tp
      · exfalso
        rw [h3, hltp] at hl
        cases hl
      · rw [if_neg h3]
        by_cases h1 : i = sp
        · rw [if_pos h1]
          rfl
        · rw [if_neg h1]
          rfl
    | some n =>
      show (F i n).children =
        (if i = sp then hmap_remove n.children sn else n.children) ++
        (if i = tp then [(tn, sd)] else [])
      exact hFchild i n
  have htransportW : ∀ {i : Nat} {C2 : List Nat}, UpChain Z i none C2 →
      sd ∉ C2 →
      UpChain (insertChild (setParent (popChild Z sp sn) sd (some tp))
        tp tn sd) i none C2 := by
    intro i C2 hch havoid
    refine upChain_parent_preserved ?_ hch
    intro j n hj hln
    have hjsd : j ≠ sd := fun he => havoid (he ▸ hj)
    refine ⟨F j n, ?_, hFpar j n hjsd⟩
    rw [hmaster, hln]
    rfl
  have htransportW2 : ∀ {i : Nat} {e : Option Nat} {C2 : List Nat},
      UpChain Z i e C2 → sd ∉ C2 →
      UpChain (insertChild (setParent (popChild Z sp sn) sd (some tp))
        tp tn sd) i e C2 := by
    intro i e C2 hch havoid
    refine upChain_parent_preserved ?_ hch
    intro j n hj hln
    have hjsd : j ≠ sd := fun he => havoid (he ▸ hj)
    refine ⟨F j n, ?_, hFpar j n hjsd⟩
    rw [hmaster, hln]
    rfl
  have hCW := htransportW hC hacyc
  have hsdchainW : UpChain (insertChild (setParent (popChild Z sp sn) sd
        (some tp)) tp tn sd) sd none (sd :: C) :=
    UpChain.step sd (F sd nsd) tp none C hlsdW (hFparSd nsd) hCW
  have hnewTarget : ∀ e0 ∈ Z.nodes, ∀ ch ∈ e0.2.children, ch.2 = sd →
      e0.1 = sp ∧ ch.1 = sn := by
    intro e0 he0 ch hch hv
    exact w9 e0 he0 (sp, nsp) (mem_of_lookupN hlsp) ch hch (sn, sd) hmemS hv
  refine ⟨?_, ?_, ?_, ?_, ?_, ?_, ?_, ?_, ?_, ?_⟩
  · -- keys unchanged
    show ((insertChild (setParent (popChild Z sp sn) sd (some tp))
        tp tn sd).nodes.map Prod.fst).Nodup
    rw [hkeysW]
    exact w1
  · -- root keeps no parent
    show (lookupN (insertChild (setParent (popChild Z sp sn) sd (some tp))
        tp tn sd).nodes Z.root).map Node.parent = some none
    rw [hparW Z.root (fun he => hsdroot he.symm)]
    exact w2
  · -- only the root is parentless
    intro e he hp
    rcases hmemW e he with ⟨e0, he0, h1, h2⟩
    show e.1 = Z.root
    rw [h1]
    by_cases hsd0 : e0.1 = sd
    · exfalso
      rw [h2, hsd0, hFparSd] at hp
      cases hp
    · refine w3 e0 he0 ?_
      rw [h2, hFpar e0.1 e0.2 hsd0] at hp
      exact hp
  · -- children point back
    intro e he ch hch
    rcases hmemW e he with ⟨e0, he0, h1, h2⟩
    rw [h2, hFchild] at hch
    rcases List.mem_append.mp hch with hch | hch
    · have hch0 : ch ∈ e0.2.children := by
        by_cases h1sp : e0.1 = sp
        · rw [if_pos h1sp] at hch
          exact (List.mem_filter.mp hch).1
        · rw [if_neg h1sp] at hch
          exact hch
      have hold := w4 e0 he0 ch hch0
      have hchsd : ch.2 ≠ sd := by
        intro hv
        have h9 := hnewTarget e0 he0 ch hch0 hv
        rw [if_pos h9.1] at hch
        have hpred := (List.mem_filter.mp hch).2
        rw [h9.2] at hpred
        simp at hpred
      show (lookupN (insertChild (setParent (popChild Z sp sn) sd (some tp))
          tp tn sd).nodes ch.2).map Node.parent = some (some e.1)
      rw [hparW ch.2 hchsd, h1]
      exact hold
    · by_cases h1tp : e0.1 = tp
      · rw [if_pos h1tp, List.mem_singleton] at hch
        subst hch
        show (lookupN (insertChild (setParent (popChild Z sp sn) sd (some tp))
            tp tn sd).nodes sd).map Node.parent = some (some e.1)
        rw [hlsdW]
        show some (F sd nsd).parent = some (some e.1)
        rw [hFparSd, h1, h1tp]
      · rw [if_neg h1tp] at hch
        simp at hch
  · -- non-root nodes are registered under their parent
    intro e he p hp
    rcases hmemW e he with ⟨e0, he0, h1, h2⟩
    by_cases hsd0 : e0.1 = sd
    · have hpe : e.2.parent = some tp := by
        rw [h2, hsd0, hFparSd]
      have hptp : p = tp := by
        rw [hpe] at hp
        simpa using hp
      rw [hchildW p, hptp, List.map_append]
      apply List.mem_append_right
      simp [h1, hsd0]
    · have hpe : e.2.parent = e0.2.parent := by
        rw [h2]
        exact hFpar e0.1 e0.2 hsd0
      rw [hpe] at hp
      have hold := w5 e0 he0 p hp
      rw [hchildW p, List.map_append]
      apply List.mem_append_left
      by_cases hpsp : p = sp
      · rw [if_pos hpsp, hpsp]
        rw [hpsp] at hold
        rcases List.mem_map.mp hold with ⟨en, hen, hend⟩
        have hensn : en.1 ≠ sn := by
          intro he3
          have hgete : hmap_get (childrenOf Z sp) sn = some en.2 := by
            apply hmap_get_of_mem
            · rw [hcZsp]
              exact w7 (sp, nsp) (mem_of_lookupN hlsp)
            · have heta : en = (sn, en.2) := by
                rw [← he3]
              rw [← heta]
              exact hen
          have hvd : en.2 = sd := by
            have h6 := hgete.symm.trans hs
            injection h6
          apply hsd0
          rw [← hend, hvd]
        apply List.mem_map.mpr
        refine ⟨en, ?_, hend.trans h1.symm⟩
        apply List.mem_filter.mpr
        refine ⟨hen, ?_⟩
        simp [hensn]
      · rw [if_neg hpsp, h1]
        exact hold
  · -- parent chains still terminate
    intro e he
    rcases hmemW e he with ⟨e0, he0, h1, h2⟩
    have hold := w6 e0 he0
    rw [Option.isSome_iff_exists] at hold
    rcases hold with ⟨L, hL⟩
    have hchZ := chainUp_upChain hL
    have hnd := chainUp_nodup hL
    rw [h1]
    by_cases hmem : sd ∈ L
    · rcases List.append_of_mem hmem with ⟨A, B, hAB⟩
      subst hAB
      rw [List.nodup_append] at hnd
      obtain ⟨hndA, hndB, hdisj⟩ := hnd
      have hsdA : sd ∉ A := fun hin =>
        hdisj hin (List.mem_cons_self sd B)
      have hsdCnd : (sd :: C).Nodup := by
        rw [List.nodup_cons]
        exact ⟨hacyc, hCnd⟩
      cases hA0 : A with
      | nil =>
        have hhead : e0.1 = sd := by
          obtain ⟨M, hM⟩ := upChain_head hchZ
          rw [hA0] at hM
          rw [List.nil_append] at hM
          injection hM with hM1 hM2
          rw [hM1]
        rw [hhead]
        exact chainOk_of_upChain hsdchainW hsdCnd
      | cons a A2 =>
        have hAne : A ≠ [] := by
          rw [hA0]
          simp
        rw [← hA0] at *
        have hpre : UpChain Z e0.1 (some sd) A :=
          upChain_split A e0.1 hAne hchZ
        have hpreW := htransportW2 hpre hsdA
        have hfull := upChain_concat hpreW rfl hsdchainW
        have hdisjAC : ∀ u ∈ A, u ∉ C := by
          intro u huA huC
          rcases upChain_mem_suffix hpre u huA with ⟨S1, hS1, -⟩
          have hsdok := w6 (sd, nsd) (mem_of_lookupN hlsd)
          rw [Option.isSome_iff_exists] at hsdok
          rcases hsdok with ⟨D, hD⟩
          have hDch := chainUp_upChain hD
          have hcomb := upChain_concat hS1 rfl hDch
          rcases upChain_mem_suffix hC u huC with ⟨S2, hS2, hsuf2⟩
          have hdet : S1 ++ D = S2 := upChain_det hcomb rfl hS2
          have hsdD : sd ∈ S1 ++ D := by
            obtain ⟨M, hM⟩ := upChain_head hDch
            apply List.mem_append_right
            rw [hM]
            exact List.mem_cons_self sd M
          rw [hdet] at hsdD
          exact hacyc (hsuf2.subset hsdD)
        have hndfull : (A ++ sd :: C).Nodup := by
          rw [List.nodup_append]
          refine ⟨hndA, hsdCnd, ?_⟩
          intro u huA huSC
          rcases List.mem_cons.mp huSC with huSC | huSC
          · exact hsdA (huSC ▸ huA)
          · exact hdisjAC u huA huSC
        exact chainOk_of_upChain hfull hndfull
    · exact chainOk_of_upChain (htransportW hchZ hmem) hnd
  · -- per-directory names stay duplicate-free
    intro e he
    rcases hmemW e he with ⟨e0, he0, h1, h2⟩
    rw [h2, hFchild, List.map_append, List.nodup_append]
    refine ⟨?_, ?_, ?_⟩
    · by_cases h1sp : e0.1 = sp
      · rw [if_pos h1sp]
        show ((hmap_remove e0.2.children sn).map Prod.fst).Nodup
        unfold hmap_remove
        rw [map_fst_filter_key]
        exact (w7 e0 he0).filter _
      · rw [if_neg h1sp]
        exact w7 e0 he0
    · by_cases h1tp : e0.1 = tp <;> simp [h1tp]
    · intro a ha hb
      by_cases h1tp : e0.1 = tp
      · rw [if_pos h1tp] at hb
        simp at hb
        rw [hb] at ha
        have hsub : tn ∈ e0.2.children.map Prod.fst := by
          by_cases h1sp : e0.1 = sp
          · rw [if_pos h1sp] at ha
            have ha2 : tn ∈ ((e0.2.children.filter
                (fun en => !(en.1 == sn))).map Prod.fst) := ha
            rw [map_fst_filter_key] at ha2
            exact (List.mem_filter.mp ha2).1
          · rw [if_neg h1sp] at ha
            exact ha
        rcases List.mem_map.mp hsub with ⟨en, hen, hekey⟩
        apply htnfree en.2
        have heta : en = (tn, en.2) := by
          rw [← hekey]
        have hcZtp : childrenOf Z tp = e0.2.children := by
          unfold childrenOf
          rw [← h1tp, lookupN_of_mem w1 he0]
        rw [hcZtp, ← heta]
        exact hen
      · rw [if_neg h1tp] at hb
        simp at hb
  · -- the root is nobody's child
    intro e he ch hch
    rcases hmemW e he with ⟨e0, he0, h1, h2⟩
    rw [h2, hFchild] at hch
    rcases List.mem_append.mp hch with hch | hch
    · have hch0 : ch ∈ e0.2.children := by
        by_cases h1sp : e0.1 = sp
        · rw [if_pos h1sp] at hch
          exact (List.mem_filter.mp hch).1
        · rw [if_neg h1sp] at hch
          exact hch
      exact w8 e0 he0 ch hch0
    · by_cases h1tp : e0.1 = tp
      · rw [if_pos h1tp, List.mem_singleton] at hch
        subst hch
        exact hsdroot
      · rw [if_neg h1tp] at hch
        simp at hch
  · -- child positions stay unique
    have hedgeW : ∀ e ∈ (insertChild (setParent (popChild Z sp sn) sd
          (some tp)) tp tn sd).nodes, ∀ ch ∈ e.2.children,
        (∃ e0, e0 ∈ Z.nodes ∧ e.1 = e0.1 ∧ ch ∈ e0.2.children ∧ ch.2 ≠ sd) ∨
        (e.1 = tp ∧ ch = (tn, sd)) := by
      intro e he ch hch
      rcases hmemW e he with ⟨e0, he0, h1, h2⟩
      rw [h2, hFchild] at hch
      rcases List.mem_append.mp hch with hch | hch
      · have hch0 : ch ∈ e0.2.children := by
          by_cases h1sp : e0.1 = sp
          · rw [if_pos h1sp] at hch
            exact (List.mem_filter.mp hch).1
          · rw [if_neg h1sp] at hch
            exact hch
        have hchsd : ch.2 ≠ sd := by
          intro hv
          have h9 := hnewTarget e0 he0 ch hch0 hv
          rw [if_pos h9.1] at hch
          have hpred := (List.mem_filter.mp hch).2
          rw [h9.2] at hpred
          simp at hpred
        exact Or.inl ⟨e0, he0, h1, hch0, hchsd⟩
      · by_cases h1tp : e0.1 = tp
        · rw [if_pos h1tp, List.mem_singleton] at hch
          exact Or.inr ⟨h1.trans h1tp, hch⟩
        · rw [if_neg h1tp] at hch
          simp at hch
    intro e he e2 he2 ch hch ch2 hch2 heq
    rcases hedgeW e he ch hch with ⟨e0, he0, h1, hc0, hcs⟩ | ⟨h1, hc0⟩ <;>
      rcases hedgeW e2 he2 ch2 hch2 with ⟨e02, he02, h12, hc02, hcs2⟩ |
        ⟨h12, hc02⟩
    · have h9 := w9 e0 he0 e02 he02 ch hc0 ch2 hc02 heq
      exact ⟨h1.trans (h9.1.trans h12.symm), h9.2⟩
    · exfalso
      apply hcs
      rw [heq, hc02]
    · exfalso
      apply hcs2
      rw [← heq, hc0]
    · refine ⟨h1.trans h12.symm, ?_⟩
      rw [hc0, hc02]
  · -- allocation bound unchanged
    intro e he
    rcases hmemW e he with ⟨e0, he0, h1, -⟩
    show e.1 < Z.nextId
    rw [h1]
    exact w10 e0 he0

theorem prefix_append_cancel {α : Type} {l A B : List α}
    (h : l ++ A <+: l ++ B) : A <+: B := by
  induction l with
  | nil => exact h
  | cons a l2 ih =>
    rw [List.cons_append, List.cons_append, List.cons_prefix_cons] at h
    exact ih h.2

theorem shapeEq_cleanup_step (Y : TreeState) (u v : Nat) :
    ShapeEq Y (if u ≠ v then
        writer_unlock (unwind_path Y (some u) (some v) Y.nodes.length) u
      else Y) := by
  by_cases h : u ≠ v
  · rw [if_pos h]
    exact shapeEq_trans (shapeEq_unwind_path _ _ _ _)
      (shapeEq_writer_unlock _ u)
  · rw [if_neg h]
    exact shapeEq_refl Y

theorem shapeEq_move_cleanup2 (X : TreeState) (a b c : Nat) :
    ShapeEq X (move_cleanup2 X a b c) := by
  unfold move_cleanup2
  refine shapeEq_trans (shapeEq_trans (shapeEq_cleanup_step X a c)
    (shapeEq_cleanup_step _ b c)) ?_
  exact shapeEq_trans (shapeEq_unwind_path _ _ _ _)
    (shapeEq_writer_unlock _ c)

theorem shapeEq_move_cleanup1 (X : TreeState) (a c : Nat) :
    ShapeEq X (move_cleanup1 X a c) := by
  unfold move_cleanup1
  refine shapeEq_trans (shapeEq_cleanup_step X a c) ?_
  exact shapeEq_trans (shapeEq_unwind_path _ _ _ _)
    (shapeEq_writer_unlock _ c)

theorem wfs_tree_move (st : TreeState) (s t : Path) (hwf : WFs st) :
    WFs (tree_move st s t).2 := by
  by_cases hv : (is_valid_path s = true ∧ is_valid_path t = true)
  · by_cases hrs : IS_ROOT s = true
    · unfold tree_move
      rw [if_neg (not_not_intro hv), if_pos hrs]
      exact hwf
    · by_cases hrt : IS_ROOT t = true
      · unfold tree_move
        rw [if_neg (not_not_intro hv), if_neg hrs, if_pos hrt]
        exact hwf
      · by_cases hanc : is_ancestor s t = true
        · unfold tree_move
          rw [if_neg (not_not_intro hv), if_neg hrs, if_neg hrt, if_pos hanc]
          exact hwf
        · have hrs' : IS_ROOT s = false := by
            simpa using hrs
          have hrt' : IS_ROOT t = false := by
            simpa using hrt
          obtain ⟨csS, cS, hcompS, hpS, hokS⟩ := valid_nonroot_concat hv.1 hrs'
          obtain ⟨csT, cT, hcompT, hpT, hokT⟩ := valid_nonroot_concat hv.2 hrt'
          have hallS : ∀ x ∈ csS ++ [cS], x.all notSep = true :=
            fun x hx => compOk_all_notSep x (hokS x hx)
          have hallT : ∀ x ∈ csT ++ [cT], x.all notSep = true :=
            fun x hx => compOk_all_notSep x (hokT x hx)
          have hlca : make_path_to_LCA s t =
              renderPath (commonStem (csS ++ [cS]) (csT ++ [cT])) := by
            unfold make_path_to_LCA
            rw [hcompS, hcompT]
          have hallStem : ∀ x ∈ commonStem (csS ++ [cS]) (csT ++ [cT]),
              x.all notSep = true :=
            fun x hx => hallS x ((commonStem_prefix_left _ _).subset hx)
          have hsnt : ¬ (s <+: t) := by
            intro h
            apply hanc
            rw [is_ancestor, List.isPrefixOf_iff_prefix]
            exact h
          have hnST : ¬ ((csS ++ [cS]) <+: (csT ++ [cT])) := by
            intro h
            apply hsnt
            apply (components_prefix_iff s t hv.1 hv.2).mpr
            rw [hcompS, hcompT]
            exact h
          have hstemS := commonStem_prefix_left (csS ++ [cS]) (csT ++ [cT])
          have hstemT := commonStem_prefix_right (csS ++ [cS]) (csT ++ [cT])
          have hstemSlt : (commonStem (csS ++ [cS]) (csT ++ [cT])).length <
              (csS ++ [cS]).length := by
            rcases lt_or_ge (commonStem (csS ++ [cS]) (csT ++ [cT])).length
              (csS ++ [cS]).length with h | h
            · exact h
            · exfalso
              apply hnST
              have heq := prefix_eq_of_length_ge hstemS h
              rw [← heq]
              exact hstemT
          have hcsSpre : commonStem (csS ++ [cS]) (csT ++ [cT]) <+: csS := by
            have h2 := prefix_dropLast_of_proper hstemS hstemSlt
            rw [List.dropLast_concat] at h2
            exact h2
          obtain ⟨Ys, hYs⟩ := hcsSpre
          have hallYs : ∀ c ∈ Ys, c.all notSep = true := by
            intro c hc
            apply hallS c
            apply List.mem_append_left
            rw [← hYs]
            exact List.mem_append_right _ hc
          have hps : make_path_to_parent s = (renderPath csS, cS) := by
            rw [hpS]
            exact make_path_to_parent_render _ _ (compOk_last hokS)
          have hpt : make_path_to_parent t = (renderPath csT, cT) := by
            rw [hpT]
            exact make_path_to_parent_render _ _ (compOk_last hokT)
          have hrpS : renderPath csS =
              renderPath (commonStem (csS ++ [cS]) (csT ++ [cT]) ++ Ys) := by
            rw [hYs]
          have hdropS : (renderPath csS).drop
              ((renderPath (commonStem (csS ++ [cS]) (csT ++ [cT]))).length - 1)
              = renderPath Ys := by
            conv_lhs => rw [hrpS]
            exact drop_renderPath _ _
          rcases get_node_spec_root st WRITER
              (commonStem (csS ++ [cS]) (csT ++ [cT])) hwf hallStem with
            ⟨hdn0, hget0⟩ | ⟨lca, ids0, hd0, hne0, hget0, hdesc0⟩
          · unfold tree_move
            rw [if_neg (not_not_intro hv), if_neg hrs, if_neg hrt, if_neg hanc]
            simp only [hlca]
            simp only [hget0]
            exact hwf
          · rw [lockFin_WRITER] at hget0 hdesc0
            have hwf1 : WFs (writer_lock (bumpRefs st ids0) lca) :=
              shapeEq_wfs (shapeEq_wlock_bumps st ids0 lca) hwf
            unfold tree_move
            rw [if_neg (not_not_intro hv), if_neg hrs, if_neg hrt, if_neg hanc]
            simp only [hlca, hps, hpt]
            simp only [hget0]
            by_cases hppeq : renderPath csS = renderPath csT
            · rw [if_neg (not_not_intro hppeq)]
              have hcseq : csS = csT :=
                renderPath_inj (compOk_init hokS) (compOk_init hokT) hppeq
              have hstne : s ≠ t := fun he => hanc (he ▸ is_ancestor_self s)
              have hcc : cS ≠ cT := by
                intro he
                apply hstne
                rw [hpS, hpT, hcseq, he]
              have hstemEq : commonStem (csS ++ [cS]) (csT ++ [cT]) = csT := by
                rw [← hcseq]
                exact commonStem_of_ne_last csS cS cT hcc
              have hdropS2 : (renderPath csS).drop
                  ((renderPath (commonStem (csS ++ [cS]) (csT ++ [cT]))).length
                    - 1) = renderPath ([] : List Path) := by
                have h0 := drop_renderPath csS []
                rw [List.append_nil] at h0
                rw [hstemEq, ← hcseq]
                exact h0
              simp only [hdropS2]
              have hsec : get_node (writer_lock (bumpRefs st ids0) lca) lca
                  (renderPath ([] : List Path)) true WRITER
                  = (some lca, writer_lock (bumpRefs st ids0) lca) := by
                rw [get_node_true_def]
                exact get_node_go_root _ _ _ _ _ _
              simp only [hsec]
              cases hmg1 : hmap_get
                  (childrenOf (writer_lock (bumpRefs st ids0) lca) lca) cS with
              | none =>
                simp only [hmg1]
                rw [move_cleanup1_self st lca ids0 hdesc0]
                exact hwf
              | some sd =>
                simp only [hmg1]
                cases hmg2 : hmap_get
                    (childrenOf (writer_lock (bumpRefs st ids0) lca) lca)
                    cT with
                | none =>
                  simp only [hmg2]
                  unfold wait_until_subtree_activity_ceases
                  rcases child_backptr hwf1 hmg1 with ⟨nsd, hlsd, hpsd⟩
                  have hacyc : sd ∉ ids0.reverse :=
                    notMem_chain_of_child hwf1 hdesc0.chain hlsd hpsd
                  have htpmem : (lookupN
                      (writer_lock (bumpRefs st ids0) lca).nodes lca).isSome
                      = true := by
                    rcases upChain_head hdesc0.chain with ⟨M, hM⟩
                    apply upChain_inHeap hdesc0.chain lca
                    rw [hM]
                    exact List.mem_cons_self lca M
                  have hedge := wfs_move_edge
                    (writer_lock (bumpRefs st ids0) lca) lca lca sd cS cT
                    hwf1 hmg1 hmg2 htpmem ids0.reverse hdesc0.chain
                    hdesc0.nodup hacyc
                  have hswap : setParent (insertChild
                      (popChild (writer_lock (bumpRefs st ids0) lca) lca cS)
                      lca cT sd) sd (some lca)
                      = insertChild (setParent
                        (popChild (writer_lock (bumpRefs st ids0) lca) lca cS)
                        sd (some lca)) lca cT sd :=
                    adjust_adjust _ sd lca
                      (fun n => { n with parent := some lca })
                      (fun n => { n with children := n.children ++ [(cT, sd)] })
                      (fun n => rfl)
                  rw [hswap]
                  exact shapeEq_wfs (shapeEq_move_cleanup1 _ lca lca) hedge
                | some x =>
                  simp only [hmg2]
                  rw [if_neg hstne, if_neg hanc]
                  rw [move_cleanup1_self st lca ids0 hdesc0]
                  exact hwf
            · rw [if_pos hppeq]
              simp only [hdropS]
              rcases get_node_spec_locked (writer_lock (bumpRefs st ids0) lca)
                  lca ids0.reverse Ys WRITER hwf1 hdesc0 hallYs with
                ⟨hdsn, hgets⟩ | ⟨sp, ids1, hds, hdesc1, hcase1⟩
              · simp only [hgets]
                rw [wunlock_decRefs_layer]
                exact hwf
              · obtain ⟨ST2, hgets, hs⟩ :
                    ∃ ST2v, get_node (writer_lock (bumpRefs st ids0) lca) lca
                        (renderPath Ys) true WRITER = (some sp, ST2v) ∧
                      ((sp = lca ∧ ST2v = writer_lock (bumpRefs st ids0) lca ∧
                          ids1 = []) ∨
                       (ST2v = writer_lock
                          (bumpRefs (writer_lock (bumpRefs st ids0) lca) ids1)
                          sp ∧
                        Desc ST2v sp (ids1.reverse ++ ids0.reverse) ∧
                        ids1 ≠ [])) := by
                  rcases hcase1 with ⟨hY0, hid0, hdcur, heq⟩ | ⟨hY0, hid0, heq⟩
                  · exact ⟨_, by rw [hdcur]; exact heq,
                      Or.inl ⟨hdcur, rfl, hid0⟩⟩
                  · rw [lockFin_WRITER] at heq
                    rw [heq] at hdesc1
                    exact ⟨_, heq, Or.inr ⟨rfl, hdesc1, hid0⟩⟩
                simp only [hgets]
                have hse12 : ShapeEq (writer_lock (bumpRefs st ids0) lca)
                    ST2 := by
                  rcases hs with ⟨_, h2, _⟩ | ⟨h2, _, _⟩
                  · rw [h2]
                    exact shapeEq_refl _
                  · rw [h2]
                    exact shapeEq_wlock_bumps _ ids1 sp
                have hwf2 : WFs ST2 := shapeEq_wfs hse12 hwf1
                have hdesc0b : Desc ST2 lca ids0.reverse :=
                  desc_shapeEq hse12 hdesc0
                have htpmem2 : (lookupN ST2.nodes lca).isSome = true := by
                  rcases upChain_head hdesc0b.chain with ⟨M, hM⟩
                  apply upChain_inHeap hdesc0b.chain lca
                  rw [hM]
                  exact List.mem_cons_self lca M
                by_cases htdeg : commonStem (csS ++ [cS]) (csT ++ [cT])
                    = csT ++ [cT]
                · have hlenT : (renderPath csT).length ≤
                      (renderPath (commonStem (csS ++ [cS])
                        (csT ++ [cT]))).length - 1 := by
                    rw [htdeg, renderPath_concat_length]
                    omega
                  have hdropT : (renderPath csT).drop
                      ((renderPath (commonStem (csS ++ [cS])
                        (csT ++ [cT]))).length - 1) = [] :=
                    List.drop_eq_nil_of_le hlenT
                  simp only [hdropT]
                  have hgett : get_node ST2 lca [] true WRITER
                      = (some lca, ST2) := get_node_nil_locked ST2 lca WRITER
                  simp only [hgett]
                  cases hmg1 : hmap_get (childrenOf ST2 sp) cS with
                  | none =>
                    simp only [hmg1]
                    rw [move_cleanup2_restores st _ ST2 ST2 lca sp lca
                      ids0 ids1 [] rfl hdesc0 hs (Or.inl ⟨rfl, rfl, rfl⟩)]
                    exact hwf
                  | some sd =>
                    simp only [hmg1]
                    cases hmg2 : hmap_get (childrenOf ST2 lca) cT with
                    | none =>
                      simp only [hmg2]
                      unfold wait_until_subtree_activity_ceases
                      rcases child_backptr hwf2 hmg1 with ⟨nsd, hlsd, hpsd⟩
                      have hacyc : sd ∉ ids0.reverse := by
                        rcases hs with ⟨hsplca, hST2, hids1⟩ |
                          ⟨hST2, hdesc1b, hids1⟩
                        · rw [hsplca] at hpsd
                          exact notMem_chain_of_child hwf2 hdesc0b.chain
                            hlsd hpsd
                        · have hfull := notMem_chain_of_child hwf2
                            hdesc1b.chain hlsd hpsd
                          intro hmem
                          exact hfull (List.mem_append_right _ hmem)
                      have hedge := wfs_move_edge ST2 sp lca sd cS cT hwf2
                        hmg1 hmg2 htpmem2 ids0.reverse hdesc0b.chain
                        hdesc0b.nodup hacyc
                      exact shapeEq_wfs (shapeEq_move_cleanup2 _ sp lca lca)
                        hedge
                    | some x =>
                      simp only [hmg2]
                      rw [if_neg hanc]
                      rw [move_cleanup2_restores st _ ST2 ST2 lca sp lca
                        ids0 ids1 [] rfl hdesc0 hs (Or.inl ⟨rfl, rfl, rfl⟩)]
                      exact hwf
                · have hstemTlt : (commonStem (csS ++ [cS])
                      (csT ++ [cT])).length < (csT ++ [cT]).length := by
                    rcases lt_or_ge (commonStem (csS ++ [cS])
                        (csT ++ [cT])).length (csT ++ [cT]).length with h | h
                    · exact h
                    · exact absurd (prefix_eq_of_length_ge hstemT h) htdeg
                  have hcsTpre : commonStem (csS ++ [cS]) (csT ++ [cT])
                      <+: csT := by
                    have h2 := prefix_dropLast_of_proper hstemT hstemTlt
                    rw [List.dropLast_concat] at h2
                    exact h2
                  obtain ⟨Yt, hYt⟩ := hcsTpre
                  have hallYt : ∀ c ∈ Yt, c.all notSep = true := by
                    intro c hc
                    apply hallT c
                    apply List.mem_append_left
                    rw [← hYt]
                    exact List.mem_append_right _ hc
                  have hrpT : renderPath csT =
                      renderPath (commonStem (csS ++ [cS]) (csT ++ [cT])
                        ++ Yt) := by
                    rw [hYt]
                  have hdropT : (renderPath csT).drop
                      ((renderPath (commonStem (csS ++ [cS])
                        (csT ++ [cT]))).length - 1) = renderPath Yt := by
                    conv_lhs => rw [hrpT]
                    exact drop_renderPath _ _
                  simp only [hdropT]
                  rcases get_node_spec_locked ST2 lca ids0.reverse Yt WRITER
                      hwf2 hdesc0b hallYt with
                    ⟨hdtn, hgett⟩ | ⟨tp, ids2, hdt, hdesc2, hcase2⟩
                  · simp only [hgett]
                    rw [move_tfail_restores st _ ST2 lca sp ids0 ids1
                      rfl hdesc0 hs]
                    exact hwf
                  · obtain ⟨ST3, hgett, ht⟩ :
                        ∃ ST3v, get_node ST2 lca (renderPath Yt) true WRITER
                            = (some tp, ST3v) ∧
                          ((tp = lca ∧ ST3v = ST2 ∧ ids2 = []) ∨
                           (ST3v = writer_lock (bumpRefs ST2 ids2) tp ∧
                            Desc ST3v tp (ids2.reverse ++ ids0.reverse) ∧
                            ids2 ≠ [])) := by
                      rcases hcase2 with ⟨hY0, hid0, hdcur, heq⟩ |
                        ⟨hY0, hid0, heq⟩
                      · exact ⟨_, by rw [hdcur]; exact heq,
                          Or.inl ⟨hdcur, rfl, hid0⟩⟩
                      · rw [lockFin_WRITER] at heq
                        rw [heq] at hdesc2
                        exact ⟨_, heq, Or.inr ⟨rfl, hdesc2, hid0⟩⟩
                    simp only [hgett]
                    cases hmg1 : hmap_get (childrenOf ST3 sp) cS with
                    | none =>
                      simp only [hmg1]
                      rw [move_cleanup2_restores st _ ST2 ST3 lca sp tp
                        ids0 ids1 ids2 rfl hdesc0 hs ht]
                      exact hwf
                    | some sd =>
                      simp only [hmg1]
                      cases hmg2 : hmap_get (childrenOf ST3 tp) cT with
                      | none =>
                        simp only [hmg2]
                        unfold wait_until_subtree_activity_ceases
                        have hse23 : ShapeEq ST2 ST3 := by
                          rcases ht with ⟨-, h2, -⟩ | ⟨h2, -, -⟩
                          · rw [h2]
                            exact shapeEq_refl _
                          · rw [h2]
                            exact shapeEq_wlock_bumps _ ids2 tp
                        have hwf3 : WFs ST3 := shapeEq_wfs hse23 hwf2
                        have hse13 : ShapeEq
                            (writer_lock (bumpRefs st ids0) lca) ST3 :=
                          shapeEq_trans hse12 hse23
                        have hseall : ShapeEq st ST3 :=
                          shapeEq_trans (shapeEq_wlock_bumps st ids0 lca)
                            hse13
                        have hroot3 : ST3.root = st.root := shapeEq_root hseall
                        have hd0' : descend ST3 ST3.root
                            (commonStem (csS ++ [cS]) (csT ++ [cT]))
                            = some lca := by
                          rw [hroot3, shapeEq_descend hseall]
                          exact hd0
                        have hds' : descend ST3 lca Ys = some sp := by
                          rw [shapeEq_descend hse13]
                          exact hds
                        have hdt' : descend ST3 lca Yt = some tp := by
                          rw [shapeEq_descend hse23]
                          exact hdt
                        have hdsd1 : descend ST3 sp [cS] = some sd := by
                          show (match hmap_get (childrenOf ST3 sp) cS with
                                | none => none
                                | some c => descend ST3 c ([] : List Path))
                            = some sd
                          rw [hmg1]
                          rfl
                        have hdS : descend ST3 ST3.root
                            (commonStem (csS ++ [cS]) (csT ++ [cT])
                              ++ (Ys ++ [cS])) = some sd := by
                          rw [descend_append, hd0']
                          show descend ST3 lca (Ys ++ [cS]) = some sd
                          rw [descend_append, hds']
                          exact hdsd1
                        rcases ht with ⟨htplca, hST3, hids2⟩ |
                          ⟨hST3, hdesc2b, hids2⟩
                        · have hchainT : Desc ST3 tp ids0.reverse := by
                            rw [htplca]
                            exact desc_shapeEq hse23 hdesc0b
                          have hdP : descend ST3 ST3.root
                              (commonStem (csS ++ [cS]) (csT ++ [cT]))
                              = some tp := by
                            rw [htplca]
                            exact hd0'
                          have hnp : ¬ ((commonStem (csS ++ [cS])
                                (csT ++ [cT]) ++ (Ys ++ [cS]))
                              <+: commonStem (csS ++ [cS]) (csT ++ [cT])) := by
                            intro hpre
                            have hlen := hpre.length_le
                            rw [List.length_append, List.length_append]
                              at hlen
                            simp at hlen
                          have hacyc : sd ∉ ids0.reverse :=
                            acyc_from_paths hwf3 hdP hdS hchainT.chain hnp
                          have htpmem3 : (lookupN ST3.nodes tp).isSome
                              = true := by
                            rcases upChain_head hchainT.chain with ⟨M, hM⟩
                            apply upChain_inHeap hchainT.chain tp
                            rw [hM]
                            exact List.mem_cons_self tp M
                          have hedge := wfs_move_edge ST3 sp tp sd cS cT hwf3
                            hmg1 hmg2 htpmem3 ids0.reverse hchainT.chain
                            hchainT.nodup hacyc
                          exact shapeEq_wfs
                            (shapeEq_move_cleanup2 _ sp tp lca) hedge
                        · have hdP : descend ST3 ST3.root
                              (commonStem (csS ++ [cS]) (csT ++ [cT]) ++ Yt)
                              = some tp := by
                            rw [descend_append, hd0']
                            exact hdt'
                          have hnp : ¬ ((commonStem (csS ++ [cS])
                                (csT ++ [cT]) ++ (Ys ++ [cS]))
                              <+: (commonStem (csS ++ [cS]) (csT ++ [cT])
                                ++ Yt)) := by
                            intro hpre
                            have h2 : (Ys ++ [cS]) <+: Yt :=
                              prefix_append_cancel hpre
                            apply hnST
                            have h3 : csS ++ [cS] <+: csT := by
                              rcases h2 with ⟨r, hr⟩
                              refine ⟨r, ?_⟩
                              calc (csS ++ [cS]) ++ r
                                  = ((commonStem (csS ++ [cS]) (csT ++ [cT])
                                      ++ Ys) ++ [cS]) ++ r := by
                                    rw [hYs]
                                _ = commonStem (csS ++ [cS]) (csT ++ [cT])
                                    ++ ((Ys ++ [cS]) ++ r) := by
                                    simp [List.append_assoc]
                                _ = commonStem (csS ++ [cS]) (csT ++ [cT])
                                    ++ Yt := by
                                    rw [hr]
                                _ = csT := hYt
                            exact h3.trans (List.prefix_append csT [cT])
                          have hacyc : sd ∉ ids2.reverse ++ ids0.reverse :=
                            acyc_from_paths hwf3 hdP hdS hdesc2b.chain hnp
                          have htpmem3 : (lookupN ST3.nodes tp).isSome
                              = true := by
                            rcases upChain_head hdesc2b.chain with ⟨M, hM⟩
                            apply upChain_inHeap hdesc2b.chain tp
                            rw [hM]
                            exact List.mem_cons_self tp M
                          have hedge := wfs_move_edge ST3 sp tp sd cS cT hwf3
                            hmg1 hmg2 htpmem3 (ids2.reverse ++ ids0.reverse)
                            hdesc2b.chain hdesc2b.nodup hacyc
                          exact shapeEq_wfs
                            (shapeEq_move_cleanup2 _ sp tp lca) hedge
                      | some x =>
                        simp only [hmg2]
                        rw [if_neg hanc]
                        rw [move_cleanup2_restores st _ ST2 ST3 lca sp tp
                          ids0 ids1 ids2 rfl hdesc0 hs ht]
                        exact hwf
  · unfold tree_move
    rw [if_pos hv]
    exact hwf

/-- States reachable by completed operations from `tree_new`, restricted
to calls on which the C program's behaviour is defined: `tree_remove`
is restricted to syntactically valid paths (it skips validation, and
its parent-path scan is undefined behaviour on some invalid paths —
claim C3), and `tree_move` to targets that are not ancestors of the
source (on target-ancestor inputs the C descent reads uninitialized
stack memory at `Tree.c:371` — see the divergence note at
`tree_move`).  `tree_list` and `tree_create` validate their paths
themselves and are unrestricted. -/
inductive Reachable : TreeState → Prop
  | init : Reachable tree_new
  | list (st : TreeState) (p : Path) : Reachable st →
      Reachable (tree_list st p).2
  | create (st : TreeState) (p : Path) : Reachable st →
      Reachable (tree_create st p).2
  | remove (st : TreeState) (p : Path) : is_valid_path p = true →
      Reachable st → Reachable (tree_remove st p).2
  | move (st : TreeState) (s t : Path) : is_ancestor t s = false →
      Reachable st → Reachable (tree_move st s t).2

theorem wfs_of_reachable {st : TreeState} (h : Reachable st) : WFs st := by
  induction h with
  | init => exact wfs_tree_new
  | list st2 p h2 ih => exact wfs_tree_list st2 p ih
  | create st2 p h2 ih => exact wfs_tree_create st2 p ih
  | remove st2 p hv h2 ih => exact wfs_tree_remove st2 p ih
  | move st2 s2 t2 hna h2 ih => exact wfs_tree_move st2 s2 t2 ih

/-- A terminating parent chain of a well-formed state ends at the root. -/
theorem upChain_getLast_root {st : TreeState} (hwf : WFs st) {i : Nat}
    {e : Option Nat} {C : List Nat} (h : UpChain st i e C) (he : e = none) :
    C.getLast? = some st.root := by
  induction h with
  | single i2 n e2 hl hp =>
    have hroot : i2 = st.root :=
      hwf.parentNone (i2, n) (mem_of_lookupN hl) (by rw [hp, he])
    rw [hroot]
    rfl
  | step i2 n p e2 L hl hp hch ih =>
    obtain ⟨M, hM⟩ := upChain_head hch
    have h2 := ih he
    rw [hM] at h2 ⊢
    rw [List.getLast?_cons_cons]
    exact h2

/-- **C5.** After every sequence of completed operations starting from
`tree_new`, the heap is a tree: every non-root node `n` has a parent
`p`, and there is exactly one name under which `n` appears in `p`'s
children map (`p.children[name] == n`); and the parent graph is acyclic
and rooted — every node has a duplicate-free parent chain ending at the
root.  `Reachable` covers exactly the call sequences on which the C
program's behaviour is defined: `tree_remove` steps are restricted to
valid paths and `tree_move` steps to non-ancestor targets (see the
divergence notes at `Reachable` and `tree_move`); on the excluded
inputs the C reads uninitialized memory and has no determinate
successor state. -/
theorem c5_tree_integrity (st : TreeState) (h : Reachable st) :
    (∀ e ∈ st.nodes, e.1 ≠ st.root → ∃ p, e.2.parent = some p ∧
      ∃! name, hmap_get (childrenOf st p) name = some e.1) ∧
    (∀ e ∈ st.nodes, ∃ C, UpChain st e.1 none C ∧ C.Nodup ∧
      C.getLast? = some st.root) := by
  have hwf := wfs_of_reachable h
  constructor
  · intro e he hne
    cases hpar : e.2.parent with
    | none => exact absurd (hwf.parentNone e he hpar) hne
    | some p =>
      refine ⟨p, rfl, ?_⟩
      have hmem := hwf.parentInChildren e he p (by rw [hpar]; simp)
      rcases List.mem_map.mp hmem with ⟨en, hen, hend⟩
      cases hlp : lookupN st.nodes p with
      | none =>
        exfalso
        unfold childrenOf at hen
        rw [hlp] at hen
        simp at hen
      | some np =>
        have hcp : childrenOf st p = np.children := by
          unfold childrenOf
          rw [hlp]
        have hnd := hwf.childKeysNodup (p, np) (mem_of_lookupN hlp)
        refine ⟨en.1, ?_, ?_⟩
        · apply hmap_get_of_mem
          · rw [hcp]
            exact hnd
          · have heta : en = (en.1, e.1) := by
              rw [← hend]
            rw [← heta]
            exact hen
        · intro name2 hg2
          have hen2 := hmap_get_mem hg2
          rw [hcp] at hen hen2
          have h9 := hwf.childUnique (p, np) (mem_of_lookupN hlp) (p, np)
            (mem_of_lookupN hlp) (name2, e.1) hen2 en hen (by rw [hend])
          exact h9.2
  · intro e he
    have hok := hwf.chainOk e he
    rw [Option.isSome_iff_exists] at hok
    rcases hok with ⟨C, hC⟩
    have hch := chainUp_upChain hC
    exact ⟨C, hch, chainUp_nodup hC, upChain_getLast_root hwf hch rfl⟩

/-- Witness: the integrity property holds in the concrete state obtained
by creating `/a/` in a fresh tree. -/
theorem c5_tree_integrity_witness :
    Reachable (tree_create tree_new ['/', 'a', '/']).2 ∧
    ((∀ e ∈ (tree_create tree_new ['/', 'a', '/']).2.nodes,
        e.1 ≠ (tree_create tree_new ['/', 'a', '/']).2.root →
        ∃ p, e.2.parent = some p ∧
        ∃! name, hmap_get (childrenOf (tree_create tree_new
          ['/', 'a', '/']).2 p) name = some e.1) ∧
     (∀ e ∈ (tree_create tree_new ['/', 'a', '/']).2.nodes,
        ∃ C, UpChain (tree_create tree_new ['/', 'a', '/']).2 e.1 none C ∧
          C.Nodup ∧
          C.getLast? = some (tree_create tree_new ['/', 'a', '/']).2.root)) :=
  ⟨Reachable.create tree_new ['/', 'a', '/'] Reachable.init,
   c5_tree_integrity (tree_create tree_new ['/', 'a', '/']).2
     (Reachable.create tree_new ['/', 'a', '/'] Reachable.init)⟩
